import Mathlib

/-! Staking share pool (`go/staking/api/api.go`).


A shallow embedding of `SharePool` and its two operations, `Deposit` and
`Withdraw`, together with the `quantity` operations they call.

Go methods mutate their receivers and pointer arguments and return an `error`.
Here every operation takes the values held by those locations before the call
and returns an outcome record: the error (if any) and the values held by the
same locations after the call.  The record is also produced on failure, since
the Go code documents that a failing call may leave the locations half updated.
The pointer arguments of one call are taken to be pairwise distinct locations,
as they are where `go/staking/tests/tester.go` calls `Deposit`.
-/

/-- Errors that the embedded operations can return. `ErrInvalidArgument` and
`ErrInsufficientBalance` are declared in `go/staking/api/api.go`; the last one
stands for the failure of a checked division by zero. -/
inductive StakingError where
  | ErrInvalidArgument
  | ErrInsufficientBalance
  | ErrInvalidAmount
  deriving DecidableEq, Repr

namespace quantity

/-- Modelled from the spec: the `quantity.Quantity` type, whose package is not
among the sources. "Non-negative big integer. Invariant: never negative." -/
abbrev Quantity := Nat

/-- Modelled from the spec: `quantity.NewQuantity`, the canonical zero. -/
def NewQuantity : Quantity := 0

/-- Modelled from the spec: `Quantity.Clone`, value equality of the copy. -/
def Quantity.Clone (q : Quantity) : Quantity := q

/-- Modelled from the spec: `Quantity.IsZero`. -/
def Quantity.IsZero (q : Quantity) : Bool := q == 0

/-- Modelled from the spec: `Quantity.Add`, "no failure modes; saturates never —
arbitrary precision". The result is the new value of the receiver. -/
def Quantity.Add (q n : Quantity) : Except StakingError Quantity :=
  .ok (q + n)

/-- Modelled from the spec: `Quantity.Sub`, "fails with `InsufficientBalance` if
`self < other`". The result is the new value of the receiver. -/
def Quantity.Sub (q n : Quantity) : Except StakingError Quantity :=
  if q < n then .error .ErrInsufficientBalance else .ok (q - n)

/-- Modelled from the spec: `Quantity.Mul`, exact product. -/
def Quantity.Mul (q n : Quantity) : Except StakingError Quantity :=
  .ok (q * n)

/-- Modelled from the spec: `Quantity.Quo`, "integer division, truncated toward
zero"; being a checked operation it returns a failure on a zero divisor. -/
def Quantity.Quo (q n : Quantity) : Except StakingError Quantity :=
  if n = 0 then .error .ErrInvalidAmount else .ok (q / n)

/-- Modelled from the spec: `quantity.Move`, "atomic `src -= amount; dst +=
amount`; either both mutate or neither". The result is the pair of new values
`(dst, src)`. -/
def Move (dst src n : Quantity) : Except StakingError (Quantity × Quantity) :=
  match Quantity.Sub src n with
  | .error e => .error e
  | .ok src1 =>
    match Quantity.Add dst n with
    | .error e => .error e
    | .ok dst1 => .ok (dst1, src1)

end quantity

open quantity

/-- The Go struct `SharePool`: a combined balance of several entries, the
relative sizes of which are tracked through shares. -/
structure SharePool where
  Balance : Quantity
  TotalShares : Quantity
  deriving DecidableEq, Repr

/-- State of the locations touched by `SharePool.Deposit` when it returns. -/
structure DepositOutcome where
  err : Option StakingError
  pool : SharePool
  shareDst : Quantity
  tokenSrc : Quantity
  deriving DecidableEq, Repr

/-- State of the locations touched by `SharePool.Withdraw` when it returns. -/
structure WithdrawOutcome where
  err : Option StakingError
  pool : SharePool
  tokenDst : Quantity
  shareSrc : Quantity
  deriving DecidableEq, Repr

namespace SharePool

/-- The Go method `sharesForTokens`: the amount of shares for the given amount
of tokens. -/
def sharesForTokens (p : SharePool) (amount : Quantity) : Except StakingError Quantity :=
  if Quantity.IsZero p.TotalShares then
    -- No existing shares, exchange rate is 1:1.
    .ok (Quantity.Clone amount)
  else if Quantity.IsZero p.Balance then
    .error .ErrInvalidArgument
  else
    let q := Quantity.Clone amount
    -- Multiply first.
    match Quantity.Mul q p.TotalShares with
    | .error e => .error e
    | .ok q1 =>
      match Quantity.Quo q1 p.Balance with
      | .error e => .error e
      | .ok q2 => .ok q2

/-- The Go method `Deposit`: moves tokens into the combined balance, raising the
shares. Each early return reports the locations as the preceding steps left
them. -/
def Deposit (p : SharePool) (shareDst tokenSrc tokenAmount : Quantity) : DepositOutcome :=
  match p.sharesForTokens tokenAmount with
  | .error e => ⟨some e, p, shareDst, tokenSrc⟩
  | .ok shares =>
    match Move p.Balance tokenSrc tokenAmount with
    | .error e => ⟨some e, p, shareDst, tokenSrc⟩
    | .ok (balance1, tokenSrc1) =>
      match Quantity.Add p.TotalShares shares with
      | .error e => ⟨some e, ⟨balance1, p.TotalShares⟩, shareDst, tokenSrc1⟩
      | .ok totalShares1 =>
        match Quantity.Add shareDst shares with
        | .error e => ⟨some e, ⟨balance1, totalShares1⟩, shareDst, tokenSrc1⟩
        | .ok shareDst1 => ⟨none, ⟨balance1, totalShares1⟩, shareDst1, tokenSrc1⟩

/-- The Go method `tokensForShares`: the amount of tokens for the given amount
of shares. -/
def tokensForShares (p : SharePool) (amount : Quantity) : Except StakingError Quantity :=
  if Quantity.IsZero amount || Quantity.IsZero p.Balance || Quantity.IsZero p.TotalShares then
    -- No existing shares or no balance means no tokens.
    .ok NewQuantity
  else
    let q := Quantity.Clone amount
    -- Multiply first.
    match Quantity.Mul q p.Balance with
    | .error e => .error e
    | .ok q1 =>
      match Quantity.Quo q1 p.TotalShares with
      | .error e => .error e
      | .ok q2 => .ok q2

/-- The Go method `Withdraw`: moves tokens out of the combined balance, reducing
the shares. Each early return reports the locations as the preceding steps
left them. -/
def Withdraw (p : SharePool) (tokenDst shareSrc shareAmount : Quantity) : WithdrawOutcome :=
  match p.tokensForShares shareAmount with
  | .error e => ⟨some e, p, tokenDst, shareSrc⟩
  | .ok tokens =>
    match Quantity.Sub shareSrc shareAmount with
    | .error e => ⟨some e, p, tokenDst, shareSrc⟩
    | .ok shareSrc1 =>
      match Quantity.Sub p.TotalShares shareAmount with
      | .error e => ⟨some e, p, tokenDst, shareSrc1⟩
      | .ok totalShares1 =>
        match Move tokenDst p.Balance tokens with
        | .error e => ⟨some e, ⟨p.Balance, totalShares1⟩, tokenDst, shareSrc1⟩
        | .ok (tokenDst1, balance1) => ⟨none, ⟨balance1, totalShares1⟩, tokenDst1, shareSrc1⟩

/-- The pool invariant of the data model: the balance is zero exactly when no
shares are issued. -/
def balanceZeroIffNoShares (p : SharePool) : Prop :=
  p.Balance = 0 ↔ p.TotalShares = 0

instance (p : SharePool) : Decidable p.balanceZeroIffNoShares :=
  inferInstanceAs (Decidable (p.Balance = 0 ↔ p.TotalShares = 0))

end SharePool

/-! ## Stake accumulator (`go/staking/api/api.go`)

Go maps are embedded as association lists with distinct keys; the order of the
entries stands for the order in which one `range` loop visits them, so a
statement proved for every association list holds for every iteration order.
A Go slice value is an optional list: `none` is the nil slice, `some l` a
non-nil slice holding the elements `l`.
-/

/-- The Go type `ThresholdKind`, an `int`. -/
abbrev ThresholdKind := Int

def KindEntity : ThresholdKind := 0
def KindNodeValidator : ThresholdKind := 1
def KindNodeCompute : ThresholdKind := 2
def KindNodeStorage : ThresholdKind := 3
def KindNodeKeyManager : ThresholdKind := 4
def KindRuntimeCompute : ThresholdKind := 5
def KindRuntimeKeyManager : ThresholdKind := 6
def KindMax : ThresholdKind := KindRuntimeKeyManager

/-- The Go type `StakeClaim`, a `string`. -/
abbrev StakeClaim := String

/-- A value of the Go type `[]ThresholdKind`; `none` is the nil slice. -/
abbrev ThresholdSlice := Option (List ThresholdKind)

/-- A non-nil value of the Go type `map[StakeClaim][]ThresholdKind`. -/
abbrev ClaimMap := AList (fun _ : StakeClaim => ThresholdSlice)

/-- Equality of Go maps in this embedding is equality of their entry lists. -/
instance instDecidableEqGoMap {K V : Type} [DecidableEq K] [DecidableEq V] :
    DecidableEq (AList (fun _ : K => V)) :=
  fun a b => decidable_of_iff (a.entries = b.entries) ⟨AList.ext, congrArg AList.entries⟩

/-- A value of the Go type `map[ThresholdKind]quantity.Quantity` as the code
reads it: by indexing only, absent kinds (and every kind of a nil map) reading
as the zero quantity. -/
abbrev ThresholdMap := ThresholdKind → Quantity

/-- Errors of the stake accumulator operations: `ErrInsufficientStake` of
`go/staking/api/api.go` and the two errors built with `fmt.Errorf`. -/
inductive ClaimError where
  | ErrInsufficientStake
  | claimDoesNotExist (claim : StakeClaim)
  | failedToAccumulate (cause : StakingError)
  deriving DecidableEq, Repr

namespace quantity

/-- Modelled from the spec: `Quantity.Cmp`, the three-way comparison of two
quantities (`-1`, `0` or `1`), used where the spec compares a total "against
active balance". -/
def Quantity.Cmp (q n : Quantity) : Int :=
  if q < n then -1 else if q = n then 0 else 1

end quantity

/-- The Go struct `StakeAccumulator`; `Claims = none` is the nil map. -/
structure StakeAccumulator where
  Claims : Option ClaimMap
  deriving DecidableEq

/-- The Go struct `EscrowAccount`, without its commission schedule, which the
embedded methods neither read nor write. -/
structure EscrowAccount where
  Active : SharePool
  Debonding : SharePool
  StakeAccumulator : StakeAccumulator
  deriving DecidableEq

/-- Result of a method that returns an `error` and may write the stake
accumulator of its receiver. -/
structure AccumulatorOutcome where
  err : Option ClaimError
  acc : StakeAccumulator
  deriving DecidableEq

/-- Result of a method that returns an `error` and may write its escrow
account receiver. -/
structure EscrowOutcome where
  err : Option ClaimError
  account : EscrowAccount
  deriving DecidableEq

/-- The loop `for _, kind := range claim { q := thresholds[kind]; total.Add(&q) }`
that both `TotalClaims` and `AddStakeClaim` run, wrapping a failure of `Add`
as "failed to accumulate threshold". -/
def accumulateThresholds (thresholds : ThresholdMap) (total : Quantity)
    (claim : ThresholdSlice) : Except ClaimError Quantity :=
  (claim.getD []).foldlM
    (fun (total : Quantity) (kind : ThresholdKind) =>
      match Quantity.Add total (thresholds kind) with
      | .error e => .error (.failedToAccumulate e)
      | .ok total1 => .ok total1)
    total

namespace StakeAccumulator

/-- The value read by the Go expression `sa.Claims[claim]` together with its
presence flag: `none` when the key is absent (or the map nil), `some v` when it
is present with value `v`. -/
def lookup (sa : StakeAccumulator) (claim : StakeClaim) : Option ThresholdSlice :=
  match sa.Claims with
  | none => none
  | some claims => claims.lookup claim

/-- The Go method `AddClaimUnchecked`: adds a new claim without checking its
validity, allocating the map when it is nil. -/
def AddClaimUnchecked (sa : StakeAccumulator) (claim : StakeClaim)
    (thresholds : ThresholdSlice) : StakeAccumulator :=
  let claims : ClaimMap :=
    match sa.Claims with
    | none => ∅
    | some claims => claims
  ⟨some (claims.insert claim thresholds)⟩

/-- The Go method `RemoveClaim`: removes a given stake claim. The guard
`sa.Claims[claim] == nil` reads the zero value, the nil slice, for an absent
key. -/
def RemoveClaim (sa : StakeAccumulator) (claim : StakeClaim) : AccumulatorOutcome :=
  match sa.Claims with
  | none => ⟨some (.claimDoesNotExist claim), sa⟩
  | some claims =>
    if ((claims.lookup claim).getD none).isNone then
      ⟨some (.claimDoesNotExist claim), sa⟩
    else
      ⟨none, ⟨some (claims.erase claim)⟩⟩

/-- The Go method `TotalClaims`: the total amount of stake claims in the
accumulator, skipping the claim `exclude` when one is given. The receiver is
the accumulator field of an account and is never a nil pointer. -/
def TotalClaims (sa : StakeAccumulator) (thresholds : ThresholdMap)
    (exclude : Option StakeClaim) : Except ClaimError Quantity :=
  match sa.Claims with
  | none => .ok NewQuantity
  | some claims =>
    claims.entries.foldlM
      (fun (total : Quantity) (entry : Sigma fun _ : StakeClaim => ThresholdSlice) =>
        if exclude = some entry.1 then .ok total
        else accumulateThresholds thresholds total entry.2)
      (0 : Quantity)

end StakeAccumulator

namespace EscrowAccount

/-- The Go method `CheckStakeClaims`: whether the escrow account balance
satisfies all the stake claims. -/
def CheckStakeClaims (e : EscrowAccount) (tm : ThresholdMap) : Option ClaimError :=
  match e.StakeAccumulator.TotalClaims tm none with
  | .error err => some err
  | .ok totalClaims =>
    if Quantity.Cmp e.Active.Balance totalClaims < 0 then some .ErrInsufficientStake
    else none

/-- The Go method `AddStakeClaim`: attempts to add a stake claim to the escrow
account. -/
def AddStakeClaim (e : EscrowAccount) (tm : ThresholdMap) (claim : StakeClaim)
    (thresholds : ThresholdSlice) : EscrowOutcome :=
  -- Total amount of claims excluding the claim that is being added.
  match e.StakeAccumulator.TotalClaims tm (some claim) with
  | .error err => ⟨some err, e⟩
  | .ok totalClaims0 =>
    match accumulateThresholds tm totalClaims0 thresholds with
    | .error err => ⟨some err, e⟩
    | .ok totalClaims =>
      -- Make sure there is sufficient stake to satisfy the claim.
      if Quantity.Cmp e.Active.Balance totalClaims < 0 then
        ⟨some .ErrInsufficientStake, e⟩
      else
        ⟨none, { e with
          StakeAccumulator := e.StakeAccumulator.AddClaimUnchecked claim thresholds }⟩

/-- The Go method `RemoveStakeClaim`: removes a given stake claim. -/
def RemoveStakeClaim (e : EscrowAccount) (claim : StakeClaim) : EscrowOutcome :=
  let r := e.StakeAccumulator.RemoveClaim claim
  ⟨r.err, { e with StakeAccumulator := r.acc }⟩

end EscrowAccount

/-- Sum of the threshold quantities of the kinds listed in one claim. -/
def claimSum (tm : ThresholdMap) (claim : ThresholdSlice) : Nat :=
  ((claim.getD []).map tm).sum

/-- Sum of `claimSum` over the claims of an accumulator whose id is not
`exclude`. -/
def claimsSum (tm : ThresholdMap) (sa : StakeAccumulator) (exclude : Option StakeClaim) : Nat :=
  match sa.Claims with
  | none => 0
  | some claims =>
    ((claims.entries.filter fun entry => decide (exclude ≠ some entry.1)).map
      fun entry => claimSum tm entry.2).sum

/-- Thresholds of the stake-claim scenario: `Entity = 100`, `NodeCompute = 900`
and no other kind set. -/
def scenarioThresholds : ThresholdMap :=
  fun kind => if kind = KindEntity then 100 else if kind = KindNodeCompute then 900 else 0

/-- Escrow account of the stake-claim scenario holding the given accumulator:
an active balance of 1000 and nothing debonding. -/
def scenarioAccount (sa : StakeAccumulator) : EscrowAccount :=
  ⟨⟨1000, 1000⟩, ⟨0, 0⟩, sa⟩

/-- Accumulator of the stake-claim scenario after `"node-X"` has been added. -/
def scenarioNodeX : StakeAccumulator :=
  ⟨some (AList.singleton "node-X" (some [KindEntity, KindNodeCompute]))⟩

/-! ## Scheduler (`go/consensus/tendermint/apps/scheduler/scheduler.go`) -/

/-- A value of the Go type `map[signature.PublicKey]int64` as `diffValidators`
reads it: entries in iteration order with distinct keys, a nil map being read
like an empty one. The key type stands for `signature.PublicKey`. -/
abbrev ValidatorMap (K : Type) := AList (fun _ : K => Int)

/-- Modelled from the spec: the validator update handed to the consensus
engine, whose type is declared outside the sources; a public key with its new
voting power, power 0 meaning removal. -/
structure ValidatorUpdate (K : Type) where
  PubKey : K
  Power : Int
  deriving DecidableEq, Repr

/-- Modelled from the spec: `api.PublicKeyToValidatorUpdate`, which is declared
outside the sources; it pairs the key with the power. -/
def PublicKeyToValidatorUpdate {K : Type} (v : K) (power : Int) : ValidatorUpdate K :=
  ⟨v, power⟩

/-- The Go function `diffValidators` (logging left out): the updates that turn
the current validator set into the pending one. -/
def diffValidators {K : Type} [DecidableEq K] (current pending : ValidatorMap K) :
    List (ValidatorUpdate K) :=
  let updates : List (ValidatorUpdate K) :=
    current.entries.foldl
      (fun (updates : List (ValidatorUpdate K)) (entry : Sigma fun _ : K => Int) =>
        match pending.lookup entry.1 with
        | none =>
          -- Existing validator is not part of the new set, reduce its
          -- voting power to 0, to indicate removal.
          updates ++ [PublicKeyToValidatorUpdate entry.1 0]
        | some _ => updates)
      []
  pending.entries.foldl
    (fun (updates : List (ValidatorUpdate K)) (entry : Sigma fun _ : K => Int) =>
      let keep : Bool :=
        match current.lookup entry.1 with
        | some curPower => curPower == entry.2
        | none => false
      if keep then updates
      else
        -- We're adding this validator or changing its power.
        updates ++ [PublicKeyToValidatorUpdate entry.1 entry.2])
    updates

/-- Modelled from the spec: the committee roles, declared outside the sources:
"Roles: `Worker`, `BackupWorker`, `Leader`". -/
inductive Role where
  | Worker
  | BackupWorker
  | Leader
  deriving DecidableEq, Repr

/-- Modelled from the spec: a committee member `{role, node_pubkey}`, the Go
struct `scheduler.CommitteeNode` declared outside the sources. -/
structure CommitteeNode (K : Type) where
  Role : Role
  PublicKey : K
  deriving DecidableEq, Repr

/-- The fields of the Go struct `node.Node` that the election reads. -/
structure Node (K : Type) where
  ID : K
  EntityID : K
  deriving DecidableEq, Repr

/-- The value of a Go `int` expression: the mathematical result wrapped into
the signed 64-bit range. -/
def wrapInt (x : Int) : Int :=
  (x + 9223372036854775808) % 18446744073709551616 - 9223372036854775808

/-- The Go slice read `nodeList[idx]`; `none` stands for the run-time panic on
an index out of range. -/
def nodeAt {K : Type} (nodeList : List (Node K)) (idx : Int) : Option (Node K) :=
  if idx < 0 then none else nodeList[idx.toNat]?

/-- What `electCommittee` does for one runtime and committee kind. -/
inductive ElectionOutcome (K : Type) where
  /-- `DropCommittee` was called and `nil` returned. -/
  | dropCommittee
  /-- `PutCommittee` was called with these members. -/
  | putCommittee (members : List (CommitteeNode K))
  /-- `GetPerm` failed and its error was returned. -/
  | failed
  /-- A slice index was out of range. -/
  | panicked
  /-- `nil` was returned at once, the committee being neither dropped nor
  stored: the runtime is not a compute runtime and the kind is not the
  executor kind. -/
  | skipped
  /-- The error "invalid committee type" was returned. -/
  | invalidKind
  /-- `kind.NeedsLeader()` failed and its error was returned. -/
  | leaderError
  deriving DecidableEq, Repr

/-- The role that iteration `i` of the member loop of `electCommittee` assigns:
`Worker`, replaced by `Leader` if `i == 0 && needsLeader`, else by
`BackupWorker` if `i >= workerSize`. -/
def roleFor (needsLeader : Bool) (workerSize : Int) (i : Nat) : Role :=
  if i = 0 ∧ needsLeader = true then Role.Leader
  else if (i : Int) ≥ workerSize then Role.BackupWorker
  else Role.Worker

/-- The member loop of `electCommittee`, `for i := 0; i < len(idxs); i++`, from
iteration `i` on, where `idxs` holds the indices not yet visited and `members`
the members appended so far. -/
def electMembers {K : Type} (needsLeader : Bool) (workerSize wantedNodes : Int)
    (nodeList : List (Node K)) :
    List Int → Nat → List (CommitteeNode K) → Option (List (CommitteeNode K))
  | [], _, members => some members
  | idx :: rest, i, members =>
    let role : Role := roleFor needsLeader workerSize i
    match nodeAt nodeList idx with
    | none => none
    | some n =>
      let members1 := members ++ [⟨role, n.ID⟩]
      if (members1.length : Int) ≥ wantedNodes then some members1
      else electMembers needsLeader workerSize wantedNodes nodeList rest (i + 1) members1

/-- The part of the Go method `electCommittee` that follows the choice of the
committee sizes and of `needsLeader`: the node filter, the two size guards and
the election. `nodes` are the registered nodes, `hasStake n` tells whether the
stake check of the entity of `n` passes (or is bypassed), `isSuitable n` is
`isSuitableFn`, and `getPerm nrNodes` is the result of
`GetPerm(beacon, rt.ID, rngCtx, nrNodes)`, `none` for an error. The recording of
entities eligible for rewards is left out. -/
def electCommitteeBody {K : Type} (needsLeader : Bool) (workerSize backupSize : Int)
    (nodes : List (Node K)) (hasStake isSuitable : Node K → Bool)
    (getPerm : Int → Option (List Int)) : ElectionOutcome K :=
  let nodeList := nodes.filter fun n => hasStake n && isSuitable n
  -- Ensure that it is theoretically possible to elect a valid committee.
  if workerSize = 0 then .dropCommittee
  else
    let nrNodes : Int := nodeList.length
    let wantedNodes : Int := wrapInt (workerSize + backupSize)
    if wantedNodes > nrNodes then .dropCommittee
    else
      -- Do the actual election.
      match getPerm nrNodes with
      | none => .failed
      | some idxs =>
        match electMembers needsLeader workerSize wantedNodes nodeList idxs 0 [] with
        | none => .panicked
        | some members =>
          if (members.length : Int) ≠ wantedNodes then .dropCommittee
          else .putCommittee members

/-- Modelled from the spec: the committee kinds, declared outside the sources;
the four kinds that `electCommittee` elects ("Compute", "Storage",
"TransactionScheduler", "Merge") and `KindInvalid` for every other value of the
type. -/
inductive CommitteeKind where
  | KindComputeExecutor
  | KindComputeTxnScheduler
  | KindComputeMerge
  | KindStorage
  | KindInvalid
  deriving DecidableEq, Repr

/-- The fields of the Go struct `registry.Runtime` that `electCommittee` reads:
the result of `rt.IsCompute()` and the unsigned group sizes of its committees. -/
structure Runtime where
  IsCompute : Bool
  ExecutorGroupSize : Nat
  ExecutorGroupBackupSize : Nat
  MergeGroupSize : Nat
  MergeGroupBackupSize : Nat
  TxnSchedulerGroupSize : Nat
  StorageGroupSize : Nat
  deriving DecidableEq, Repr

/-- The `switch kind` of `electCommittee`: the pair `(workerSize, backupSize)`
of Go `int`s converted from the group sizes of the runtime, `backupSize`
keeping its zero value where it is not assigned; `none` for the default case,
which returns the error "invalid committee type". -/
def committeeSizes (rt : Runtime) (kind : CommitteeKind) : Option (Int × Int) :=
  match kind with
  | .KindComputeExecutor =>
    some (wrapInt rt.ExecutorGroupSize, wrapInt rt.ExecutorGroupBackupSize)
  | .KindComputeMerge => some (wrapInt rt.MergeGroupSize, wrapInt rt.MergeGroupBackupSize)
  | .KindComputeTxnScheduler => some (wrapInt rt.TxnSchedulerGroupSize, 0)
  | .KindStorage => some (wrapInt rt.StorageGroupSize, 0)
  | .KindInvalid => none

/-- The Go method `electCommittee`. `needsLeader kind` is the result of
`kind.NeedsLeader()`, declared outside the sources, `none` for its error;
`isSuitable kind` is the `isSuitableFn` and `getPerm kind` the `GetPerm` call
with the `rngCtx` that the `switch` picks for the kind; `nodes` and `hasStake`
are as in `electCommitteeBody`. -/
def electCommittee {K : Type} (rt : Runtime) (kind : CommitteeKind)
    (needsLeader : CommitteeKind → Option Bool) (nodes : List (Node K))
    (hasStake : Node K → Bool) (isSuitable : CommitteeKind → Node K → Bool)
    (getPerm : CommitteeKind → Int → Option (List Int)) : ElectionOutcome K :=
  -- Only generic compute runtimes need to elect all the committees.
  if rt.IsCompute = false ∧ kind ≠ CommitteeKind.KindComputeExecutor then .skipped
  else
    -- Determine the context, committee size, and pre-filter the node-list
    -- based on eligibility and entity stake.
    match committeeSizes rt kind with
    | none => .invalidKind
    | some (workerSize, backupSize) =>
      match needsLeader kind with
      | none => .leaderError
      | some leader =>
        electCommitteeBody leader workerSize backupSize nodes hasStake (isSuitable kind)
          (getPerm kind)

/-- Current validator map of the validator-diff scenario, `{A: 10, B: 20}`. -/
def scenarioCurrent : ValidatorMap String :=
  (AList.singleton "B" (20 : Int)).insert "A" 10

/-- Pending validator map of the validator-diff scenario, `{A: 10, C: 30}`. -/
def scenarioPending : ValidatorMap String :=
  (AList.singleton "C" (30 : Int)).insert "A" 10

/-- Runtime of the committee scenario: a compute runtime whose executor
committee has two workers and one backup worker. -/
def scenarioRuntime : Runtime :=
  ⟨true, 2, 1, 0, 0, 0, 0⟩

/-- Eligible nodes of the committee scenario, `N1`, `N2`, `N3`, each run by its
own entity. -/
def scenarioNodes : List (Node String) :=
  [⟨"N1", "E1"⟩, ⟨"N2", "E2"⟩, ⟨"N3", "E3"⟩]

/-- A permutation of the three node indices, standing for the list that
`GetPerm` returns in the committee scenario. -/
def scenarioPerm : Int → Option (List Int) :=
  fun _ => some [2, 0, 1]

/-- The map `{A: 10, B: 20}` of the validator-diff scenario with its entries
visited in the other order, `B` before `A`. -/
def scenarioCurrentReversed : ValidatorMap String :=
  (AList.singleton "A" (10 : Int)).insert "B" 20

/-! ## Addresses (`go/common/crypto/address/address.go`, `go/staking/api/address.go`) -/

namespace address

/-- Addresses are 20 bytes long. -/
def Size : Nat := 20

/-- The Go type `Address`, `[Size]byte`: a byte array of exactly `Size`
elements. -/
structure Address where
  bytes : List (Fin 256)
  size_eq : bytes.length = Size
  deriving DecidableEq

/-- The zero value of `Address`. -/
def Address.zero : Address := ⟨List.replicate Size 0, List.length_replicate _ _⟩

/-- The Go method `UnmarshalBinary`: decodes a binary marshaled address; the
result is whether `ErrMalformed` was returned and the new value of the
receiver. -/
def Address.UnmarshalBinary (a : Address) (data : List (Fin 256)) : Bool × Address :=
  if h : data.length = Size then (false, ⟨data, h⟩) else (true, a)

/-- The Go method `IsValid`: checks whether an address is well-formed. The
blacklist test is commented out in the source. -/
def Address.IsValid (a : Address) : Bool :=
  if a.bytes.length ≠ Size then false
  else
    -- TODO: Transition from public key blacklisting to account blacklisting.
    true

/-- The Go function `NewFromPublicKey`: creates a new address by hashing and
truncating a public key. `truncatedHash` stands for `pk.Hash().Truncate(Size)`
of the signature package, which is outside the sources. -/
def NewFromPublicKey (truncatedHash : List (Fin 256) → List (Fin 256))
    (pk : List (Fin 256)) : Address :=
  (Address.zero.UnmarshalBinary (truncatedHash pk)).2

end address

/-- The bytes of the blacklisted key
`1abe11edc001ffffffffffffffffffffffffffffffffffffffffffffffffffff`. -/
def commonPoolKey : List (Fin 256) :=
  [0x1a, 0xbe, 0x11, 0xed, 0xc0, 0x01] ++ List.replicate 26 0xff

/-- The bytes of the blacklisted key
`1abe11edfeeaccffffffffffffffffffffffffffffffffffffffffffffffffff`. -/
def feeAccumulatorKey : List (Fin 256) :=
  [0x1a, 0xbe, 0x11, 0xed, 0xfe, 0xea, 0xcc] ++ List.replicate 25 0xff

/-- The Go variable `CommonPoolAddress` of `go/staking/api/api.go`. -/
def CommonPoolAddress (truncatedHash : List (Fin 256) → List (Fin 256)) : address.Address :=
  address.NewFromPublicKey truncatedHash commonPoolKey

/-- The Go variable `FeeAccumulatorAddress` of `go/staking/api/api.go`. -/
def FeeAccumulatorAddress (truncatedHash : List (Fin 256) → List (Fin 256)) :
    address.Address :=
  address.NewFromPublicKey truncatedHash feeAccumulatorKey

/-! ## Permutations from the DRBG -/

/-- Modelled from the spec: the DRBG and the random source built on it, whose
packages are outside the sources: "deterministic byte stream from (seed,
context)", "seeded as (entropy=beacon, personalization=runtime_id,
context=rng_ctx)", from which each step draws "a uniform index in `[0..k)`".
`New` is `drbg.New`, `none` standing for its error; `Intn s k` is the index
drawn in state `s` for the bound `k`, with the state that follows. -/
structure Drbg (σ : Type) where
  New : List (Fin 256) → List (Fin 256) → List (Fin 256) → Option σ
  Intn : σ → Nat → Nat × σ
  Intn_lt : ∀ (s : σ) (k : Nat), 0 < k → (Intn s k).1 < k

/-- Modelled from the spec: the steps `i, i + 1, …` of `rng.Perm`, "a
Fisher-Yates shuffle of `[0..n)` using the DRBG as the randomness source", in
the form that fills the slice from the left: at step `i` an index `j` in
`[0..i]` is drawn, slot `i` takes the value of slot `j` and slot `j` takes `i`.
`m` holds the slots filled so far and `steps` counts the steps left. -/
def permSteps {σ : Type} (d : Drbg σ) : Nat → Nat → σ → List Nat → List Nat
  | 0, _, _, m => m
  | steps + 1, i, s, m =>
    let r := d.Intn s (i + 1)
    permSteps d steps (i + 1) r.2 ((m ++ [m.getD r.1 0]).set r.1 i)

/-- Modelled from the spec: `rng.Perm(n)` for `n ≥ 0`. -/
def Perm {σ : Type} (d : Drbg σ) (s : σ) (n : Nat) : List Nat :=
  permSteps d n 0 s []

/-- What a call of `GetPerm` does. -/
inductive PermOutcome where
  /-- The permutation was returned with a nil error. -/
  | ok (idxs : List Int)
  /-- The DRBG could not be instantiated and an error was returned. -/
  | failed
  /-- A slice of negative length was requested. -/
  | panicked
  deriving DecidableEq, Repr

/-- The Go function `GetPerm`: generates a permutation that is used to choose
nodes from a list of eligible nodes to elect. -/
def GetPerm {σ : Type} (d : Drbg σ) (beacon runtimeID rngCtx : List (Fin 256))
    (nrNodes : Int) : PermOutcome :=
  match d.New beacon runtimeID rngCtx with
  | none => .failed
  | some s =>
    if nrNodes < 0 then .panicked
    else .ok ((Perm d s nrNodes.toNat).map Int.ofNat)

/-- A small deterministic generator for examples: the state is a counter and
the index drawn for the bound `k` is `(7 * s + 3) % k`. -/
def exampleDrbg : Drbg Nat where
  New := fun beacon _ _ => some beacon.length
  Intn := fun s k => ((7 * s + 3) % k, s + 1)
  Intn_lt := fun _ _ hk => Nat.mod_lt _ hk

/-! ## Timers (`go/tendermint/abci/timer.go`) -/

/-- The Go struct `timerState`, with the deadline reduced to the Unix seconds
that `getDeadlineMapKey` reads from it and without the opaque data. -/
structure timerState where
  ID : String
  App : String
  Armed : Bool
  Deadline : Int
  deriving DecidableEq, Repr

/-- The Go method `getDeadlineMapKey`: the key
`fmt.Sprintf("timers/deadline/%d/%s", s.Deadline.Unix(), s.ID)`. -/
def timerState.getDeadlineMapKey (s : timerState) : List Char :=
  ("timers/deadline/" ++ toString s.Deadline ++ "/" ++ s.ID).data

/-- Modelled from the spec: the order of the keys of the state tree, byte
strings compared lexicographically; `keyLt a b` is `bytes.Compare(a, b) < 0`. -/
def keyLt : List Char → List Char → Bool
  | [], [] => false
  | [], _ :: _ => true
  | _ :: _, [] => false
  | a :: as, b :: bs =>
    if a.toNat < b.toNat then true
    else if b.toNat < a.toNat then false
    else keyLt as bs

/-- Modelled from the spec: the "range-iterate" operation of the state tree,
which is outside the sources: the entries whose key lies in `[start, end)`, in
ascending key order. -/
def IterateRange {V : Type} (tree : List (List Char × V)) (start stop : List Char) :
    List (List Char × V) :=
  (tree.filter fun kv => !keyLt kv.1 start && keyLt kv.1 stop).insertionSort
    fun a b => keyLt b.1 a.1 = false

/-- The persisted timers as `fireTimers` reads them: the entries
`timers/id/<id>` (timer id and decoded state) and the entries of the deadline
index (key and timer id). -/
structure TimerStore where
  states : List (String × timerState)
  deadlines : List (List Char × String)

/-- The Go function `fireTimers`: iterates through all timers which have
already expired. The result lists the states passed to `FireTimer`, in order;
`none` stands for the panic on a deadline entry without timer state. -/
def fireTimers (store : TimerStore) (now : Int) (appName : String) :
    Option (List timerState) :=
  (IterateRange store.deadlines "timers/deadline/".data
      ("timers/deadline/" ++ toString (now + 1)).data).foldl
    (fun (fired : Option (List timerState)) (entry : List Char × String) =>
      match fired with
      | none => none
      | some fired =>
        match store.states.lookup entry.2 with
        | none => none
        | some ts => if ts.App ≠ appName then some fired else some (fired ++ [ts]))
    (some [])

/-- The store left by one timer `id` of application `app` that was armed with
the given deadline: its state under `timers/id/<id>` and its entry in the
deadline index, as `persist` writes them. -/
def armedStore (app id : String) (deadline : Int) : TimerStore :=
  let ts : timerState := ⟨app ++ ":" ++ id, app, true, deadline⟩
  ⟨[(id, ts)], [(ts.getDeadlineMapKey, id)]⟩

/-! ## Validator election -/

/-- Modelled from the spec: the stake accumulator cache, declared outside the
sources, as the election reads it, by entity: whether the entity's "active
escrow balance satisfies all its current stake claims" and its escrow balance,
`none` standing for a failed look-up. -/
structure StakeCache (K : Type) where
  CheckStakeClaims : K → Bool
  GetEscrowBalance : K → Option Quantity

/-- The fields of `scheduler.ConsensusParameters` that `electValidators`
reads, each a Go `int`. -/
structure ValidatorParams where
  MinValidators : Int
  MaxValidators : Int
  MaxValidatorsPerEntity : Int
  deriving DecidableEq, Repr

/-- The Go function `publicKeyMapToSortedSlice`: the keys of the map in
iteration order, then sorted by `bytes.Compare`, which the order of `K` stands
for. -/
def publicKeyMapToSortedSlice {K : Type} [LinearOrder K] (m : AList (fun _ : K => Bool)) :
    List K :=
  m.keys.insertionSort (fun a b => a ≤ b)

/-- The escrow balance that the comparison of the stable sort reads for an
entity whose look-up succeeds. -/
def balanceOf {K : Type} (acc : StakeCache K) (entity : K) : Quantity :=
  (acc.GetEscrowBalance entity).getD 0

/-- The Go function `publicKeyMapToSliceByStake`; `none` is an error return.
`shuffle` stands for the instantiation of the DRBG (`none` when it fails)
followed by `rng.Shuffle` on the sorted slice. `sort.SliceStable` with the
comparison `iBal.Cmp(jBal) == 1` is a stable sort by descending balance; it
compares every element at least once when there are two or more, so a failed
balance look-up then surfaces as `balanceErr`, and it compares nothing
otherwise. -/
def publicKeyMapToSliceByStake {K : Type} [LinearOrder K] (entMap : AList (fun _ : K => Bool))
    (stakeAcc : Option (StakeCache K)) (shuffle : List K → Option (List K)) :
    Option (List K) :=
  match shuffle (publicKeyMapToSortedSlice entMap) with
  | none => none
  | some entities =>
    match stakeAcc with
    | none => some entities
    | some acc =>
      if 2 ≤ entities.length ∧ ∃ e ∈ entities, acc.GetEscrowBalance e = none then none
      else some (entities.insertionSort fun a b => balanceOf acc b ≤ balanceOf acc a)

/-- The errors that `electValidators` can return. -/
inductive ElectError where
  /-- The entities could not be sorted by stake. -/
  | entities
  /-- The DRBG for the node shuffle could not be instantiated. -/
  | drbg
  /-- "failed to fetch escrow balance". -/
  | balance
  /-- "computing voting power". -/
  | power
  /-- "failed to elect any validators". -/
  | noValidators
  /-- "insufficient validators". -/
  | insufficientValidators
  deriving DecidableEq, Repr

/-- What a call of `electValidators` does. -/
inductive ValidatorsOutcome (K : Type) where
  /-- `PutPendingValidators` was called with this map. -/
  | putPendingValidators (newValidators : ValidatorMap K)
  /-- An error was returned before anything was written. -/
  | failed (err : ElectError)
  /-- A slice index was out of range. -/
  | panicked
  deriving DecidableEq

/-- State of the election loops after the nodes of one entity. -/
inductive EntityResult (K : Type) where
  /-- The inner loop ended; the outer loop goes on. -/
  | next (newValidators : ValidatorMap K)
  /-- `break electLoop`. -/
  | done (newValidators : ValidatorMap K)
  /-- An error was returned. -/
  | failed (err : ElectError)

/-- The voting power that `electValidators` gives to the nodes of entity `v`:
flat 1 without a stake accumulator, else `VotingPowerFromTokens` of the escrow
balance. `votingPower` stands for `scheduler.VotingPowerFromTokens`, which is
outside the sources, `none` being its error. -/
def validatorPower {K : Type} (stakeAcc : Option (StakeCache K))
    (votingPower : Quantity → Option Int) (v : K) : Except ElectError Int :=
  match stakeAcc with
  | none => .ok 1
  | some acc =>
    match acc.GetEscrowBalance v with
    | none => .error .balance
    | some stake =>
      match votingPower stake with
      | none => .error .power
      | some power => .ok power

/-- The loop "Gather all the entities nodes" of `electValidators` over the
indices not yet visited; the map `entityNodes` is read by indexing only and is
kept as its look-up function. `none` stands for the panic on an index out of
range. -/
def gatherEntityNodes {K : Type} [DecidableEq K] (nodeList : List (Node K)) :
    List Int → (K → List (Node K)) → Option (K → List (Node K))
  | [], entityNodes => some entityNodes
  | idx :: rest, entityNodes =>
    match nodeAt nodeList idx with
    | none => none
    | some n =>
      gatherEntityNodes nodeList rest
        (Function.update entityNodes n.EntityID (entityNodes n.EntityID ++ [n]))

/-- The inner loop of `electLoop` for the entity `v`, from iteration `i` on;
`vec` holds the nodes of the entity from position `i`. -/
def electFromEntity {K : Type} [DecidableEq K] (stakeAcc : Option (StakeCache K))
    (votingPower : Quantity → Option Int) (consensusID : Node K → K)
    (params : ValidatorParams) (v : K) :
    List (Node K) → Nat → ValidatorMap K → EntityResult K
  | [], _, newValidators => .next newValidators
  | n :: vec, i, newValidators =>
    if ¬ ((i : Int) < params.MaxValidatorsPerEntity) then .next newValidators
    else
      match validatorPower stakeAcc votingPower v with
      | .error err => .failed err
      | .ok power =>
        let newValidators1 := newValidators.insert (consensusID n) power
        if (newValidators1.entries.length : Int) ≥ params.MaxValidators then
          .done newValidators1
        else
          electFromEntity stakeAcc votingPower consensusID params v vec (i + 1) newValidators1

/-- The loop `electLoop` of `electValidators` over the entities not yet
visited. -/
def electLoop {K : Type} [DecidableEq K] (stakeAcc : Option (StakeCache K))
    (votingPower : Quantity → Option Int) (consensusID : Node K → K)
    (params : ValidatorParams) (entityNodes : K → List (Node K)) :
    List K → ValidatorMap K → Except ElectError (ValidatorMap K)
  | [], newValidators => .ok newValidators
  | v :: rest, newValidators =>
    match electFromEntity stakeAcc votingPower consensusID params v (entityNodes v) 0
        newValidators with
    | .failed err => .error err
    | .done newValidators1 => .ok newValidators1
    | .next newValidators1 =>
      electLoop stakeAcc votingPower consensusID params entityNodes rest newValidators1

/-- The node list that `electValidators` keeps: the nodes with the validator
role whose entity passes the stake check, when there is a stake accumulator.
`isValidator` stands for `n.HasRoles(node.RoleValidator)`. -/
def validatorNodeList {K : Type} (stakeAcc : Option (StakeCache K))
    (isValidator : Node K → Bool) (nodes : List (Node K)) : List (Node K) :=
  nodes.filter fun n =>
    isValidator n &&
      match stakeAcc with
      | none => true
      | some acc => acc.CheckStakeClaims n.EntityID

/-- The map `entMap` that `electValidators` fills with the entities of the
kept nodes. -/
def validatorEntMap {K : Type} [DecidableEq K] (nodeList : List (Node K)) :
    AList (fun _ : K => Bool) :=
  nodeList.foldl (fun entMap n => entMap.insert n.EntityID true) ∅

/-- The validators elected by the loops of `electValidators`, before the final
size checks. `shuffle` is as in `publicKeyMapToSliceByStake`, `perm n` stands
for the DRBG instantiation (`none` when it fails) followed by `rng.Perm(n)`,
`consensusID n` for `n.Consensus.ID`. The outer `Option` is `none` for a panic.
The recording of entities eligible for rewards is left out. -/
def electedValidators {K : Type} [LinearOrder K] (stakeAcc : Option (StakeCache K))
    (nodes : List (Node K)) (isValidator : Node K → Bool) (consensusID : Node K → K)
    (params : ValidatorParams) (shuffle : List K → Option (List K))
    (perm : Int → Option (List Int)) (votingPower : Quantity → Option Int) :
    Option (Except ElectError (ValidatorMap K)) :=
  let nodeList := validatorNodeList stakeAcc isValidator nodes
  let entMap := validatorEntMap nodeList
  -- Sort all of the entities that are actually running eligible validator
  -- nodes by descending stake.
  match publicKeyMapToSliceByStake entMap stakeAcc shuffle with
  | none => some (.error .entities)
  | some sortedEntities =>
    -- Shuffle the node list.
    match perm nodeList.length with
    | none => some (.error .drbg)
    | some idxs =>
      match gatherEntityNodes nodeList idxs (fun _ => []) with
      | none => none
      | some entityNodes =>
        some (electLoop stakeAcc votingPower consensusID params entityNodes sortedEntities ∅)

/-- The Go method `electValidators`. -/
def electValidators {K : Type} [LinearOrder K] (stakeAcc : Option (StakeCache K))
    (nodes : List (Node K)) (isValidator : Node K → Bool) (consensusID : Node K → K)
    (params : ValidatorParams) (shuffle : List K → Option (List K))
    (perm : Int → Option (List Int)) (votingPower : Quantity → Option Int) :
    ValidatorsOutcome K :=
  match electedValidators stakeAcc nodes isValidator consensusID params shuffle perm
      votingPower with
  | none => .panicked
  | some (.error err) => .failed err
  | some (.ok newValidators) =>
    if newValidators.entries.length = 0 then .failed .noValidators
    else if (newValidators.entries.length : Int) < params.MinValidators then
      .failed .insufficientValidators
    else
      -- Set the new pending validator set in the ABCI state.
      .putPendingValidators newValidators

/-- Entity set of the stake-ordering scenario: the entities 1, 2 and 3, entered
in the order 2, 1, 3. -/
def scenarioEntMap : AList (fun _ : Nat => Bool) :=
  ((AList.singleton 3 true).insert 1 true).insert 2 true

/-- Escrow balances of the stake-ordering scenario: 50 for entity 1, 70 for
entity 2 and 50 for entity 3. -/
def scenarioStake : StakeCache Nat where
  CheckStakeClaims := fun _ => true
  GetEscrowBalance := fun e => if e = 2 then some 70 else some 50

/-- Nodes of the validator scenario: nodes 1 and 2 of entity 10 and node 3 of
entity 20. -/
def scenarioValidatorNodes : List (Node Nat) :=
  [⟨1, 10⟩, ⟨2, 10⟩, ⟨3, 20⟩]

/-- Consensus keys of the validator scenario: node `i` has the key `100 + i`. -/
def scenarioConsensusID : Node Nat → Nat :=
  fun n => n.ID + 100

/-- Validator set of the validator scenario with one validator per entity:
the consensus keys 101 and 103, each with power 1. -/
def scenarioValidators : ValidatorMap Nat :=
  (AList.singleton 103 (1 : Int)).insert 101 1

/-! ## Closed forms of the two exchange-rate computations -/

theorem sharesForTokens_eq (p : SharePool) (a : Quantity) :
    p.sharesForTokens a =
      if p.TotalShares = 0 then .ok a
      else if p.Balance = 0 then .error .ErrInvalidArgument
      else .ok (a * p.TotalShares / p.Balance) := by
  unfold SharePool.sharesForTokens Quantity.IsZero Quantity.Clone Quantity.Mul Quantity.Quo
  by_cases hS : p.TotalShares = 0
  · simp [hS]
  · by_cases hB : p.Balance = 0
    · simp [hS, hB]
    · simp [hS, hB]

theorem tokensForShares_eq (p : SharePool) (s : Quantity) :
    p.tokensForShares s =
      .ok (if s = 0 ∨ p.Balance = 0 ∨ p.TotalShares = 0 then 0
        else s * p.Balance / p.TotalShares) := by
  unfold SharePool.tokensForShares Quantity.IsZero Quantity.Clone Quantity.Mul Quantity.Quo
    NewQuantity
  by_cases hs : s = 0
  · simp [hs]
  · by_cases hB : p.Balance = 0
    · simp [hs, hB]
    · by_cases hS : p.TotalShares = 0
      · simp [hs, hB, hS]
      · simp [hs, hB, hS]

/-- Every outcome of `Deposit`, by cases on the guards it meets in order. -/
theorem Deposit_eq (p : SharePool) (shareDst tokenSrc a : Quantity) :
    p.Deposit shareDst tokenSrc a =
      if p.TotalShares ≠ 0 ∧ p.Balance = 0 then
        ⟨some .ErrInvalidArgument, p, shareDst, tokenSrc⟩
      else if tokenSrc < a then
        ⟨some .ErrInsufficientBalance, p, shareDst, tokenSrc⟩
      else
        ⟨none,
          ⟨p.Balance + a,
            p.TotalShares + (if p.TotalShares = 0 then a else a * p.TotalShares / p.Balance)⟩,
          shareDst + (if p.TotalShares = 0 then a else a * p.TotalShares / p.Balance),
          tokenSrc - a⟩ := by
  unfold SharePool.Deposit
  rw [sharesForTokens_eq]
  unfold Move Quantity.Sub Quantity.Add
  by_cases hS : p.TotalShares = 0
  · by_cases hT : tokenSrc < a
    · simp [hS, hT]
    · simp [hS, hT]
  · by_cases hB : p.Balance = 0
    · simp [hS, hB]
    · by_cases hT : tokenSrc < a
      · simp [hS, hB, hT]
      · simp [hS, hB, hT]

/-- The tokens computed for `s` shares never exceed the balance when `s` does
not exceed the issued shares. -/
theorem tokens_le_balance (B S s : Nat) (h : s ≤ S) :
    (if s = 0 ∨ B = 0 ∨ S = 0 then 0 else s * B / S) ≤ B := by
  split
  · exact Nat.zero_le _
  · next hn =>
    have hS : 0 < S := by omega
    exact Nat.div_le_of_le_mul (Nat.mul_le_mul_right B h)

/-- Every outcome of `Withdraw`, by cases on the guards it meets in order. -/
theorem Withdraw_eq (p : SharePool) (tokenDst shareSrc s : Quantity) :
    p.Withdraw tokenDst shareSrc s =
      if shareSrc < s then
        ⟨some .ErrInsufficientBalance, p, tokenDst, shareSrc⟩
      else if p.TotalShares < s then
        ⟨some .ErrInsufficientBalance, p, tokenDst, shareSrc - s⟩
      else
        ⟨none,
          ⟨p.Balance -
              (if s = 0 ∨ p.Balance = 0 ∨ p.TotalShares = 0 then 0
                else s * p.Balance / p.TotalShares),
            p.TotalShares - s⟩,
          tokenDst +
            (if s = 0 ∨ p.Balance = 0 ∨ p.TotalShares = 0 then 0
              else s * p.Balance / p.TotalShares),
          shareSrc - s⟩ := by
  unfold SharePool.Withdraw
  rw [tokensForShares_eq]
  by_cases h1 : shareSrc < s
  · simp [Quantity.Sub, h1]
  · by_cases h2 : p.TotalShares < s
    · simp [Quantity.Sub, h1, h2]
    · have hle := tokens_le_balance p.Balance p.TotalShares s (Nat.not_lt.mp h2)
      simp [Quantity.Sub, Move, Quantity.Add, h1, h2, Nat.not_lt.mpr hle]

/-! ## Deposit and withdraw contracts -/

/-- C1: unless shares are issued against a zero balance, a deposit of `a` tokens
from a source holding at least `a` succeeds; it mints `a` shares into an empty
share count and `a * total_shares / balance` (product first, truncating
division) otherwise, adds `a` to the balance, takes `a` from the source and adds
the minted shares to both the total and the destination. -/
theorem deposit_succeeds_and_mints (p : SharePool) (shareDst T a : Quantity)
    (hT : a ≤ T) (hpool : ¬ (p.TotalShares ≠ 0 ∧ p.Balance = 0)) :
    p.Deposit shareDst T a =
      ⟨none,
        ⟨p.Balance + a,
          p.TotalShares + (if p.TotalShares = 0 then a else a * p.TotalShares / p.Balance)⟩,
        shareDst + (if p.TotalShares = 0 then a else a * p.TotalShares / p.Balance),
        T - a⟩ := by
  rw [Deposit_eq, if_neg hpool, if_neg (Nat.not_lt.mpr hT)]

/-- Instance of C1 on the slashed pool of the dilution scenario: `{1500, 3000}`
with a deposit of 1500 mints 3000 shares and becomes `{3000, 6000}`. -/
theorem deposit_succeeds_and_mints_witness :
    (1500 : Nat) ≤ 1500 ∧ ¬ ((3000 : Nat) ≠ 0 ∧ (1500 : Nat) = 0) ∧
      SharePool.Deposit ⟨1500, 3000⟩ 0 1500 1500 = ⟨none, ⟨3000, 6000⟩, 3000, 0⟩ :=
  ⟨by decide, by decide,
    deposit_succeeds_and_mints ⟨1500, 3000⟩ 0 1500 1500 (by decide) (by decide)⟩

/-- C2: a withdrawal of `s` shares with `s ≤ shareSrc` and `s ≤ total_shares`
succeeds; it pays zero tokens if `s`, the balance or the share total is zero and
`s * balance / total_shares` otherwise, lowers the source and the share total by
`s`, lowers the balance by the tokens paid and raises the destination by them. -/
theorem withdraw_succeeds_and_pays (p : SharePool) (tokenDst shareSrc s : Quantity)
    (hsrc : s ≤ shareSrc) (htot : s ≤ p.TotalShares) :
    p.Withdraw tokenDst shareSrc s =
      ⟨none,
        ⟨p.Balance -
            (if s = 0 ∨ p.Balance = 0 ∨ p.TotalShares = 0 then 0
              else s * p.Balance / p.TotalShares),
          p.TotalShares - s⟩,
        tokenDst +
          (if s = 0 ∨ p.Balance = 0 ∨ p.TotalShares = 0 then 0
            else s * p.Balance / p.TotalShares),
        shareSrc - s⟩ := by
  rw [Withdraw_eq, if_neg (Nat.not_lt.mpr hsrc), if_neg (Nat.not_lt.mpr htot)]

/-- Instance of C2: reclaiming all 6000 shares of the pool `{3000, 6000}` pays
3000 tokens and empties the pool. -/
theorem withdraw_succeeds_and_pays_witness :
    (6000 : Nat) ≤ 6000 ∧
      SharePool.Withdraw ⟨3000, 6000⟩ 10 6000 6000 = ⟨none, ⟨0, 0⟩, 3010, 0⟩ :=
  ⟨by decide, withdraw_succeeds_and_pays ⟨3000, 6000⟩ 10 6000 6000 (by decide) (by decide)⟩

/-- C3: on a pool with issued shares and a zero balance, a deposit of any amount
from any source fails with `ErrInvalidArgument` and leaves the pool, the token
source and the share destination as they were. -/
theorem deposit_zeroed_pool_fails (p : SharePool) (shareDst tokenSrc a : Quantity)
    (hS : p.TotalShares ≠ 0) (hB : p.Balance = 0) :
    p.Deposit shareDst tokenSrc a = ⟨some .ErrInvalidArgument, p, shareDst, tokenSrc⟩ := by
  rw [Deposit_eq, if_pos ⟨hS, hB⟩]

/-- Instance of C3 on a pool slashed to nothing. -/
theorem deposit_zeroed_pool_fails_witness :
    SharePool.Deposit ⟨0, 3000⟩ 7 5000 1500 = ⟨some .ErrInvalidArgument, ⟨0, 3000⟩, 7, 5000⟩ :=
  deposit_zeroed_pool_fails ⟨0, 3000⟩ 7 5000 1500 (by decide) rfl

/-- C4, as stated, fails on the empty pool: its balance is zero, yet a deposit
of 3000 succeeds and mints 3000 shares at the 1:1 rate. -/
theorem deposit_zero_balance_counterexample :
    (SharePool.mk 0 0).Balance = 0 ∧
      SharePool.Deposit ⟨0, 0⟩ 0 3000 3000 = ⟨none, ⟨3000, 3000⟩, 3000, 0⟩ := by
  decide

/-- C4, amended: on a pool whose balance is zero while shares are issued, a
deposit fails and mints nothing, whatever the amount and the token source; on a
pool whose balance is zero with no shares issued, a deposit the source can pay
succeeds and mints the deposited amount. -/
theorem deposit_zero_balance (p : SharePool) (shareDst tokenSrc a : Quantity)
    (hB : p.Balance = 0) :
    (p.TotalShares ≠ 0 →
      (p.Deposit shareDst tokenSrc a).err = some .ErrInvalidArgument ∧
      (p.Deposit shareDst tokenSrc a).pool.TotalShares = p.TotalShares ∧
      (p.Deposit shareDst tokenSrc a).shareDst = shareDst) ∧
    (p.TotalShares = 0 → a ≤ tokenSrc →
      (p.Deposit shareDst tokenSrc a).err = none ∧
      (p.Deposit shareDst tokenSrc a).pool.TotalShares = p.TotalShares + a ∧
      (p.Deposit shareDst tokenSrc a).shareDst = shareDst + a) := by
  constructor
  · intro hS
    rw [Deposit_eq, if_pos ⟨hS, hB⟩]
    exact ⟨rfl, rfl, rfl⟩
  · intro hS hT
    rw [Deposit_eq, if_neg (by simp [hS]), if_neg (Nat.not_lt.mpr hT)]
    simp [hS]

/-- Instance of the amended C4 on a pool slashed to nothing. -/
theorem deposit_zero_balance_witness :
    (SharePool.Deposit ⟨0, 3000⟩ 7 5000 1500).err = some .ErrInvalidArgument ∧
      (SharePool.Deposit ⟨0, 3000⟩ 7 5000 1500).pool.TotalShares = 3000 ∧
      (SharePool.Deposit ⟨0, 3000⟩ 7 5000 1500).shareDst = 7 :=
  (deposit_zero_balance ⟨0, 3000⟩ 7 5000 1500 rfl).1 (by decide)

/-- C5: a withdrawal returns an error exactly when the share amount exceeds the
share source or the pool's issued shares; and whenever the share amount is
within the issued shares, the token amount computed for it is within the pool
balance, so the closing token move has enough to draw on. -/
theorem withdraw_error_iff (p : SharePool) (tokenDst shareSrc s : Quantity) :
    ((p.Withdraw tokenDst shareSrc s).err ≠ none ↔ (shareSrc < s ∨ p.TotalShares < s)) ∧
    (s ≤ p.TotalShares →
      ∃ t, p.tokensForShares s = .ok t ∧ t ≤ p.Balance ∧
        ∃ r, Move tokenDst p.Balance t = .ok r) := by
  constructor
  · rw [Withdraw_eq]
    by_cases h1 : shareSrc < s
    · simp [h1]
    · by_cases h2 : p.TotalShares < s
      · simp [h1, h2]
      · simp [h1, h2]
  · intro hs
    have hle := tokens_le_balance p.Balance p.TotalShares s hs
    refine ⟨_, tokensForShares_eq p s, hle, ?_⟩
    unfold Move Quantity.Sub Quantity.Add
    rw [if_neg (Nat.not_lt.mpr hle)]
    exact ⟨_, rfl⟩

/-- Instance of C5: reclaiming 1234 of 3000 shares computes 1234 tokens, within
the balance of 3000. -/
theorem withdraw_error_iff_witness :
    ∃ t, SharePool.tokensForShares ⟨3000, 3000⟩ 1234 = .ok t ∧ t ≤ 3000 ∧
      ∃ r, Move 0 3000 t = .ok r :=
  (withdraw_error_iff ⟨3000, 3000⟩ 0 3000 1234).2 (by decide)

/-! ## Round trip, invariant and conservation laws -/

/-- Minting `n = x * S / B` shares and redeeming them at the new rate
`(B + x) / (S + n)` never pays more than the `x` tokens deposited. -/
theorem redeem_minted_le (B S x : Nat) :
    (x * S / B) * (B + x) / (S + x * S / B) ≤ x := by
  rcases Nat.eq_zero_or_pos (S + x * S / B) with h0 | hpos
  · rw [h0, Nat.div_zero]
    exact Nat.zero_le _
  · apply Nat.div_le_of_le_mul
    have h := Nat.div_mul_le_self (x * S) B
    calc x * S / B * (B + x) = x * S / B * B + x * S / B * x := by ring
      _ ≤ x * S + x * S / B * x := Nat.add_le_add_right h _
      _ = (S + x * S / B) * x := by ring

/-- When the minting division is exact, redeeming the minted shares pays
exactly the `x` tokens deposited. -/
theorem redeem_minted_exact (B S x : Nat) (hS : S ≠ 0) (hdvd : B ∣ x * S) :
    (x * S / B) * (B + x) / (S + x * S / B) = x := by
  have h := Nat.div_mul_cancel hdvd
  have hpos : 0 < S + x * S / B := Nat.add_pos_left (Nat.pos_of_ne_zero hS) _
  have e : x * S / B * (B + x) = x * (S + x * S / B) := by
    calc x * S / B * (B + x) = x * S / B * B + x * S / B * x := by ring
      _ = x * S + x * S / B * x := by rw [h]
      _ = x * (S + x * S / B) := by ring
  rw [e]
  exact Nat.mul_div_cancel _ hpos

/-- C6, as stated, fails on the pool `{3, 2}`: depositing 2 tokens mints one
share (2 * 2 / 3 truncates to 1), redeeming that share at the new rate pays one
token (1 * 5 / 3 truncates to 1), and the balance ends at 4 instead of 3. -/
theorem deposit_withdraw_round_trip_counterexample :
    SharePool.Deposit ⟨3, 2⟩ 0 2 2 = ⟨none, ⟨5, 3⟩, 1, 0⟩ ∧
      SharePool.Withdraw ⟨5, 3⟩ 0 1 1 = ⟨none, ⟨4, 2⟩, 1, 0⟩ ∧
      (SharePool.Withdraw ⟨5, 3⟩ 0 1 1).pool.Balance ≠ (SharePool.mk 3 2).Balance := by
  decide

/-- C6, amended: a successful deposit of `x` that mints `n` shares, followed
immediately by a withdrawal of those `n` shares, succeeds and leaves
`total_shares` equal to its value before the deposit. The balance returns to its
value before the deposit when the pool was empty or when the minting division
`x * total_shares / balance` is exact; on any pool with shares issued it does
not end below its value before the deposit. -/
theorem deposit_withdraw_round_trip (p q : SharePool) (shareDst T x n ts tokenDst : Quantity)
    (hd : p.Deposit shareDst T x = ⟨none, q, shareDst + n, ts⟩) :
    (q.Withdraw tokenDst (shareDst + n) n).err = none ∧
    (q.Withdraw tokenDst (shareDst + n) n).pool.TotalShares = p.TotalShares ∧
    (p.TotalShares ≠ 0 → p.Balance ≤ (q.Withdraw tokenDst (shareDst + n) n).pool.Balance) ∧
    ((p.TotalShares = 0 ∧ p.Balance = 0) ∨
        (p.TotalShares ≠ 0 ∧ p.Balance ∣ x * p.TotalShares) →
      (q.Withdraw tokenDst (shareDst + n) n).pool.Balance = p.Balance) := by
  obtain ⟨B, S⟩ := p
  rw [Deposit_eq] at hd
  unfold Quantity at *
  by_cases hz : S ≠ 0 ∧ B = 0
  · rw [if_pos hz] at hd
    simp at hd
  · rw [if_neg hz] at hd
    by_cases hT : T < x
    · rw [if_pos hT] at hd
      simp at hd
    · rw [if_neg hT] at hd
      by_cases hS : S = 0
      · subst hS
        simp only [DepositOutcome.mk.injEq, true_and, Nat.add_left_cancel_iff, if_true] at hd
        obtain ⟨hq, hn, -⟩ := hd
        subst hq
        subst hn
        rw [Withdraw_eq, if_neg (Nat.not_lt.mpr (Nat.le_add_left _ _)),
          if_neg (Nat.not_lt.mpr (Nat.le_add_left _ _))]
        refine ⟨rfl, by simp, fun h => absurd rfl h, ?_⟩
        rintro (⟨-, hB⟩ | ⟨h, -⟩)
        · simp only at hB
          subst hB
          by_cases hx : x = 0
          · simp [hx]
          · simp [hx]
        · exact absurd rfl h
      · have hB : B ≠ 0 := fun h => hz ⟨hS, h⟩
        simp only [DepositOutcome.mk.injEq, true_and, Nat.add_left_cancel_iff, if_neg hS] at hd
        obtain ⟨hq, hn, -⟩ := hd
        subst hq
        subst hn
        rw [Withdraw_eq, if_neg (Nat.not_lt.mpr (Nat.le_add_left _ _)),
          if_neg (Nat.not_lt.mpr (Nat.le_add_left _ _))]
        refine ⟨rfl, by simp, ?_, ?_⟩
        · intro _
          have hle := redeem_minted_le B S x
          by_cases hc : x * S / B = 0 ∨ B + x = 0 ∨ S + x * S / B = 0
          · simp only [if_pos hc]
            exact Nat.le_add_right _ _
          · simp only [if_neg hc]
            generalize x * S / B * (B + x) / (S + x * S / B) = t at hle
            show B ≤ B + x - t
            omega
        · rintro (⟨h, -⟩ | ⟨-, hdvd⟩)
          · exact absurd h hS
          · simp only at hdvd
            have hex := redeem_minted_exact B S x hS hdvd
            by_cases hc : x * S / B = 0 ∨ B + x = 0 ∨ S + x * S / B = 0
            · simp only [if_pos hc]
              have h0 : x * S / B = 0 := by
                rcases hc with h | h | h
                · exact h
                · omega
                · exact absurd (Nat.eq_zero_of_add_eq_zero_right h) hS
              rw [h0] at hex
              simp only [Nat.zero_mul, Nat.zero_div] at hex
              subst hex
              rfl
            · simp only [if_neg hc, hex]
              exact Nat.add_sub_cancel ..

/-- Instance of the amended C6 on the slashed pool `{1500, 3000}`: depositing
1500 mints 3000 shares exactly, and redeeming them restores the pool. -/
theorem deposit_withdraw_round_trip_witness :
    SharePool.Deposit ⟨1500, 3000⟩ 0 1500 1500 = ⟨none, ⟨3000, 6000⟩, 0 + 3000, 0⟩ ∧
      (SharePool.Withdraw ⟨3000, 6000⟩ 0 (0 + 3000) 3000).err = none ∧
      (SharePool.Withdraw ⟨3000, 6000⟩ 0 (0 + 3000) 3000).pool.TotalShares = 3000 ∧
      (SharePool.Withdraw ⟨3000, 6000⟩ 0 (0 + 3000) 3000).pool.Balance = 1500 :=
  have h := deposit_withdraw_round_trip ⟨1500, 3000⟩ ⟨3000, 6000⟩ 0 1500 1500 3000 0 0 rfl
  ⟨rfl, h.1, h.2.1, h.2.2.2 (Or.inr ⟨by decide, by decide⟩)⟩

/-- Redeeming fewer shares than are issued pays fewer tokens than the pool
holds, provided the pool holds any. -/
theorem tokens_lt_balance (B S s : Nat) (hB : 0 < B) (h : s < S) : s * B / S < B := by
  apply Nat.div_lt_of_lt_mul
  exact Nat.mul_lt_mul_of_pos_right h hB

/-- C7: the predicate "balance is zero if and only if total shares is zero" is
preserved by every successful deposit and by every successful withdrawal. -/
theorem invariant_preserved (p : SharePool) (hinv : p.balanceZeroIffNoShares) :
    (∀ shareDst tokenSrc a : Quantity, (p.Deposit shareDst tokenSrc a).err = none →
      (p.Deposit shareDst tokenSrc a).pool.balanceZeroIffNoShares) ∧
    (∀ tokenDst shareSrc s : Quantity, (p.Withdraw tokenDst shareSrc s).err = none →
      (p.Withdraw tokenDst shareSrc s).pool.balanceZeroIffNoShares) := by
  obtain ⟨B, S⟩ := p
  unfold SharePool.balanceZeroIffNoShares at *
  unfold Quantity at *
  simp only at hinv
  constructor
  · intro shareDst tokenSrc a hok
    rw [Deposit_eq] at hok ⊢
    by_cases hz : S ≠ 0 ∧ B = 0
    · rw [if_pos hz] at hok
      simp at hok
    · by_cases hT : tokenSrc < a
      · rw [if_neg hz, if_pos hT] at hok
        simp at hok
      · rw [if_neg hz, if_neg hT]
        by_cases hS : S = 0
        · have hB : B = 0 := hinv.mpr hS
          simp [hS, hB]
        · have hB : B ≠ 0 := fun h => hS (hinv.mp h)
          simp only [if_neg hS]
          constructor
          · intro h
            exact absurd (Nat.eq_zero_of_add_eq_zero_right h) hB
          · intro h
            exact absurd (Nat.eq_zero_of_add_eq_zero_right h) hS
  · intro tokenDst shareSrc s hok
    rw [Withdraw_eq] at hok ⊢
    by_cases h1 : shareSrc < s
    · rw [if_pos h1] at hok
      simp at hok
    · by_cases h2 : S < s
      · rw [if_neg h1, if_pos h2] at hok
        simp at hok
      · rw [if_neg h1, if_neg h2]
        have h2p : s ≤ S := Nat.not_lt.mp h2
        by_cases hc : s = 0 ∨ B = 0 ∨ S = 0
        · simp only [if_pos hc]
          show B - 0 = 0 ↔ S - s = 0
          omega
        · simp only [if_neg hc]
          show B - s * B / S = 0 ↔ S - s = 0
          rcases Nat.lt_or_ge s S with hlt | hge
          · have ht := tokens_lt_balance B S s (by omega) hlt
            generalize s * B / S = t at ht
            omega
          · have hs : s = S := Nat.le_antisymm h2p hge
            subst hs
            have ht : s * B / s = B := Nat.mul_div_cancel_left B (by omega)
            rw [ht]
            omega

/-- Instance of C7: the pool `{3000, 3000}` satisfies the invariant, and so does
the pool left by reclaiming 1234 of its shares. -/
theorem invariant_preserved_witness :
    (SharePool.mk 3000 3000).balanceZeroIffNoShares ∧
      (SharePool.Withdraw ⟨3000, 3000⟩ 0 3000 1234).pool.balanceZeroIffNoShares :=
  ⟨by decide, (invariant_preserved ⟨3000, 3000⟩ (by decide)).2 0 3000 1234 rfl⟩

/-- C8: a successful deposit raises `total_shares` and the share destination by
the same number, and a successful withdrawal lowers `total_shares` and the
share source by the same number (the amount withdrawn); hence if the touched
delegation together with all the others sums to `total_shares` before the
operation, it still does afterwards. -/
theorem share_conservation (p : SharePool) (others : List Quantity) :
    (∀ shareDst tokenSrc a : Quantity, (p.Deposit shareDst tokenSrc a).err = none →
      (∃ n, (p.Deposit shareDst tokenSrc a).pool.TotalShares = p.TotalShares + n ∧
        (p.Deposit shareDst tokenSrc a).shareDst = shareDst + n) ∧
      (shareDst + others.sum = p.TotalShares →
        (p.Deposit shareDst tokenSrc a).shareDst + others.sum =
          (p.Deposit shareDst tokenSrc a).pool.TotalShares)) ∧
    (∀ tokenDst shareSrc s : Quantity, (p.Withdraw tokenDst shareSrc s).err = none →
      ((p.Withdraw tokenDst shareSrc s).pool.TotalShares + s = p.TotalShares ∧
        (p.Withdraw tokenDst shareSrc s).shareSrc + s = shareSrc) ∧
      (shareSrc + others.sum = p.TotalShares →
        (p.Withdraw tokenDst shareSrc s).shareSrc + others.sum =
          (p.Withdraw tokenDst shareSrc s).pool.TotalShares)) := by
  obtain ⟨B, S⟩ := p
  generalize others.sum = rest
  unfold Quantity at *
  constructor
  · intro shareDst tokenSrc a hok
    rw [Deposit_eq] at hok ⊢
    by_cases hz : S ≠ 0 ∧ B = 0
    · rw [if_pos hz] at hok
      simp at hok
    · by_cases hT : tokenSrc < a
      · rw [if_neg hz, if_pos hT] at hok
        simp at hok
      · rw [if_neg hz, if_neg hT]
        refine ⟨⟨_, rfl, rfl⟩, ?_⟩
        intro hsum
        replace hsum : shareDst + rest = S := hsum
        generalize (if S = 0 then a else a * S / B) = n
        show shareDst + n + rest = S + n
        omega
  · intro tokenDst shareSrc s hok
    rw [Withdraw_eq] at hok ⊢
    by_cases h1 : shareSrc < s
    · rw [if_pos h1] at hok
      simp at hok
    · by_cases h2 : S < s
      · rw [if_neg h1, if_pos h2] at hok
        simp at hok
      · rw [if_neg h1, if_neg h2]
        refine ⟨⟨?_, ?_⟩, ?_⟩
        · show S - s + s = S
          omega
        · show shareSrc - s + s = shareSrc
          omega
        · intro hsum
          replace hsum : shareSrc + rest = S := hsum
          show shareSrc - s + rest = S - s
          omega

/-- Instance of C8: a delegation of 1000 shares beside others holding 500 and
1500 sums to the 3000 issued; after 1500 tokens are deposited into the slashed
pool `{1500, 3000}` the delegations sum to the 6000 shares then issued. -/
theorem share_conservation_witness :
    (SharePool.Deposit ⟨1500, 3000⟩ 1000 1500 1500).shareDst + [500, 1500].sum =
      (SharePool.Deposit ⟨1500, 3000⟩ 1000 1500 1500).pool.TotalShares :=
  ((share_conservation ⟨1500, 3000⟩ [500, 1500]).1 1000 1500 1500 rfl).2 (by decide)

/-- C9: a successful deposit leaves `balance + tokenSrc` unchanged and a
successful withdrawal leaves `balance + tokenDst` unchanged; hence any sum of
token holdings that contains both locations, such as the total supply, is the
same before and after. -/
theorem token_conservation (p : SharePool) (rest : Quantity) :
    (∀ shareDst tokenSrc a : Quantity, (p.Deposit shareDst tokenSrc a).err = none →
      (p.Deposit shareDst tokenSrc a).pool.Balance + (p.Deposit shareDst tokenSrc a).tokenSrc =
          p.Balance + tokenSrc ∧
        rest + (p.Deposit shareDst tokenSrc a).pool.Balance +
            (p.Deposit shareDst tokenSrc a).tokenSrc =
          rest + p.Balance + tokenSrc) ∧
    (∀ tokenDst shareSrc s : Quantity, (p.Withdraw tokenDst shareSrc s).err = none →
      (p.Withdraw tokenDst shareSrc s).pool.Balance + (p.Withdraw tokenDst shareSrc s).tokenDst =
          p.Balance + tokenDst ∧
        rest + (p.Withdraw tokenDst shareSrc s).pool.Balance +
            (p.Withdraw tokenDst shareSrc s).tokenDst =
          rest + p.Balance + tokenDst) := by
  obtain ⟨B, S⟩ := p
  unfold Quantity at *
  constructor
  · intro shareDst tokenSrc a hok
    rw [Deposit_eq] at hok ⊢
    by_cases hz : S ≠ 0 ∧ B = 0
    · rw [if_pos hz] at hok
      simp at hok
    · by_cases hT : tokenSrc < a
      · rw [if_neg hz, if_pos hT] at hok
        simp at hok
      · rw [if_neg hz, if_neg hT]
        constructor
        · show B + a + (tokenSrc - a) = B + tokenSrc
          omega
        · show rest + (B + a) + (tokenSrc - a) = rest + B + tokenSrc
          omega
  · intro tokenDst shareSrc s hok
    rw [Withdraw_eq] at hok ⊢
    by_cases h1 : shareSrc < s
    · rw [if_pos h1] at hok
      simp at hok
    · by_cases h2 : S < s
      · rw [if_neg h1, if_pos h2] at hok
        simp at hok
      · rw [if_neg h1, if_neg h2]
        have hle := tokens_le_balance B S s (Nat.not_lt.mp h2)
        generalize (if s = 0 ∨ B = 0 ∨ S = 0 then 0 else s * B / S) = t at hle
        constructor
        · show B - t + (tokenDst + t) = B + tokenDst
          omega
        · show rest + (B - t) + (tokenDst + t) = rest + B + tokenDst
          omega

/-- Instance of C9: redeeming one share of the pool `{5, 3}` pays one token;
the pool and the destination hold five tokens between them before and after. -/
theorem token_conservation_witness :
    (SharePool.Withdraw ⟨5, 3⟩ 0 1 1).pool.Balance + (SharePool.Withdraw ⟨5, 3⟩ 0 1 1).tokenDst =
        5 + 0 ∧
      100 + (SharePool.Withdraw ⟨5, 3⟩ 0 1 1).pool.Balance +
          (SharePool.Withdraw ⟨5, 3⟩ 0 1 1).tokenDst =
        100 + 5 + 0 :=
  (token_conservation ⟨5, 3⟩ 100).2 0 1 1 rfl

/-- C10: on a pool whose balance equals its issued shares, the tokens computed
for any `s ≤ total_shares` are exactly `s`, and the withdrawal of `s` shares
from a source holding them pays exactly `s` tokens and leaves a pool whose
balance again equals its issued shares. -/
theorem withdraw_at_par (p : SharePool) (s : Quantity)
    (hpar : p.Balance = p.TotalShares) (hs : s ≤ p.TotalShares) :
    p.tokensForShares s = .ok s ∧
    ∀ tokenDst shareSrc : Quantity, s ≤ shareSrc →
      p.Withdraw tokenDst shareSrc s =
          ⟨none, ⟨p.Balance - s, p.TotalShares - s⟩, tokenDst + s, shareSrc - s⟩ ∧
        (p.Withdraw tokenDst shareSrc s).pool.Balance =
          (p.Withdraw tokenDst shareSrc s).pool.TotalShares := by
  obtain ⟨B, S⟩ := p
  unfold Quantity at *
  simp only at hpar hs
  subst hpar
  have ht : (if s = 0 ∨ B = 0 ∨ B = 0 then 0 else s * B / B) = s := by
    by_cases hc : s = 0 ∨ B = 0 ∨ B = 0
    · rw [if_pos hc]
      omega
    · rw [if_neg hc]
      exact Nat.mul_div_cancel s (by omega)
  constructor
  · rw [tokensForShares_eq]
    exact congrArg Except.ok ht
  · intro tokenDst shareSrc hsrc
    rw [Withdraw_eq, if_neg (Nat.not_lt.mpr hsrc), if_neg (Nat.not_lt.mpr hs)]
    simp only
    rw [ht]
    exact ⟨rfl, rfl⟩

/-- Instance of C10 from the escrow round-trip scenario: reclaiming 1234 shares
of the pool `{3000, 3000}` pays 1234 tokens and leaves `{1766, 1766}`. -/
theorem withdraw_at_par_witness :
    SharePool.tokensForShares ⟨3000, 3000⟩ 1234 = .ok 1234 ∧
      SharePool.Withdraw ⟨3000, 3000⟩ 0 3000 1234 = ⟨none, ⟨1766, 1766⟩, 1234, 1766⟩ :=
  have h := withdraw_at_par ⟨3000, 3000⟩ 1234 rfl (by decide)
  ⟨h.1, (h.2 0 3000 (by decide)).1⟩

/-! ## Full withdrawal and behaviour on failure -/

/-- Redeeming every issued share pays the whole balance and empties the pool;
the same holds trivially for a pool with no balance. -/
theorem Withdraw_all_eq (B S tokenDst shareSrc : Nat) (hsrc : S ≤ shareSrc)
    (h : 0 < S ∨ B = 0) :
    SharePool.Withdraw ⟨B, S⟩ tokenDst shareSrc S = ⟨none, ⟨0, 0⟩, tokenDst + B, shareSrc - S⟩ := by
  rw [Withdraw_eq, if_neg (Nat.not_lt.mpr hsrc), if_neg (Nat.lt_irrefl S)]
  have ht : (if S = 0 ∨ B = 0 ∨ S = 0 then 0 else S * B / S) = B := by
    by_cases hc : S = 0 ∨ B = 0 ∨ S = 0
    · rw [if_pos hc]
      omega
    · rw [if_neg hc]
      exact Nat.mul_div_cancel_left B (by omega)
  show (⟨none, ⟨B - (if S = 0 ∨ B = 0 ∨ S = 0 then 0 else S * B / S), S - S⟩,
    tokenDst + (if S = 0 ∨ B = 0 ∨ S = 0 then 0 else S * B / S), shareSrc - S⟩ :
      WithdrawOutcome) = _
  rw [ht, Nat.sub_self, Nat.sub_self]

/-- Whenever `Deposit` returns an error, every location it can write holds the
value it held before the call. -/
theorem Deposit_error_unchanged (p : SharePool) (shareDst tokenSrc a : Quantity)
    (herr : (p.Deposit shareDst tokenSrc a).err ≠ none) :
    (p.Deposit shareDst tokenSrc a).pool = p ∧
      (p.Deposit shareDst tokenSrc a).shareDst = shareDst ∧
      (p.Deposit shareDst tokenSrc a).tokenSrc = tokenSrc := by
  rw [Deposit_eq] at herr ⊢
  by_cases hz : p.TotalShares ≠ 0 ∧ p.Balance = 0
  · rw [if_pos hz]
    exact ⟨rfl, rfl, rfl⟩
  · by_cases hT : tokenSrc < a
    · rw [if_neg hz, if_pos hT]
      exact ⟨rfl, rfl, rfl⟩
    · rw [if_neg hz, if_neg hT] at herr
      exact absurd rfl herr

/-- C11: on a pool with `total_shares = S > 0` held entirely by one share
account, withdrawing all `S` shares pays out the whole balance and leaves the
pool with zero balance and zero shares; and after two deposits `a1`, `a2` into
an empty pool, withdrawing all issued shares pays out `a1 + a2`. -/
theorem withdraw_all_shares (p : SharePool) (tokenDst : Quantity) (hS : 0 < p.TotalShares) :
    p.Withdraw tokenDst p.TotalShares p.TotalShares =
        ⟨none, ⟨0, 0⟩, tokenDst + p.Balance, 0⟩ ∧
    ∀ (a1 a2 T : Quantity) (d1 d2 : DepositOutcome), a1 + a2 ≤ T →
      SharePool.Deposit ⟨0, 0⟩ 0 T a1 = d1 →
      d1.pool.Deposit d1.shareDst d1.tokenSrc a2 = d2 →
      d1.err = none ∧ d2.err = none ∧ d2.shareDst = d2.pool.TotalShares ∧
        d2.pool.Withdraw tokenDst d2.shareDst d2.pool.TotalShares =
          ⟨none, ⟨0, 0⟩, tokenDst + (a1 + a2), 0⟩ := by
  obtain ⟨B, S⟩ := p
  unfold Quantity at *
  constructor
  · have h := Withdraw_all_eq B S tokenDst S (Nat.le_refl S) (Or.inl hS)
    rw [Nat.sub_self] at h
    exact h
  · intro a1 a2 T d1 d2 hT h1 h2
    have h1le : ¬ T < a1 := by omega
    have h2le : ¬ T - a1 < a2 := by omega
    rw [Deposit_eq, if_neg (by simp), if_neg h1le] at h1
    simp only [if_true, Nat.zero_add] at h1
    subst h1
    refine ⟨rfl, ?_⟩
    rw [Deposit_eq, if_neg (by simp), if_neg h2le] at h2
    have hn : (if a1 = 0 then a2 else a2 * a1 / a1) = a2 := by
      by_cases h0 : a1 = 0
      · rw [if_pos h0]
      · rw [if_neg h0]
        exact Nat.mul_div_cancel a2 (by omega)
    simp only [hn] at h2
    subst h2
    refine ⟨rfl, rfl, ?_⟩
    have h := Withdraw_all_eq (a1 + a2) (a1 + a2) tokenDst (a1 + a2) (Nat.le_refl _)
      (by omega)
    rw [Nat.sub_self] at h
    exact h

/-- Instance of C11 on the pool of the dilution scenario: the 6000 shares of
`{3000, 6000}` redeem the whole balance of 3000. -/
theorem withdraw_all_shares_witness :
    SharePool.Withdraw ⟨3000, 6000⟩ 0 6000 6000 = ⟨none, ⟨0, 0⟩, 0 + 3000, 0⟩ :=
  (withdraw_all_shares ⟨3000, 6000⟩ 0 (by decide)).1

/-- C12: `Withdraw` is not atomic on failure. Whenever the share amount is
within the share source but exceeds the issued shares, it returns
`ErrInsufficientBalance` after the share source has been reduced by the amount;
the pool `{10, 5}` with a source of 8 shares and an amount of 6 is such an
input. -/
theorem withdraw_not_atomic :
    (∃ (p : SharePool) (tokenDst shareSrc s : Quantity),
      s ≤ shareSrc ∧ p.TotalShares < s ∧
        (p.Withdraw tokenDst shareSrc s).err ≠ none ∧
        (p.Withdraw tokenDst shareSrc s).shareSrc < shareSrc) ∧
    ∀ (p : SharePool) (tokenDst shareSrc s : Quantity), s ≤ shareSrc → p.TotalShares < s →
      p.Withdraw tokenDst shareSrc s =
        ⟨some .ErrInsufficientBalance, p, tokenDst, shareSrc - s⟩ := by
  constructor
  · exact ⟨⟨10, 5⟩, 0, 8, 6, by decide, by decide, by decide, by decide⟩
  · intro p tokenDst shareSrc s h1 h2
    rw [Withdraw_eq, if_neg (Nat.not_lt.mpr h1), if_pos h2]

/-- Instance of C12: the failing withdrawal of 6 shares leaves only 2 of the 8
shares in the source, with the pool untouched. -/
theorem withdraw_not_atomic_witness :
    SharePool.Withdraw ⟨10, 5⟩ 0 8 6 = ⟨some .ErrInsufficientBalance, ⟨10, 5⟩, 0, 8 - 6⟩ :=
  withdraw_not_atomic.2 ⟨10, 5⟩ 0 8 6 (by decide) (by decide)

/-- There is no input on which `Deposit` returns an error and leaves the pool,
the token source or the share destination changed. -/
theorem Deposit_no_error_with_change :
    ¬ ∃ (p : SharePool) (shareDst tokenSrc a : Quantity),
      (p.Deposit shareDst tokenSrc a).err ≠ none ∧
        ((p.Deposit shareDst tokenSrc a).pool ≠ p ∨
          (p.Deposit shareDst tokenSrc a).tokenSrc ≠ tokenSrc ∨
          (p.Deposit shareDst tokenSrc a).shareDst ≠ shareDst) := by
  rintro ⟨p, shareDst, tokenSrc, a, herr, hchg⟩
  obtain ⟨h1, h2, h3⟩ := Deposit_error_unchanged p shareDst tokenSrc a herr
  rcases hchg with h | h | h
  · exact h h1
  · exact h h3
  · exact h h2

/-- C13, evaluated where the code departs from it: although the comment on
`Deposit` says that an error leaves the pool and the affected accounts in an
invalid state, `Deposit` returns an error exactly when shares are issued
against a zero balance (`ErrInvalidArgument`) or the token source holds less
than the amount (`ErrInsufficientBalance`), and in both cases the pool, the
token source and the share destination keep the values they had before the
call. -/
theorem deposit_atomic_on_failure (p : SharePool) (shareDst tokenSrc a : Quantity) :
    ((p.Deposit shareDst tokenSrc a).err ≠ none ↔
      ((p.TotalShares ≠ 0 ∧ p.Balance = 0) ∨ tokenSrc < a)) ∧
    ((p.Deposit shareDst tokenSrc a).err ≠ none →
      (p.Deposit shareDst tokenSrc a).pool = p ∧
        (p.Deposit shareDst tokenSrc a).shareDst = shareDst ∧
        (p.Deposit shareDst tokenSrc a).tokenSrc = tokenSrc) := by
  refine ⟨?_, Deposit_error_unchanged p shareDst tokenSrc a⟩
  rw [Deposit_eq]
  by_cases hz : p.TotalShares ≠ 0 ∧ p.Balance = 0
  · simp [hz]
  · by_cases hT : tokenSrc < a
    · simp [hz, hT]
    · simp [hz, hT]

/-- Instance of C13 on the two failing paths: a deposit of 1500 into the pool
`{balance 0, total_shares 3000}` fails with `ErrInvalidArgument`, a deposit of
1500 from a source holding 1000 into the pool `{3000, 3000}` fails with
`ErrInsufficientBalance`, and each leaves the pool, the source and the
destination as they were. -/
theorem deposit_atomic_on_failure_witness :
    ((SharePool.Deposit ⟨0, 3000⟩ 7 5000 1500).err = some .ErrInvalidArgument ∧
      (SharePool.Deposit ⟨0, 3000⟩ 7 5000 1500).pool = ⟨0, 3000⟩ ∧
      (SharePool.Deposit ⟨0, 3000⟩ 7 5000 1500).shareDst = 7 ∧
      (SharePool.Deposit ⟨0, 3000⟩ 7 5000 1500).tokenSrc = 5000) ∧
    ((SharePool.Deposit ⟨3000, 3000⟩ 7 1000 1500).err = some .ErrInsufficientBalance ∧
      (SharePool.Deposit ⟨3000, 3000⟩ 7 1000 1500).pool = ⟨3000, 3000⟩ ∧
      (SharePool.Deposit ⟨3000, 3000⟩ 7 1000 1500).shareDst = 7 ∧
      (SharePool.Deposit ⟨3000, 3000⟩ 7 1000 1500).tokenSrc = 1000) :=
  ⟨⟨by decide, (deposit_atomic_on_failure ⟨0, 3000⟩ 7 5000 1500).2 (by decide)⟩,
    ⟨by decide, (deposit_atomic_on_failure ⟨3000, 3000⟩ 7 1000 1500).2 (by decide)⟩⟩

/-! ## Stake accumulator -/

/-- The accumulation loop never fails and adds the sum of the listed
thresholds to the running total. -/
theorem accumulateThresholds_eq (tm : ThresholdMap) (total : Nat) (claim : ThresholdSlice) :
    accumulateThresholds tm total claim = .ok (total + claimSum tm claim) := by
  unfold accumulateThresholds claimSum
  simp only [Quantity.Add]
  generalize claim.getD [] = kinds
  induction kinds generalizing total with
  | nil => simp [pure, Except.pure]
  | cons k ks ih =>
    simp only [List.foldlM_cons, List.map_cons, List.sum_cons]
    show List.foldlM _ (total + tm k) ks = _
    rw [ih, Nat.add_assoc]

/-- The loop of `TotalClaims` over a list of map entries, started from any
running total. -/
theorem totalClaims_loop_eq (tm : ThresholdMap) (exclude : Option StakeClaim)
    (entries : List (Sigma fun _ : StakeClaim => ThresholdSlice)) (total : Nat) :
    entries.foldlM
        (fun (total : Quantity) (entry : Sigma fun _ : StakeClaim => ThresholdSlice) =>
          if exclude = some entry.1 then (Except.ok total : Except ClaimError Quantity)
          else accumulateThresholds tm total entry.2)
        total =
      .ok (total +
        ((entries.filter fun entry => decide (exclude ≠ some entry.1)).map
          fun entry => claimSum tm entry.2).sum) := by
  induction entries generalizing total with
  | nil => simp [pure, Except.pure]
  | cons x xs ih =>
    rw [List.foldlM_cons]
    by_cases hx : exclude = some x.1
    · rw [if_pos hx]
      show List.foldlM _ total xs = _
      rw [ih, List.filter_cons_of_neg (by simpa using hx)]
    · rw [if_neg hx, accumulateThresholds_eq]
      show List.foldlM _ (total + claimSum tm x.2) xs = _
      rw [ih, List.filter_cons_of_pos (by simpa using hx), List.map_cons, List.sum_cons,
        Nat.add_assoc]

/-- The total computed by `TotalClaims` is the sum of the thresholds of the
claims that are not excluded; the method never fails. -/
theorem TotalClaims_eq (sa : StakeAccumulator) (tm : ThresholdMap)
    (exclude : Option StakeClaim) :
    sa.TotalClaims tm exclude = .ok (claimsSum tm sa exclude) := by
  unfold StakeAccumulator.TotalClaims claimsSum
  cases sa.Claims with
  | none => rfl
  | some claims =>
    show List.foldlM _ (0 : Nat) claims.entries = _
    rw [totalClaims_loop_eq, Nat.zero_add]

/-- The comparison `Cmp(..) < 0` holds exactly for a smaller receiver. -/
theorem Cmp_neg_iff (q n : Nat) : Quantity.Cmp q n < 0 ↔ q < n := by
  unfold Quantity.Cmp
  by_cases h1 : q < n
  · simp [h1]
  · by_cases h2 : q = n
    · simp [h2]
    · simp [h1, h2]

/-- Every outcome of `AddStakeClaim`. -/
theorem AddStakeClaim_eq (e : EscrowAccount) (tm : ThresholdMap) (c : StakeClaim)
    (ks : ThresholdSlice) :
    e.AddStakeClaim tm c ks =
      if e.Active.Balance < claimsSum tm e.StakeAccumulator (some c) + claimSum tm ks then
        ⟨some .ErrInsufficientStake, e⟩
      else
        ⟨none, { e with StakeAccumulator := e.StakeAccumulator.AddClaimUnchecked c ks }⟩ := by
  unfold EscrowAccount.AddStakeClaim
  rw [TotalClaims_eq]
  simp only [accumulateThresholds_eq, Cmp_neg_iff]

/-- Every outcome of `CheckStakeClaims`. -/
theorem CheckStakeClaims_eq (e : EscrowAccount) (tm : ThresholdMap) :
    e.CheckStakeClaims tm =
      if e.Active.Balance < claimsSum tm e.StakeAccumulator none then
        some .ErrInsufficientStake
      else none := by
  unfold EscrowAccount.CheckStakeClaims
  rw [TotalClaims_eq]
  simp only [Cmp_neg_iff]

/-- Reading a claim back after `AddClaimUnchecked` gives the thresholds just
stored. -/
theorem lookup_AddClaimUnchecked_self (sa : StakeAccumulator) (c : StakeClaim)
    (ks : ThresholdSlice) : (sa.AddClaimUnchecked c ks).lookup c = some ks := by
  unfold StakeAccumulator.AddClaimUnchecked StakeAccumulator.lookup
  exact AList.lookup_insert _

/-- Claims with another id read the same before and after `AddClaimUnchecked`. -/
theorem lookup_AddClaimUnchecked_ne (sa : StakeAccumulator) (c c' : StakeClaim)
    (ks : ThresholdSlice) (h : c' ≠ c) :
    (sa.AddClaimUnchecked c ks).lookup c' = sa.lookup c' := by
  rcases sa with ⟨_ | claims⟩
  · unfold StakeAccumulator.AddClaimUnchecked StakeAccumulator.lookup
    dsimp only
    rw [AList.lookup_insert_ne h, AList.lookup_empty]
  · unfold StakeAccumulator.AddClaimUnchecked StakeAccumulator.lookup
    exact AList.lookup_insert_ne h

/-- Dropping the entry of key `c` first does not change what remains after
filtering out the key `c`. -/
theorem filter_kerase_excluded (c : StakeClaim)
    (l : List (Sigma fun _ : StakeClaim => ThresholdSlice)) :
    ((List.kerase c l).filter fun entry => decide (some c ≠ some entry.1)) =
      l.filter fun entry => decide (some c ≠ some entry.1) := by
  induction l with
  | nil => rfl
  | cons x xs ih =>
    by_cases hx : c = x.1
    · rw [List.kerase_cons_eq hx, List.filter_cons_of_neg (by simp [hx])]
    · rw [List.kerase_cons_ne hx, List.filter_cons_of_pos (by simpa using hx),
        List.filter_cons_of_pos (by simpa using hx), ih]

/-- The total that excludes `c` is the same whatever thresholds are stored
under `c`. -/
theorem claimsSum_AddClaimUnchecked_excluded (tm : ThresholdMap) (sa : StakeAccumulator)
    (c : StakeClaim) (ks : ThresholdSlice) :
    claimsSum tm (sa.AddClaimUnchecked c ks) (some c) = claimsSum tm sa (some c) := by
  rcases sa with ⟨_ | claims⟩
  · unfold StakeAccumulator.AddClaimUnchecked claimsSum
    dsimp only
    rw [AList.insert_entries, List.filter_cons_of_neg (by simp), filter_kerase_excluded]
    rfl
  · unfold StakeAccumulator.AddClaimUnchecked claimsSum
    dsimp only
    rw [AList.insert_entries, List.filter_cons_of_neg (by simp), filter_kerase_excluded]

/-- Storing thresholds under `c` twice is the same as storing the last ones
once. -/
theorem AddClaimUnchecked_twice (sa : StakeAccumulator) (c : StakeClaim)
    (old ks : ThresholdSlice) :
    (sa.AddClaimUnchecked c old).AddClaimUnchecked c ks = sa.AddClaimUnchecked c ks := by
  rcases sa with ⟨_ | claims⟩
  · unfold StakeAccumulator.AddClaimUnchecked
    dsimp only
    rw [AList.insert_insert]
  · unfold StakeAccumulator.AddClaimUnchecked
    dsimp only
    rw [AList.insert_insert]

/-- With nothing excluded, the total of an accumulator is the sum over all its
claims of the thresholds of the kinds each claim lists. -/
theorem claimsSum_none (tm : ThresholdMap) (sa : StakeAccumulator) :
    claimsSum tm sa none =
      (((sa.Claims.getD ∅).entries.map fun entry => ((entry.2.getD []).map tm).sum).sum) := by
  rcases sa with ⟨_ | claims⟩
  · rfl
  · unfold claimsSum
    dsimp only
    rw [List.filter_eq_self.mpr (by simp)]
    rfl

/-- In a list with distinct keys, filtering out the key `c` keeps everything
when `c` is not among the keys. -/
theorem filter_excluded_of_not_mem (c : StakeClaim)
    (l : List (Sigma fun _ : StakeClaim => ThresholdSlice)) (h : c ∉ l.keys) :
    (l.filter fun entry => decide (some c ≠ some entry.1)) = l := by
  rw [List.filter_eq_self]
  intro entry hentry
  have hne : c ≠ entry.1 := fun heq => h (heq ▸ List.mem_keys_of_mem hentry)
  simpa using hne

/-- In a list with distinct keys, dropping the entry of key `c` is filtering
out the key `c`. -/
theorem kerase_eq_filter_excluded (c : StakeClaim)
    (l : List (Sigma fun _ : StakeClaim => ThresholdSlice)) (hl : l.NodupKeys) :
    List.kerase c l = l.filter fun entry => decide (some c ≠ some entry.1) := by
  induction l with
  | nil => rfl
  | cons x xs ih =>
    rw [List.nodupKeys_cons] at hl
    by_cases hx : c = x.1
    · rw [List.kerase_cons_eq hx, List.filter_cons_of_neg (by simp [hx]),
        filter_excluded_of_not_mem c xs (hx ▸ hl.1)]
    · rw [List.kerase_cons_ne hx, List.filter_cons_of_pos (by simpa using hx), ih hl.2]

/-- In a list with distinct keys that holds `old` under `c`, the sum over all
entries is the sum over the entries of the other keys plus the sum of `old`. -/
theorem sum_entries_split (tm : ThresholdMap) (c : StakeClaim) (old : ThresholdSlice)
    (l : List (Sigma fun _ : StakeClaim => ThresholdSlice)) (hl : l.NodupKeys)
    (hc : List.dlookup c l = some old) :
    (l.map fun entry => claimSum tm entry.2).sum =
      ((l.filter fun entry => decide (some c ≠ some entry.1)).map
        fun entry => claimSum tm entry.2).sum + claimSum tm old := by
  induction l with
  | nil => simp at hc
  | cons x xs ih =>
    rw [List.nodupKeys_cons] at hl
    by_cases hx : c = x.1
    · subst hx
      rw [List.dlookup_cons_eq] at hc
      rw [List.filter_cons_of_neg (by simp), filter_excluded_of_not_mem x.1 xs hl.1,
        List.map_cons, List.sum_cons]
      have hold : x.2 = old := Option.some.inj hc
      rw [hold]
      exact Nat.add_comm _ _
    · rw [List.dlookup_cons_ne _ _ hx] at hc
      rw [List.filter_cons_of_pos (by simpa using hx), List.map_cons, List.sum_cons,
        List.map_cons, List.sum_cons, ih hl.2 hc, Nat.add_assoc]

/-- The total of an accumulator that holds `old` under `c` is the total of
its other claims plus the thresholds of `old`. -/
theorem claimsSum_split (tm : ThresholdMap) (sa : StakeAccumulator) (c : StakeClaim)
    (old : ThresholdSlice) (hc : sa.lookup c = some old) :
    claimsSum tm sa none = claimsSum tm sa (some c) + claimSum tm old := by
  rcases sa with ⟨_ | claims⟩
  · simp [StakeAccumulator.lookup] at hc
  · unfold claimsSum
    dsimp only
    rw [List.filter_eq_self.mpr (by simp)]
    exact sum_entries_split tm c old claims.entries claims.nodupKeys hc

/-- After `AddClaimUnchecked` for `c` the total of the accumulator is the total
of its other claims plus the thresholds just stored: what was stored under `c`
before no longer counts. -/
theorem claimsSum_AddClaimUnchecked_none (tm : ThresholdMap) (sa : StakeAccumulator)
    (c : StakeClaim) (ks : ThresholdSlice) :
    claimsSum tm (sa.AddClaimUnchecked c ks) none =
      claimsSum tm sa (some c) + claimSum tm ks := by
  rw [claimsSum_split tm (sa.AddClaimUnchecked c ks) c ks (lookup_AddClaimUnchecked_self sa c ks),
    claimsSum_AddClaimUnchecked_excluded]

/-- Every outcome of `RemoveClaim`, by what the accumulator holds under the
claim id: nothing, the nil slice, or a non-nil slice. -/
theorem RemoveClaim_eq (sa : StakeAccumulator) (c : StakeClaim) :
    sa.RemoveClaim c =
      match sa.lookup c with
      | none => ⟨some (.claimDoesNotExist c), sa⟩
      | some none => ⟨some (.claimDoesNotExist c), sa⟩
      | some (some _) =>
        ⟨none, ⟨some ((sa.Claims.getD ∅).erase c)⟩⟩ := by
  rcases sa with ⟨_ | claims⟩
  · rfl
  · unfold StakeAccumulator.RemoveClaim StakeAccumulator.lookup
    dsimp only
    cases hl : AList.lookup c claims with
    | none => simp
    | some v =>
      cases v with
      | none => simp
      | some l => simp

/-- C14: `AddStakeClaim` fails with `ErrInsufficientStake` exactly when the
active balance is less than the thresholds of every existing claim other than
`c` plus the thresholds of `ks`; otherwise it succeeds, stores `ks` under `c`
and leaves every other claim, and the two share pools, unchanged. -/
theorem add_stake_claim_contract (e : EscrowAccount) (tm : ThresholdMap) (c : StakeClaim)
    (ks : ThresholdSlice) :
    ((e.AddStakeClaim tm c ks).err = some .ErrInsufficientStake ↔
      e.Active.Balance < claimsSum tm e.StakeAccumulator (some c) + claimSum tm ks) ∧
    (¬ e.Active.Balance < claimsSum tm e.StakeAccumulator (some c) + claimSum tm ks →
      (e.AddStakeClaim tm c ks).err = none ∧
      (e.AddStakeClaim tm c ks).account.StakeAccumulator.lookup c = some ks ∧
      (∀ c' : StakeClaim, c' ≠ c →
        (e.AddStakeClaim tm c ks).account.StakeAccumulator.lookup c' =
          e.StakeAccumulator.lookup c') ∧
      (e.AddStakeClaim tm c ks).account.Active = e.Active ∧
      (e.AddStakeClaim tm c ks).account.Debonding = e.Debonding) := by
  rw [AddStakeClaim_eq]
  by_cases h : e.Active.Balance < claimsSum tm e.StakeAccumulator (some c) + claimSum tm ks
  · rw [if_pos h]
    exact ⟨⟨fun _ => h, fun _ => rfl⟩, fun hn => absurd h hn⟩
  · rw [if_neg h]
    refine ⟨⟨fun hf => ?_, fun hf => absurd hf h⟩, fun _ => ⟨rfl, ?_, ?_, rfl, rfl⟩⟩
    · simp at hf
    · exact lookup_AddClaimUnchecked_self _ _ _
    · intro c' hc'
      exact lookup_AddClaimUnchecked_ne _ _ _ _ hc'

/-- Instance of C14 on the stake-claim scenario: with a balance of 1000 and no
claims yet, `"node-X"` with `[Entity, NodeCompute]` totals 1000 and is stored. -/
theorem add_stake_claim_contract_witness :
    (scenarioAccount ⟨none⟩).AddStakeClaim scenarioThresholds "node-X"
        (some [KindEntity, KindNodeCompute]) = ⟨none, scenarioAccount scenarioNodeX⟩ ∧
      ((scenarioAccount ⟨none⟩).AddStakeClaim scenarioThresholds "node-X"
        (some [KindEntity, KindNodeCompute])).account.StakeAccumulator.lookup "node-X" =
          some (some [KindEntity, KindNodeCompute]) :=
  ⟨by decide,
    ((add_stake_claim_contract (scenarioAccount ⟨none⟩) scenarioThresholds "node-X"
      (some [KindEntity, KindNodeCompute])).2 (by decide)).2.1⟩

/-- C15: whenever `AddStakeClaim` returns an error, the stake accumulator, and
with it the whole account, is exactly as it was before the call. -/
theorem add_stake_claim_error_unchanged (e : EscrowAccount) (tm : ThresholdMap)
    (c : StakeClaim) (ks : ThresholdSlice)
    (herr : (e.AddStakeClaim tm c ks).err ≠ none) :
    (e.AddStakeClaim tm c ks).account.StakeAccumulator = e.StakeAccumulator ∧
      (e.AddStakeClaim tm c ks).account = e := by
  rw [AddStakeClaim_eq] at herr ⊢
  by_cases h : e.Active.Balance < claimsSum tm e.StakeAccumulator (some c) + claimSum tm ks
  · rw [if_pos h]
    exact ⟨rfl, rfl⟩
  · rw [if_neg h] at herr
    exact absurd rfl herr

/-- Instance of C15 on the stake-claim scenario: after `"node-X"` is stored,
adding `"node-Y"` with `[Entity]` totals 1100 against a balance of 1000, fails
with `ErrInsufficientStake`, and the accumulator still holds only `"node-X"`. -/
theorem add_stake_claim_error_unchanged_witness :
    ((scenarioAccount scenarioNodeX).AddStakeClaim scenarioThresholds "node-Y"
        (some [KindEntity])).err = some .ErrInsufficientStake ∧
      ((scenarioAccount scenarioNodeX).AddStakeClaim scenarioThresholds "node-Y"
        (some [KindEntity])).account.StakeAccumulator = scenarioNodeX :=
  ⟨by decide,
    (add_stake_claim_error_unchanged (scenarioAccount scenarioNodeX) scenarioThresholds
      "node-Y" (some [KindEntity]) (by decide)).1⟩

/-- C16: adding a claim whose id is already present replaces it instead of
counting it twice. The thresholds stored under `c` do not enter the total that
`AddStakeClaim` for `c` requires, so the call has the same error, and on
success the same accumulator, whatever was stored under `c`; applying a
successful `AddStakeClaim` for `c` with `ks` a second time succeeds and gives
the same account as applying it once; and when `c` is present with thresholds
`old`, so that the total of the accumulator is that of the other claims plus
`old`, a successful `AddStakeClaim` for `c` with `ks` leaves `ks` stored under
`c`, every other claim as it was, and a total of the other claims plus `ks`. -/
theorem add_stake_claim_replaces (e : EscrowAccount) (tm : ThresholdMap) (c : StakeClaim)
    (old ks : ThresholdSlice) :
    ((e.StakeAccumulator.AddClaimUnchecked c old).TotalClaims tm (some c) =
        e.StakeAccumulator.TotalClaims tm (some c)) ∧
    (({ e with StakeAccumulator := e.StakeAccumulator.AddClaimUnchecked c old } :
        EscrowAccount).AddStakeClaim tm c ks).err = (e.AddStakeClaim tm c ks).err ∧
    ((e.AddStakeClaim tm c ks).err = none →
      (({ e with StakeAccumulator := e.StakeAccumulator.AddClaimUnchecked c old } :
          EscrowAccount).AddStakeClaim tm c ks).account = (e.AddStakeClaim tm c ks).account ∧
      (e.AddStakeClaim tm c ks).account.AddStakeClaim tm c ks =
        ⟨none, (e.AddStakeClaim tm c ks).account⟩) ∧
    (e.StakeAccumulator.lookup c = some old → (e.AddStakeClaim tm c ks).err = none →
      e.StakeAccumulator.TotalClaims tm none =
        .ok (claimsSum tm e.StakeAccumulator (some c) + claimSum tm old) ∧
      (e.AddStakeClaim tm c ks).account.StakeAccumulator.lookup c = some ks ∧
      (∀ c' : StakeClaim, c' ≠ c →
        (e.AddStakeClaim tm c ks).account.StakeAccumulator.lookup c' =
          e.StakeAccumulator.lookup c') ∧
      (e.AddStakeClaim tm c ks).account.StakeAccumulator.TotalClaims tm none =
        .ok (claimsSum tm e.StakeAccumulator (some c) + claimSum tm ks)) := by
  refine ⟨?_, ?_, ?_, ?_⟩
  · rw [TotalClaims_eq, TotalClaims_eq, claimsSum_AddClaimUnchecked_excluded]
  · rw [AddStakeClaim_eq, AddStakeClaim_eq]
    simp only [claimsSum_AddClaimUnchecked_excluded]
    by_cases h : e.Active.Balance < claimsSum tm e.StakeAccumulator (some c) + claimSum tm ks
    · rw [if_pos h, if_pos h]
    · rw [if_neg h, if_neg h]
  · intro hok
    rw [AddStakeClaim_eq] at hok
    by_cases h : e.Active.Balance < claimsSum tm e.StakeAccumulator (some c) + claimSum tm ks
    · rw [if_pos h] at hok
      simp at hok
    · constructor
      · rw [AddStakeClaim_eq, AddStakeClaim_eq]
        simp only [claimsSum_AddClaimUnchecked_excluded]
        rw [if_neg h, if_neg h]
        simp only [AddClaimUnchecked_twice]
      · rw [AddStakeClaim_eq e, if_neg h, AddStakeClaim_eq]
        simp only [claimsSum_AddClaimUnchecked_excluded]
        rw [if_neg h]
        simp only [AddClaimUnchecked_twice]
  · intro hpresent hok
    rw [AddStakeClaim_eq] at hok ⊢
    by_cases h : e.Active.Balance < claimsSum tm e.StakeAccumulator (some c) + claimSum tm ks
    · rw [if_pos h] at hok
      simp at hok
    · rw [if_neg h]
      refine ⟨?_, ?_, ?_, ?_⟩
      · rw [TotalClaims_eq, claimsSum_split tm e.StakeAccumulator c old hpresent]
      · exact lookup_AddClaimUnchecked_self _ _ _
      · intro c' hc'
        exact lookup_AddClaimUnchecked_ne _ _ _ _ hc'
      · rw [TotalClaims_eq, claimsSum_AddClaimUnchecked_none]

/-- Instance of C16 on the stake-claim scenario: once `"node-X"` is stored with
`[Entity, NodeCompute]`, storing it again with the same thresholds succeeds
(1000 is required, not 2000) and leaves the same account; and storing it again
with `[Entity]` alone succeeds, leaves `[Entity]` under `"node-X"` and brings
the total of the accumulator from 1000 to 100. -/
theorem add_stake_claim_replaces_witness :
    (((scenarioAccount ⟨none⟩).AddStakeClaim scenarioThresholds "node-X"
        (some [KindEntity, KindNodeCompute])).account.AddStakeClaim scenarioThresholds
          "node-X" (some [KindEntity, KindNodeCompute]) =
      ⟨none, ((scenarioAccount ⟨none⟩).AddStakeClaim scenarioThresholds "node-X"
        (some [KindEntity, KindNodeCompute])).account⟩) ∧
    (scenarioNodeX.lookup "node-X" = some (some [KindEntity, KindNodeCompute]) ∧
      ((scenarioAccount scenarioNodeX).AddStakeClaim scenarioThresholds "node-X"
        (some [KindEntity])).err = none ∧
      scenarioNodeX.TotalClaims scenarioThresholds none = .ok 1000 ∧
      ((scenarioAccount scenarioNodeX).AddStakeClaim scenarioThresholds "node-X"
        (some [KindEntity])).account.StakeAccumulator.lookup "node-X" =
          some (some [KindEntity]) ∧
      ((scenarioAccount scenarioNodeX).AddStakeClaim scenarioThresholds "node-X"
        (some [KindEntity])).account.StakeAccumulator.TotalClaims scenarioThresholds none =
          .ok 100) :=
  ⟨((add_stake_claim_replaces (scenarioAccount ⟨none⟩) scenarioThresholds "node-X" none
    (some [KindEntity, KindNodeCompute])).2.2.1 (by decide)).2,
    by decide, by decide,
    (((add_stake_claim_replaces (scenarioAccount scenarioNodeX) scenarioThresholds "node-X"
      (some [KindEntity, KindNodeCompute]) (some [KindEntity])).2.2.2 (by decide)
      (by decide)).1 : _),
    ((add_stake_claim_replaces (scenarioAccount scenarioNodeX) scenarioThresholds "node-X"
      (some [KindEntity, KindNodeCompute]) (some [KindEntity])).2.2.2 (by decide)
      (by decide)).2.1,
    (((add_stake_claim_replaces (scenarioAccount scenarioNodeX) scenarioThresholds "node-X"
      (some [KindEntity, KindNodeCompute]) (some [KindEntity])).2.2.2 (by decide)
      (by decide)).2.2.2 : _)⟩

/-- C17, evaluated where the code departs from it: a claim stored with the nil
threshold slice is present in the accumulator (`AddStakeClaim` accepts and
stores it), yet `RemoveClaim` reports that it does not exist and removes
nothing; stored with a non-nil empty slice, the same claim is removed. -/
theorem remove_claim_nil_thresholds :
    (scenarioAccount ⟨none⟩).AddStakeClaim scenarioThresholds "c" none =
        ⟨none, scenarioAccount ⟨some (AList.singleton "c" none)⟩⟩ ∧
      (StakeAccumulator.mk (some (AList.singleton "c" none))).lookup "c" = some none ∧
      (StakeAccumulator.mk (some (AList.singleton "c" none))).RemoveClaim "c" =
        ⟨some (.claimDoesNotExist "c"), ⟨some (AList.singleton "c" none)⟩⟩ ∧
      (StakeAccumulator.mk (some (AList.singleton "c" (some [])))).RemoveClaim "c" =
        ⟨none, ⟨some ∅⟩⟩ := by
  decide

/-- C18: `CheckStakeClaims` returns `ErrInsufficientStake` exactly when the
active balance is less than the sum, over all claims and all threshold kinds
listed in each claim, of the threshold quantities, and no error otherwise. -/
theorem check_stake_claims_contract (e : EscrowAccount) (tm : ThresholdMap) :
    (e.CheckStakeClaims tm = some .ErrInsufficientStake ↔
      e.Active.Balance <
        (((e.StakeAccumulator.Claims.getD ∅).entries.map
          fun entry => ((entry.2.getD []).map tm).sum).sum)) ∧
    (¬ e.Active.Balance <
        (((e.StakeAccumulator.Claims.getD ∅).entries.map
          fun entry => ((entry.2.getD []).map tm).sum).sum) →
      e.CheckStakeClaims tm = none) := by
  rw [CheckStakeClaims_eq, claimsSum_none]
  by_cases h : e.Active.Balance <
      (((e.StakeAccumulator.Claims.getD ∅).entries.map
        fun entry => ((entry.2.getD []).map tm).sum).sum)
  · rw [if_pos h]
    exact ⟨⟨fun _ => h, fun _ => rfl⟩, fun hn => absurd h hn⟩
  · rw [if_neg h]
    exact ⟨⟨fun hf => by simp at hf, fun hf => absurd hf h⟩, fun _ => rfl⟩

/-- Instance of C18 on the stake-claim scenario: the claim `"node-X"` totals
1000, which the balance of 1000 covers. -/
theorem check_stake_claims_contract_witness :
    (scenarioAccount scenarioNodeX).CheckStakeClaims scenarioThresholds = none :=
  (check_stake_claims_contract (scenarioAccount scenarioNodeX) scenarioThresholds).2
    (by decide)

/-! ## Validator set updates -/

/-- A loop that appends `f x` for the elements `x` passing a test leaves the
list it started from followed by the images of the elements that pass. -/
theorem foldl_append_filter {α β : Type} (p : α → Bool) (f : α → β) (l : List α)
    (init : List β) :
    l.foldl (fun acc x => if p x = true then acc ++ [f x] else acc) init =
      init ++ (l.filter p).map f := by
  induction l generalizing init with
  | nil => simp
  | cons x xs ih =>
    rw [List.foldl_cons, ih]
    by_cases hp : p x = true
    · rw [if_pos hp, List.filter_cons_of_pos hp, List.map_cons, List.append_assoc]
      rfl
    · rw [if_neg hp, List.filter_cons_of_neg hp]

/-- The update list as two filtered passes: removals from the current map, then
additions and changes from the pending map. -/
theorem diffValidators_eq {K : Type} [DecidableEq K] (current pending : ValidatorMap K) :
    diffValidators current pending =
      (current.entries.filter fun entry => (pending.lookup entry.1).isNone).map
          (fun entry => (⟨entry.1, 0⟩ : ValidatorUpdate K)) ++
        (pending.entries.filter fun entry => decide (current.lookup entry.1 ≠ some entry.2)).map
          (fun entry => (⟨entry.1, entry.2⟩ : ValidatorUpdate K)) := by
  unfold diffValidators PublicKeyToValidatorUpdate
  have h1 : (fun (updates : List (ValidatorUpdate K)) (entry : Sigma fun _ : K => Int) =>
        match pending.lookup entry.1 with
        | none => updates ++ [(⟨entry.1, 0⟩ : ValidatorUpdate K)]
        | some _ => updates) =
      fun updates entry =>
        if (pending.lookup entry.1).isNone = true then
          updates ++ [(⟨entry.1, 0⟩ : ValidatorUpdate K)]
        else updates := by
    funext updates entry
    cases pending.lookup entry.1 <;> rfl
  have h2 : (fun (updates : List (ValidatorUpdate K)) (entry : Sigma fun _ : K => Int) =>
        let keep : Bool :=
          match current.lookup entry.1 with
          | some curPower => curPower == entry.2
          | none => false
        if keep = true then updates
        else updates ++ [(⟨entry.1, entry.2⟩ : ValidatorUpdate K)]) =
      fun updates entry =>
        if decide (current.lookup entry.1 ≠ some entry.2) = true then
          updates ++ [(⟨entry.1, entry.2⟩ : ValidatorUpdate K)]
        else updates := by
    funext updates entry
    cases hl : current.lookup entry.1 with
    | none => simp
    | some q =>
      by_cases hq : q = entry.2
      · simp [hq]
      · simp [hq]
  simp only [h1, h2, foldl_append_filter, List.nil_append]

/-- Membership in the removal pass: power 0 for a key of the current map that
the pending map lacks. -/
theorem mem_removals_iff {K : Type} [DecidableEq K] (current pending : ValidatorMap K)
    (u : ValidatorUpdate K) :
    u ∈ (current.entries.filter fun entry => (pending.lookup entry.1).isNone).map
          (fun entry => (⟨entry.1, 0⟩ : ValidatorUpdate K)) ↔
      u.PubKey ∈ current ∧ u.PubKey ∉ pending ∧ u.Power = 0 := by
  rw [List.mem_map]
  constructor
  · rintro ⟨entry, hmem, rfl⟩
    rw [List.mem_filter] at hmem
    refine ⟨?_, ?_, rfl⟩
    · exact AList.mem_keys.mpr (List.mem_keys_of_mem hmem.1)
    · have h := hmem.2
      rw [Option.isNone_iff_eq_none] at h
      exact AList.lookup_eq_none.mp h
  · rintro ⟨hcur, hpend, hpow⟩
    obtain ⟨b, hb⟩ := List.exists_of_mem_keys (AList.mem_keys.mp hcur)
    refine ⟨⟨u.PubKey, b⟩, ?_, ?_⟩
    · rw [List.mem_filter]
      refine ⟨hb, ?_⟩
      rw [Option.isNone_iff_eq_none]
      exact AList.lookup_eq_none.mpr hpend
    · cases u
      simp only at hpow
      subst hpow
      rfl

/-- Membership in the upsert pass: the pending power of a key whose current
power is absent or different. -/
theorem mem_upserts_iff {K : Type} [DecidableEq K] (current pending : ValidatorMap K)
    (u : ValidatorUpdate K) :
    u ∈ (pending.entries.filter fun entry =>
            decide (current.lookup entry.1 ≠ some entry.2)).map
          (fun entry => (⟨entry.1, entry.2⟩ : ValidatorUpdate K)) ↔
      pending.lookup u.PubKey = some u.Power ∧ current.lookup u.PubKey ≠ some u.Power := by
  rw [List.mem_map]
  constructor
  · rintro ⟨entry, hmem, rfl⟩
    rw [List.mem_filter] at hmem
    obtain ⟨k, p⟩ := entry
    exact ⟨AList.mem_lookup_iff.mpr hmem.1, of_decide_eq_true hmem.2⟩
  · rintro ⟨hpend, hcur⟩
    refine ⟨⟨u.PubKey, u.Power⟩, ?_, rfl⟩
    rw [List.mem_filter]
    exact ⟨AList.mem_lookup_iff.mp hpend, decide_eq_true hcur⟩

/-- C19: the list returned by `diffValidators` holds exactly one update
`(v, 0)` for each `v` in current that is not in pending and one update
`(v, pending[v])` for each `v` in pending that is absent from current or has a
different power there; no key occurs twice, and a validator with the same power
in both maps yields no update. -/
theorem diff_validators_contract {K : Type} [DecidableEq K]
    (current pending : ValidatorMap K) :
    (∀ u : ValidatorUpdate K, u ∈ diffValidators current pending ↔
      (u.PubKey ∈ current ∧ u.PubKey ∉ pending ∧ u.Power = 0) ∨
      (pending.lookup u.PubKey = some u.Power ∧ current.lookup u.PubKey ≠ some u.Power)) ∧
    ((diffValidators current pending).map fun u => u.PubKey).Nodup ∧
    (∀ (v : K) (p : Int), current.lookup v = some p → pending.lookup v = some p →
      v ∉ (diffValidators current pending).map fun u => u.PubKey) := by
  have hmem : ∀ u : ValidatorUpdate K, u ∈ diffValidators current pending ↔
      (u.PubKey ∈ current ∧ u.PubKey ∉ pending ∧ u.Power = 0) ∨
      (pending.lookup u.PubKey = some u.Power ∧ current.lookup u.PubKey ≠ some u.Power) := by
    intro u
    rw [diffValidators_eq, List.mem_append, mem_removals_iff, mem_upserts_iff]
  refine ⟨hmem, ?_, ?_⟩
  · rw [diffValidators_eq, List.map_append, List.map_map, List.map_map]
    rw [List.nodup_append]
    refine ⟨?_, ?_, ?_⟩
    · exact (current.keys_nodup).sublist ((List.filter_sublist _).map _)
    · exact (pending.keys_nodup).sublist ((List.filter_sublist _).map _)
    · intro v h1 h2
      rw [List.mem_map] at h1 h2
      obtain ⟨e1, he1, rfl⟩ := h1
      obtain ⟨e2, he2, hv⟩ := h2
      rw [List.mem_filter] at he1 he2
      have hnone : pending.lookup e1.1 = none := Option.isNone_iff_eq_none.mp he1.2
      have hin : e2.1 ∈ pending := AList.mem_keys.mpr (List.mem_keys_of_mem he2.1)
      have hv' : e2.1 = e1.1 := hv
      rw [hv'] at hin
      exact AList.lookup_eq_none.mp hnone hin
  · intro v p hc hp hv
    rw [List.mem_map] at hv
    obtain ⟨u, hu, rfl⟩ := hv
    rcases (hmem u).mp hu with ⟨-, hnot, -⟩ | ⟨hpend, hcur⟩
    · exact hnot (AList.lookup_isSome.mp (by rw [hp]; rfl))
    · rw [hp] at hpend
      rw [hc] at hcur
      exact hcur hpend

/-- Instance of C19 on the validator-diff scenario: current `{A: 10, B: 20}` and
pending `{A: 10, C: 30}` give the updates `{B, 0}` and `{C, 30}`, and `A`, whose
power is 10 in both, is in no update. -/
theorem diff_validators_contract_witness :
    diffValidators scenarioCurrent scenarioPending = [⟨"B", 0⟩, ⟨"C", 30⟩] ∧
      "A" ∉ (diffValidators scenarioCurrent scenarioPending).map fun u => u.PubKey :=
  ⟨by decide,
    (diff_validators_contract scenarioCurrent scenarioPending).2.2 "A" 10 (by decide)
      (by decide)⟩

/-! ## Committee election -/

/-- A Go `int` expression whose mathematical value fits in 64 bits has that
value. -/
theorem wrapInt_eq (x : Int) (hlo : -9223372036854775808 ≤ x) (hhi : x < 9223372036854775808) :
    wrapInt x = x := by
  unfold wrapInt
  omega

/-- Reading the node list at an index within its bounds succeeds. -/
theorem nodeAt_eq {K : Type} (nodeList : List (Node K)) (d : Node K) (idx : Int)
    (h0 : 0 ≤ idx) (h1 : idx < nodeList.length) :
    nodeAt nodeList idx = some (nodeList.getD idx.toNat d) := by
  unfold nodeAt
  have hlt : idx.toNat < nodeList.length := by omega
  rw [if_neg (by omega), List.getD_eq_getElem _ _ hlt, List.getElem?_eq_getElem hlt]

/-- The member loop, entered at iteration `i` with `i` members collected and
`k ≥ 1` still wanted, appends one member for each of the next `k` indices (or
for all that remain, if fewer). -/
theorem electMembers_eq {K : Type} (needsLeader : Bool) (workerSize wantedNodes : Int)
    (nodeList : List (Node K)) (d : Node K) (idxs : List Int) (i k : Nat)
    (members : List (CommitteeNode K))
    (hlen : members.length = i) (hk : 1 ≤ k) (hwanted : wantedNodes = i + k)
    (hidx : ∀ idx ∈ idxs, 0 ≤ idx ∧ idx < nodeList.length) :
    electMembers needsLeader workerSize wantedNodes nodeList idxs i members =
      some (members ++ ((idxs.take k).enumFrom i).map fun p =>
        (⟨roleFor needsLeader workerSize p.1, (nodeList.getD p.2.toNat d).ID⟩ :
          CommitteeNode K)) := by
  induction idxs generalizing i k members with
  | nil => simp [electMembers]
  | cons idx rest ih =>
    have hv := hidx idx (List.mem_cons_self _ _)
    unfold electMembers
    rw [nodeAt_eq nodeList d idx hv.1 hv.2]
    simp only [List.length_append, List.length_singleton, hlen]
    by_cases hstop : ((i + 1 : Nat) : Int) ≥ wantedNodes
    · rw [if_pos hstop]
      have hk1 : k = 1 := by omega
      subst hk1
      simp
    · rw [if_neg hstop]
      obtain ⟨k', rfl⟩ : ∃ k', k = k' + 1 := ⟨k - 1, by omega⟩
      rw [ih (i + 1) k' _ (by simp [hlen]) (by omega) (by omega)
        (fun x hx => hidx x (List.mem_cons_of_mem _ hx))]
      simp [List.append_assoc]

/-- With a positive worker size, the loop assigns `BackupWorker` exactly from
iteration `workerSize` on. -/
theorem roleFor_backup_iff (needsLeader : Bool) (workerSize : Int) (hw : 0 < workerSize)
    (j : Nat) : roleFor needsLeader workerSize j = Role.BackupWorker ↔ workerSize ≤ j := by
  unfold roleFor
  by_cases h0 : j = 0 ∧ needsLeader = true
  · rw [if_pos h0]
    constructor
    · intro h
      cases h
    · intro h
      omega
  · rw [if_neg h0]
    by_cases h1 : (j : Int) ≥ workerSize
    · rw [if_pos h1]
      exact ⟨fun _ => h1, fun _ => rfl⟩
    · rw [if_neg h1]
      constructor
      · intro h
        cases h
      · intro h
        exact absurd h h1

/-- Among the first `a + b` iterations, exactly `b` have an index of at least
`a`. -/
theorem countP_ge_range (a b : Nat) :
    (List.range (a + b)).countP (fun j => decide (a ≤ j)) = b := by
  rw [List.range_add, List.countP_append, List.countP_map]
  have h1 : (List.range a).countP (fun j => decide (a ≤ j)) = 0 := by
    rw [List.countP_eq_zero]
    intro j hj
    have := List.mem_range.mp hj
    simp only [decide_eq_true_eq]
    omega
  have h2 : (List.range b).countP ((fun j => decide (a ≤ j)) ∘ fun x => a + x) =
      (List.range b).length := by
    rw [List.countP_eq_length]
    intro j _
    simp
  rw [h1, h2, List.length_range, Nat.zero_add]

/-- The roles of the members appended for the first `w` indices are the roles
of the iterations `0, …, w - 1`. -/
theorem roles_of_members {K : Type} (needsLeader : Bool) (workerSize : Int)
    (nodeList : List (Node K)) (d : Node K) (idxs : List Int) (w : Nat)
    (hw : w ≤ idxs.length) :
    (((idxs.take w).enumFrom 0).map fun p =>
        (⟨roleFor needsLeader workerSize p.1, (nodeList.getD p.2.toNat d).ID⟩ :
          CommitteeNode K)).map (fun m => m.Role) =
      (List.range w).map (roleFor needsLeader workerSize) := by
  rw [List.map_map]
  have hcomp : ((fun m : CommitteeNode K => m.Role) ∘ fun p : Nat × Int =>
        (⟨roleFor needsLeader workerSize p.1, (nodeList.getD p.2.toNat d).ID⟩ :
          CommitteeNode K)) =
      (roleFor needsLeader workerSize) ∘ Prod.fst := by
    funext p
    rfl
  rw [hcomp, ← List.map_map, List.enumFrom_map_fst, List.length_take, Nat.min_eq_left hw,
    List.range_eq_range']

/-- With a positive worker size, enough eligible nodes and a permutation of
their indices, `electCommitteeBody` stores the members built from the first
`workerSize + backupSize` indices of the permutation. -/
theorem electCommitteeBody_eq_put {K : Type} (needsLeader : Bool) (workerSize backupSize : Int)
    (nodes nodeList : List (Node K)) (d : Node K) (hasStake isSuitable : Node K → Bool)
    (getPerm : Int → Option (List Int)) (idxs : List Int)
    (hlist : (nodes.filter fun n => hasStake n && isSuitable n) = nodeList)
    (hsize : (nodeList.length : Int) < 9223372036854775808)
    (hw : 0 < workerSize) (hb : 0 ≤ backupSize)
    (hn : workerSize + backupSize ≤ nodeList.length)
    (hperm : getPerm nodeList.length = some idxs)
    (hplen : idxs.length = nodeList.length)
    (hidx : ∀ idx ∈ idxs, 0 ≤ idx ∧ idx < nodeList.length) :
    electCommitteeBody needsLeader workerSize backupSize nodes hasStake isSuitable getPerm =
      .putCommittee
        (((idxs.take (workerSize + backupSize).toNat).enumFrom 0).map fun p =>
          (⟨roleFor needsLeader workerSize p.1, (nodeList.getD p.2.toNat d).ID⟩ :
            CommitteeNode K)) := by
  have hwrap : wrapInt (workerSize + backupSize) = workerSize + backupSize :=
    wrapInt_eq _ (by omega) (by omega)
  have hloop := electMembers_eq needsLeader workerSize (workerSize + backupSize) nodeList d
    idxs 0 (workerSize + backupSize).toNat [] rfl (by omega) (by omega) hidx
  unfold electCommitteeBody
  simp only [hlist, hwrap, hperm]
  rw [if_neg (by omega), if_neg (by omega), hloop]
  simp only [List.nil_append]
  rw [if_neg]
  simp only [List.length_map, List.enumFrom_length, List.length_take, ne_eq, not_not]
  omega

/-- When `electCommitteeBody` elects from a list of `n` eligible nodes with
`workerSize > 0` and `wanted = workerSize + backupSize ≤ n`, using a permutation
`idxs` of the `n` indices, it stores a committee of exactly `wanted` members;
member `i` is the node at index `idxs[i]` of the list, with role `Leader` if
`i = 0` and the kind needs a leader, otherwise `BackupWorker` if
`i ≥ workerSize`, otherwise `Worker`; so `backupSize` members are backup workers
and `workerSize` are not. -/
theorem electCommitteeBody_members {K : Type} (needsLeader : Bool) (workerSize backupSize : Int)
    (nodes nodeList : List (Node K)) (hasStake isSuitable : Node K → Bool)
    (getPerm : Int → Option (List Int)) (idxs : List Int)
    (hlist : (nodes.filter fun n => hasStake n && isSuitable n) = nodeList)
    (hsize : (nodeList.length : Int) < 9223372036854775808)
    (hw : 0 < workerSize) (hb : 0 ≤ backupSize)
    (hn : workerSize + backupSize ≤ nodeList.length)
    (hperm : getPerm nodeList.length = some idxs)
    (hplen : idxs.length = nodeList.length)
    (hidx : ∀ idx ∈ idxs, 0 ≤ idx ∧ idx < nodeList.length) :
    ∃ members : List (CommitteeNode K),
      electCommitteeBody needsLeader workerSize backupSize nodes hasStake isSuitable getPerm =
        .putCommittee members ∧
      (members.length : Int) = workerSize + backupSize ∧
      (∀ i : Nat, i < members.length →
        ∃ (idx : Int) (n : Node K), idxs[i]? = some idx ∧ nodeAt nodeList idx = some n ∧
          members[i]? = some
            ⟨if i = 0 ∧ needsLeader = true then Role.Leader
              else if (i : Int) ≥ workerSize then Role.BackupWorker
              else Role.Worker, n.ID⟩) ∧
      ((members.countP fun m => decide (m.Role = Role.BackupWorker) : Nat) : Int) =
        backupSize ∧
      ((members.countP fun m => decide (¬ m.Role = Role.BackupWorker) : Nat) : Int) =
        workerSize := by
  obtain ⟨d, hd⟩ : ∃ d, d ∈ nodeList := by
    cases nodeList with
    | nil =>
      simp only [List.length_nil] at hn
      omega
    | cons x xs => exact ⟨x, List.mem_cons_self _ _⟩
  have hput := electCommitteeBody_eq_put needsLeader workerSize backupSize nodes nodeList d
    hasStake isSuitable getPerm idxs hlist hsize hw hb hn hperm hplen hidx
  have hWle : (workerSize + backupSize).toNat ≤ idxs.length := by omega
  have hlenM : (((idxs.take (workerSize + backupSize).toNat).enumFrom 0).map fun p =>
      (⟨roleFor needsLeader workerSize p.1, (nodeList.getD p.2.toNat d).ID⟩ :
        CommitteeNode K)).length = (workerSize + backupSize).toNat := by
    rw [List.length_map, List.enumFrom_length, List.length_take, Nat.min_eq_left hWle]
  have hroles := roles_of_members needsLeader workerSize nodeList d idxs
    (workerSize + backupSize).toNat hWle
  have hback : (((idxs.take (workerSize + backupSize).toNat).enumFrom 0).map fun p =>
      (⟨roleFor needsLeader workerSize p.1, (nodeList.getD p.2.toNat d).ID⟩ :
        CommitteeNode K)).countP (fun m => decide (m.Role = Role.BackupWorker)) =
      backupSize.toNat := by
    have hc := List.countP_map (fun r : Role => decide (r = Role.BackupWorker))
      (fun m : CommitteeNode K => m.Role)
      (((idxs.take (workerSize + backupSize).toNat).enumFrom 0).map fun p =>
        (⟨roleFor needsLeader workerSize p.1, (nodeList.getD p.2.toNat d).ID⟩ :
          CommitteeNode K))
    rw [hroles, List.countP_map] at hc
    have hsplit : (workerSize + backupSize).toNat = workerSize.toNat + backupSize.toNat := by
      omega
    have hcongr : (List.range (workerSize.toNat + backupSize.toNat)).countP
          ((fun r : Role => decide (r = Role.BackupWorker)) ∘ roleFor needsLeader workerSize) =
        (List.range (workerSize.toNat + backupSize.toNat)).countP
          (fun j => decide (workerSize.toNat ≤ j)) := by
      apply List.countP_congr
      intro j _
      simp only [Function.comp, decide_eq_true_eq]
      rw [roleFor_backup_iff needsLeader workerSize hw j]
      omega
    rw [hsplit, hcongr, countP_ge_range, ← hsplit] at hc
    exact hc.symm
  refine ⟨_, hput, ?_, ?_, ?_, ?_⟩
  · rw [hlenM]
    omega
  · intro i hi
    rw [hlenM] at hi
    have hi' : i < idxs.length := by omega
    have hv := hidx idxs[i] (List.getElem_mem _)
    refine ⟨idxs[i], nodeList.getD (idxs[i]).toNat d, List.getElem?_eq_getElem hi',
      nodeAt_eq nodeList d _ hv.1 hv.2, ?_⟩
    rw [List.getElem?_map, List.getElem?_enumFrom, List.getElem?_take_of_lt hi,
      List.getElem?_eq_getElem hi']
    simp only [Option.map_some', Nat.zero_add]
    rfl
  · rw [hback]
    omega
  · have hsum := List.length_eq_countP_add_countP
      (fun m : CommitteeNode K => decide (m.Role = Role.BackupWorker))
      (((idxs.take (workerSize + backupSize).toNat).enumFrom 0).map fun p =>
        (⟨roleFor needsLeader workerSize p.1, (nodeList.getD p.2.toNat d).ID⟩ :
          CommitteeNode K))
    rw [hlenM, hback] at hsum
    have heq : (((idxs.take (workerSize + backupSize).toNat).enumFrom 0).map fun p =>
        (⟨roleFor needsLeader workerSize p.1, (nodeList.getD p.2.toNat d).ID⟩ :
          CommitteeNode K)).countP (fun m => decide (¬ m.Role = Role.BackupWorker)) =
        (((idxs.take (workerSize + backupSize).toNat).enumFrom 0).map fun p =>
        (⟨roleFor needsLeader workerSize p.1, (nodeList.getD p.2.toNat d).ID⟩ :
          CommitteeNode K)).countP
          (fun m => ¬ (decide (m.Role = Role.BackupWorker) = true)) := by
      apply List.countP_congr
      intro m _
      simp
    rw [heq]
    omega

/-- Past its early return, with the sizes of the kind and `needsLeader` known,
`electCommittee` is its body. -/
theorem electCommittee_eq_body {K : Type} (rt : Runtime) (kind : CommitteeKind)
    (needsLeader : CommitteeKind → Option Bool) (nodes : List (Node K))
    (hasStake : Node K → Bool) (isSuitable : CommitteeKind → Node K → Bool)
    (getPerm : CommitteeKind → Int → Option (List Int)) (leader : Bool)
    (workerSize backupSize : Int)
    (hpass : ¬ (rt.IsCompute = false ∧ kind ≠ CommitteeKind.KindComputeExecutor))
    (hsizes : committeeSizes rt kind = some (workerSize, backupSize))
    (hleader : needsLeader kind = some leader) :
    electCommittee rt kind needsLeader nodes hasStake isSuitable getPerm =
      electCommitteeBody leader workerSize backupSize nodes hasStake (isSuitable kind)
        (getPerm kind) := by
  unfold electCommittee
  rw [if_neg hpass, hsizes]
  simp only [hleader]

/-- C20: when `electCommittee` elects a committee (the runtime is a compute
runtime or the kind is the executor kind, the kind is valid and
`NeedsLeader` succeeds) from a list of `n` eligible nodes with `workerSize > 0`
and `wanted = workerSize + backupSize ≤ n`, using a permutation `idxs` of the
`n` indices, it stores a committee of exactly `wanted` members; member `i` is
the node at index `idxs[i]` of the list, with role `Leader` if `i = 0` and the
kind needs a leader, otherwise `BackupWorker` if `i ≥ workerSize`, otherwise
`Worker`; so `backupSize` members are backup workers and `workerSize` are not. -/
theorem elect_committee_members {K : Type} (rt : Runtime) (kind : CommitteeKind)
    (needsLeader : CommitteeKind → Option Bool) (nodes nodeList : List (Node K))
    (hasStake : Node K → Bool) (isSuitable : CommitteeKind → Node K → Bool)
    (getPerm : CommitteeKind → Int → Option (List Int)) (leader : Bool)
    (workerSize backupSize : Int) (idxs : List Int)
    (hpass : ¬ (rt.IsCompute = false ∧ kind ≠ CommitteeKind.KindComputeExecutor))
    (hsizes : committeeSizes rt kind = some (workerSize, backupSize))
    (hleader : needsLeader kind = some leader)
    (hlist : (nodes.filter fun n => hasStake n && isSuitable kind n) = nodeList)
    (hsize : (nodeList.length : Int) < 9223372036854775808)
    (hw : 0 < workerSize) (hb : 0 ≤ backupSize)
    (hn : workerSize + backupSize ≤ nodeList.length)
    (hperm : getPerm kind nodeList.length = some idxs)
    (hplen : idxs.length = nodeList.length)
    (hidx : ∀ idx ∈ idxs, 0 ≤ idx ∧ idx < nodeList.length) :
    ∃ members : List (CommitteeNode K),
      electCommittee rt kind needsLeader nodes hasStake isSuitable getPerm =
        .putCommittee members ∧
      (members.length : Int) = workerSize + backupSize ∧
      (∀ i : Nat, i < members.length →
        ∃ (idx : Int) (n : Node K), idxs[i]? = some idx ∧ nodeAt nodeList idx = some n ∧
          members[i]? = some
            ⟨if i = 0 ∧ leader = true then Role.Leader
              else if (i : Int) ≥ workerSize then Role.BackupWorker
              else Role.Worker, n.ID⟩) ∧
      ((members.countP fun m => decide (m.Role = Role.BackupWorker) : Nat) : Int) =
        backupSize ∧
      ((members.countP fun m => decide (¬ m.Role = Role.BackupWorker) : Nat) : Int) =
        workerSize := by
  rw [electCommittee_eq_body rt kind needsLeader nodes hasStake isSuitable getPerm leader
    workerSize backupSize hpass hsizes hleader]
  exact electCommitteeBody_members leader workerSize backupSize nodes nodeList hasStake
    (isSuitable kind) (getPerm kind) idxs hlist hsize hw hb hn hperm hplen hidx

/-- Instance of C20 on the committee scenario: a compute runtime whose executor
committee has two workers and one backup worker, three eligible nodes, a kind
taken to need a leader and the permutation `[2, 0, 1]` give the committee `N3`
(leader), `N1` (worker), `N2` (backup). -/
theorem elect_committee_members_witness :
    electCommittee scenarioRuntime .KindComputeExecutor (fun _ => some true) scenarioNodes
        (fun _ => true) (fun _ _ => true) (fun _ => scenarioPerm) =
        .putCommittee
          [⟨Role.Leader, "N3"⟩, ⟨Role.Worker, "N1"⟩, ⟨Role.BackupWorker, "N2"⟩] ∧
      ∃ members : List (CommitteeNode String),
        electCommittee scenarioRuntime .KindComputeExecutor (fun _ => some true)
            scenarioNodes (fun _ => true) (fun _ _ => true) (fun _ => scenarioPerm) =
          .putCommittee members ∧
        (members.length : Int) = 2 + 1 :=
  ⟨by decide,
    (elect_committee_members scenarioRuntime .KindComputeExecutor (fun _ => some true)
      scenarioNodes scenarioNodes (fun _ => true) (fun _ _ => true) (fun _ => scenarioPerm)
      true 2 1 [2, 0, 1] (by decide) (by decide) rfl (by decide) (by decide) (by decide)
      (by decide) (by decide) rfl rfl (by decide)).imp fun _ h => ⟨h.1, h.2.1⟩⟩

/-! ## Rounding and dilution -/

/-- C29: rounding never creates tokens. On a pool with a positive balance and
positive issued shares, a successful deposit of `x` that mints `n` shares,
followed immediately by a withdrawal of those `n` shares, succeeds and pays out
at most `x` tokens. -/
theorem round_trip_pays_at_most (p q : SharePool) (shareDst T x n ts tokenDst : Quantity)
    (hB : 0 < p.Balance) (hS : 0 < p.TotalShares)
    (hd : p.Deposit shareDst T x = ⟨none, q, shareDst + n, ts⟩) :
    (q.Withdraw tokenDst (shareDst + n) n).err = none ∧
      (q.Withdraw tokenDst (shareDst + n) n).tokenDst ≤ tokenDst + x ∧
      q.Balance - (q.Withdraw tokenDst (shareDst + n) n).pool.Balance ≤ x := by
  obtain ⟨B, S⟩ := p
  rw [Deposit_eq] at hd
  unfold Quantity at *
  simp only at hB hS
  have hS0 : S ≠ 0 := by omega
  have hz : ¬ (S ≠ 0 ∧ B = 0) := by omega
  rw [if_neg hz] at hd
  by_cases hT : T < x
  · rw [if_pos hT] at hd
    simp at hd
  · rw [if_neg hT] at hd
    simp only [DepositOutcome.mk.injEq, true_and, Nat.add_left_cancel_iff, if_neg hS0] at hd
    obtain ⟨hq, hn, -⟩ := hd
    subst hq
    subst hn
    rw [Withdraw_eq, if_neg (Nat.not_lt.mpr (Nat.le_add_left _ _)),
      if_neg (Nat.not_lt.mpr (Nat.le_add_left _ _))]
    have hle := redeem_minted_le B S x
    have hbal := tokens_le_balance (B + x) (S + x * S / B) (x * S / B) (Nat.le_add_left _ _)
    by_cases hc : x * S / B = 0 ∨ B + x = 0 ∨ S + x * S / B = 0
    · simp only [if_pos hc]
      refine ⟨trivial, ?_, ?_⟩
      · show tokenDst + 0 ≤ tokenDst + x
        omega
      · show B + x - (B + x - 0) ≤ x
        omega
    · simp only [if_neg hc] at hbal ⊢
      generalize x * S / B * (B + x) / (S + x * S / B) = t at hle hbal
      refine ⟨trivial, ?_, ?_⟩
      · show tokenDst + t ≤ tokenDst + x
        omega
      · show B + x - (B + x - t) ≤ x
        omega

/-- Instance of C29 on the pool `{3, 2}`: depositing 2 tokens mints one share,
and redeeming that share pays one token, not more than the 2 deposited. -/
theorem round_trip_pays_at_most_witness :
    (SharePool.Withdraw ⟨5, 3⟩ 0 (0 + 1) 1).err = none ∧
      (SharePool.Withdraw ⟨5, 3⟩ 0 (0 + 1) 1).tokenDst ≤ 0 + 2 ∧
      (SharePool.mk 5 3).Balance - (SharePool.Withdraw ⟨5, 3⟩ 0 (0 + 1) 1).pool.Balance ≤ 2 :=
  round_trip_pays_at_most ⟨3, 2⟩ ⟨5, 3⟩ 0 2 2 1 0 0 (by decide) (by decide) rfl

/-- The token value of `s` shares does not drop when the exchange rate
`balance / total_shares` does not drop. -/
theorem value_mono (B S B' S' s : Nat) (hS : 0 < S) (hS' : 0 < S')
    (hrate : B * S' ≤ B' * S) : s * B / S ≤ s * B' / S' := by
  rw [Nat.le_div_iff_mul_le hS']
  have hq := Nat.div_mul_le_self (s * B) S
  apply Nat.le_of_mul_le_mul_right _ hS
  calc s * B / S * S' * S = (s * B / S * S) * S' := by ring
    _ ≤ (s * B) * S' := Nat.mul_le_mul_right _ hq
    _ = s * (B * S') := by ring
    _ ≤ s * (B' * S) := Nat.mul_le_mul_left _ hrate
    _ = s * B' * S := by ring

/-- C30: existing holders are never diluted. On a pool with a positive balance
and positive issued shares, the token value that `tokensForShares` gives to
`s ≤ total_shares` shares is, after any successful deposit and after any
successful withdrawal that leaves at least `s` shares in the pool, at least the
value before. -/
theorem holders_not_diluted (p : SharePool) (s : Quantity)
    (hB : 0 < p.Balance) (hS : 0 < p.TotalShares) (hs : s ≤ p.TotalShares) :
    (∀ shareDst tokenSrc x : Quantity, (p.Deposit shareDst tokenSrc x).err = none →
      ∃ v0 v1 : Quantity, p.tokensForShares s = .ok v0 ∧
        (p.Deposit shareDst tokenSrc x).pool.tokensForShares s = .ok v1 ∧ v0 ≤ v1) ∧
    (∀ tokenDst shareSrc w : Quantity, (p.Withdraw tokenDst shareSrc w).err = none →
      s ≤ (p.Withdraw tokenDst shareSrc w).pool.TotalShares →
      ∃ v0 v1 : Quantity, p.tokensForShares s = .ok v0 ∧
        (p.Withdraw tokenDst shareSrc w).pool.tokensForShares s = .ok v1 ∧ v0 ≤ v1) := by
  obtain ⟨B, S⟩ := p
  unfold Quantity at *
  simp only at hB hS hs
  have hS0 : S ≠ 0 := by omega
  have hB0 : B ≠ 0 := by omega
  constructor
  · intro shareDst tokenSrc x hok
    refine ⟨_, _, tokensForShares_eq _ s, tokensForShares_eq _ s, ?_⟩
    rw [Deposit_eq] at hok ⊢
    have hz : ¬ (S ≠ 0 ∧ B = 0) := by omega
    rw [if_neg hz] at hok ⊢
    by_cases hT : tokenSrc < x
    · rw [if_pos hT] at hok
      simp at hok
    · rw [if_neg hT]
      simp only [if_neg hS0]
      by_cases hs0 : s = 0
      · simp [hs0]
      · have h1 : ¬ (s = 0 ∨ B = 0 ∨ S = 0) := by omega
        have hn := Nat.div_mul_le_self (x * S) B
        generalize x * S / B = n at hn ⊢
        have h2 : ¬ (s = 0 ∨ B + x = 0 ∨ S + n = 0) := by omega
        rw [if_neg h1, if_neg h2]
        apply value_mono B S (B + x) (S + n) s hS (by omega)
        calc B * (S + n) = B * S + n * B := by ring
          _ ≤ B * S + x * S := Nat.add_le_add_left hn _
          _ = (B + x) * S := by ring
  · intro tokenDst shareSrc w hok hleft
    refine ⟨_, _, tokensForShares_eq _ s, tokensForShares_eq _ s, ?_⟩
    rw [Withdraw_eq] at hok hleft ⊢
    by_cases h1 : shareSrc < w
    · rw [if_pos h1] at hok
      simp at hok
    · by_cases h2 : S < w
      · rw [if_neg h1, if_pos h2] at hok
        simp at hok
      · rw [if_neg h1, if_neg h2] at hleft ⊢
        replace hleft : s ≤ S - w := hleft
        by_cases hs0 : s = 0
        · simp [hs0]
        · have hwS : w < S := by omega
          have hv0 : ¬ (s = 0 ∨ B = 0 ∨ S = 0) := by omega
          rw [if_neg hv0]
          by_cases hw0 : w = 0 ∨ B = 0 ∨ S = 0
          · simp only [if_pos hw0]
            have hw : w = 0 := by omega
            subst hw
            have h3 : ¬ (s = 0 ∨ B - 0 = 0 ∨ S - 0 = 0) := by omega
            show s * B / S ≤ if s = 0 ∨ B - 0 = 0 ∨ S - 0 = 0 then 0 else s * (B - 0) / (S - 0)
            rw [if_neg h3]
            exact Nat.le_refl _
          · simp only [if_neg hw0]
            have ht := tokens_lt_balance B S w hB hwS
            have htS := Nat.div_mul_le_self (w * B) S
            generalize w * B / S = t at ht htS
            have h3 : ¬ (s = 0 ∨ B - t = 0 ∨ S - w = 0) := by omega
            show s * B / S ≤ if s = 0 ∨ B - t = 0 ∨ S - w = 0 then 0 else s * (B - t) / (S - w)
            rw [if_neg h3]
            apply value_mono B S (B - t) (S - w) s hS (by omega)
            rw [Nat.mul_sub, Nat.sub_mul]
            apply Nat.sub_le_sub_left
            calc t * S ≤ w * B := htS
              _ = B * w := Nat.mul_comm _ _

/-- Instance of C30 on the pool `{5, 3}`: two shares are worth 3 tokens; after
another holder redeems one share (for one token) they are worth 4. -/
theorem holders_not_diluted_witness :
    ∃ v0 v1 : Quantity, SharePool.tokensForShares ⟨5, 3⟩ 2 = .ok v0 ∧
      (SharePool.Withdraw ⟨5, 3⟩ 0 1 1).pool.tokensForShares 2 = .ok v1 ∧ v0 ≤ v1 :=
  (holders_not_diluted ⟨5, 3⟩ 2 (by decide) (by decide) (by decide)).2 0 1 1 rfl (by decide)

/-! ## Dropping a committee -/

/-- C21, as stated, fails on its own example: for a compute runtime whose
executor committee has `workerSize = 0` and `backupSize = 1`, and one eligible
node, `wanted = 1` is neither 0 nor more than the number of eligible nodes, yet
`electCommittee` drops the committee. -/
theorem elect_committee_drop_counterexample :
    committeeSizes ⟨true, 0, 1, 0, 0, 0, 0⟩ .KindComputeExecutor = some (0, 1) ∧
      electCommittee ⟨true, 0, 1, 0, 0, 0, 0⟩ .KindComputeExecutor (fun _ => some true)
        [(⟨"N1", "E1"⟩ : Node String)] (fun _ => true) (fun _ _ => true)
        (fun _ _ => some [0]) = .dropCommittee ∧
      ¬ ((0 : Int) + 1 = 0 ∨ (0 : Int) + 1 > ([(⟨"N1", "E1"⟩ : Node String)].length : Int)) := by
  decide

/-- For committee sizes `workerSize, backupSize ≥ 0` and a permutation `idxs`
of the indices of the eligible nodes returned by `GetPerm`,
`electCommitteeBody` drops the committee exactly when `workerSize` is 0 or
`wanted = workerSize + backupSize` exceeds the number of eligible nodes; in
every other case it elects and stores a committee. -/
theorem electCommitteeBody_drop_iff {K : Type} (needsLeader : Bool) (workerSize backupSize : Int)
    (nodes nodeList : List (Node K)) (hasStake isSuitable : Node K → Bool)
    (getPerm : Int → Option (List Int)) (idxs : List Int)
    (hlist : (nodes.filter fun n => hasStake n && isSuitable n) = nodeList)
    (hsize : (nodeList.length : Int) < 9223372036854775808)
    (hw : 0 ≤ workerSize) (hb : 0 ≤ backupSize)
    (hsum : workerSize + backupSize < 9223372036854775808)
    (hperm : getPerm nodeList.length = some idxs)
    (hplen : idxs.length = nodeList.length)
    (hidx : ∀ idx ∈ idxs, 0 ≤ idx ∧ idx < nodeList.length) :
    (electCommitteeBody needsLeader workerSize backupSize nodes hasStake isSuitable getPerm =
        .dropCommittee ↔
      (workerSize = 0 ∨ workerSize + backupSize > nodeList.length)) ∧
    (¬ (workerSize = 0 ∨ workerSize + backupSize > nodeList.length) →
      ∃ members : List (CommitteeNode K),
        electCommitteeBody needsLeader workerSize backupSize nodes hasStake isSuitable getPerm =
          .putCommittee members) := by
  by_cases h0 : workerSize = 0
  · refine ⟨⟨fun _ => Or.inl h0, fun _ => ?_⟩, fun hn => absurd (Or.inl h0) hn⟩
    unfold electCommitteeBody
    simp only [h0, if_true]
  · have hwrap : wrapInt (workerSize + backupSize) = workerSize + backupSize :=
      wrapInt_eq _ (by omega) hsum
    by_cases hmany : workerSize + backupSize > nodeList.length
    · refine ⟨⟨fun _ => Or.inr hmany, fun _ => ?_⟩, fun hn => absurd (Or.inr hmany) hn⟩
      unfold electCommitteeBody
      simp only [hlist, hwrap]
      rw [if_neg h0, if_pos hmany]
    · obtain ⟨d, -⟩ : ∃ d, d ∈ nodeList := by
        cases nodeList with
        | nil =>
          simp only [List.length_nil] at hmany
          omega
        | cons x xs => exact ⟨x, List.mem_cons_self _ _⟩
      have hput := electCommitteeBody_eq_put needsLeader workerSize backupSize nodes nodeList d
        hasStake isSuitable getPerm idxs hlist hsize (by omega) hb (by omega) hperm hplen hidx
      refine ⟨⟨fun hdrop => ?_, fun hor => ?_⟩, fun _ => ⟨_, hput⟩⟩
      · rw [hput] at hdrop
        cases hdrop
      · rcases hor with h | h
        · exact absurd h h0
        · exact absurd h hmany

/-- C21, amended: `electCommittee` returns at once, neither dropping nor
storing a committee, when the runtime is not a compute runtime and the kind is
not the executor kind; otherwise it returns an error for an invalid kind or
when `NeedsLeader` fails; otherwise, for committee sizes
`workerSize, backupSize ≥ 0` and a permutation `idxs` of the indices of the
eligible nodes returned by `GetPerm`, it drops the committee exactly when
`workerSize` is 0 or `wanted = workerSize + backupSize` exceeds the number of
eligible nodes, and in every other case it elects and stores a committee. -/
theorem elect_committee_drop_iff {K : Type} (rt : Runtime) (kind : CommitteeKind)
    (needsLeader : CommitteeKind → Option Bool) (nodes nodeList : List (Node K))
    (hasStake : Node K → Bool) (isSuitable : CommitteeKind → Node K → Bool)
    (getPerm : CommitteeKind → Int → Option (List Int))
    (hlist : (nodes.filter fun n => hasStake n && isSuitable kind n) = nodeList) :
    (rt.IsCompute = false ∧ kind ≠ CommitteeKind.KindComputeExecutor →
      electCommittee rt kind needsLeader nodes hasStake isSuitable getPerm = .skipped) ∧
    (¬ (rt.IsCompute = false ∧ kind ≠ CommitteeKind.KindComputeExecutor) →
      (committeeSizes rt kind = none →
        electCommittee rt kind needsLeader nodes hasStake isSuitable getPerm =
          .invalidKind) ∧
      ∀ workerSize backupSize : Int, committeeSizes rt kind = some (workerSize, backupSize) →
        (needsLeader kind = none →
          electCommittee rt kind needsLeader nodes hasStake isSuitable getPerm =
            .leaderError) ∧
        ∀ (leader : Bool) (idxs : List Int), needsLeader kind = some leader →
          (nodeList.length : Int) < 9223372036854775808 →
          0 ≤ workerSize → 0 ≤ backupSize →
          workerSize + backupSize < 9223372036854775808 →
          getPerm kind nodeList.length = some idxs →
          idxs.length = nodeList.length →
          (∀ idx ∈ idxs, 0 ≤ idx ∧ idx < nodeList.length) →
          (electCommittee rt kind needsLeader nodes hasStake isSuitable getPerm =
              .dropCommittee ↔
            (workerSize = 0 ∨ workerSize + backupSize > nodeList.length)) ∧
          (¬ (workerSize = 0 ∨ workerSize + backupSize > nodeList.length) →
            ∃ members : List (CommitteeNode K),
              electCommittee rt kind needsLeader nodes hasStake isSuitable getPerm =
                .putCommittee members)) := by
  constructor
  · intro hskip
    unfold electCommittee
    rw [if_pos hskip]
  · intro hpass
    constructor
    · intro hnone
      unfold electCommittee
      rw [if_neg hpass, hnone]
    · intro workerSize backupSize hsizes
      constructor
      · intro hnone
        unfold electCommittee
        rw [if_neg hpass, hsizes]
        simp only [hnone]
      · intro leader idxs hleader hsize hw hb hsum hperm hplen hidx
        rw [electCommittee_eq_body rt kind needsLeader nodes hasStake isSuitable getPerm
          leader workerSize backupSize hpass hsizes hleader]
        exact electCommitteeBody_drop_iff leader workerSize backupSize nodes nodeList hasStake
          (isSuitable kind) (getPerm kind) idxs hlist hsize hw hb hsum hperm hplen hidx

/-- Instance of the amended C21: on the committee scenario two workers and one
backup worker out of three eligible nodes are elected, not dropped; and for a
runtime that is not a compute runtime the storage committee is neither dropped
nor stored. -/
theorem elect_committee_drop_iff_witness :
    (∃ members : List (CommitteeNode String),
      electCommittee scenarioRuntime .KindComputeExecutor (fun _ => some true) scenarioNodes
          (fun _ => true) (fun _ _ => true) (fun _ => scenarioPerm) =
        .putCommittee members) ∧
    electCommittee ⟨false, 2, 1, 0, 0, 0, 1⟩ .KindStorage (fun _ => some true) scenarioNodes
        (fun _ => true) (fun _ _ => true) (fun _ => scenarioPerm) = .skipped :=
  ⟨(((elect_committee_drop_iff scenarioRuntime .KindComputeExecutor (fun _ => some true)
      scenarioNodes scenarioNodes (fun _ => true) (fun _ _ => true) (fun _ => scenarioPerm)
      rfl).2 (by decide)).2 2 1 rfl).2 true [2, 0, 1] rfl (by decide) (by decide)
      (by decide) (by decide) rfl rfl (by decide) |>.2 (by decide),
    (elect_committee_drop_iff ⟨false, 2, 1, 0, 0, 0, 1⟩ .KindStorage (fun _ => some true)
      scenarioNodes scenarioNodes (fun _ => true) (fun _ _ => true) (fun _ => scenarioPerm)
      rfl).1 (by decide)⟩

/-! ## Order of the validator updates -/

/-- C27, evaluated where the code departs from it: the map `{A: 10, B: 20}`
visited as `A, B` and visited as `B, A` holds the same entries, yet against an
empty pending map `diffValidators` returns the removals in the order visited,
`[{A, 0}, {B, 0}]` in one case and `[{B, 0}, {A, 0}]` in the other; the keys
are not processed in sorted order. -/
theorem diff_validators_order_depends :
    scenarioCurrent.entries.Perm scenarioCurrentReversed.entries ∧
      diffValidators scenarioCurrent ∅ = [⟨"A", 0⟩, ⟨"B", 0⟩] ∧
      diffValidators scenarioCurrentReversed ∅ = [⟨"B", 0⟩, ⟨"A", 0⟩] ∧
      diffValidators scenarioCurrent ∅ ≠ diffValidators scenarioCurrentReversed ∅ := by
  decide

/-! ## Reserved addresses -/

/-- Every value of the address type passes `IsValid`. -/
theorem IsValid_eq_true (a : address.Address) : a.IsValid = true := by
  unfold address.Address.IsValid
  rw [if_neg (not_not.mpr a.size_eq)]

/-- C25, evaluated where the code departs from it: `IsValid` checks the length
of an address only, which the address type fixes, and so returns true for every
address, the reserved `CommonPoolAddress` and `FeeAccumulatorAddress` included,
whatever the hash of their keys, although the comments on their declarations
call each of them invalid. -/
theorem reserved_addresses_pass_IsValid :
    (∀ a : address.Address, a.IsValid = true) ∧
      ∀ truncatedHash : List (Fin 256) → List (Fin 256),
        (CommonPoolAddress truncatedHash).IsValid = true ∧
          (FeeAccumulatorAddress truncatedHash).IsValid = true :=
  ⟨IsValid_eq_true, fun _ => ⟨IsValid_eq_true _, IsValid_eq_true _⟩⟩

/-! ## Permutations -/

/-- Writing `x` into slot `j` after copying the old value of slot `j` to a new
last slot rearranges `x` together with the old slots. -/
theorem set_append_getD_perm (m : List Nat) (j x : Nat) (hj : j ≤ m.length) :
    ((m ++ [m.getD j 0]).set j x).Perm (x :: m) := by
  induction m generalizing j with
  | nil =>
    have h0 : j = 0 := by simpa using hj
    subst h0
    simp
  | cons a t ih =>
    cases j with
    | zero =>
      show (x :: (t ++ [a])).Perm (x :: a :: t)
      exact (List.perm_append_singleton a t).cons x
    | succ j =>
      have hj' : j ≤ t.length := by simpa using hj
      show (a :: (t ++ [t.getD j 0]).set j x).Perm (x :: a :: t)
      exact ((ih j hj').cons a).trans (List.Perm.swap x a t)

/-- Started on a rearrangement of `[0..i)`, the remaining steps end on a
rearrangement of `[0..i + steps)`. -/
theorem permSteps_perm {σ : Type} (d : Drbg σ) (steps i : Nat) (s : σ) (m : List Nat)
    (hm : m.Perm (List.range i)) :
    (permSteps d steps i s m).Perm (List.range (i + steps)) := by
  induction steps generalizing i s m with
  | zero => exact hm
  | succ k ih =>
    unfold permSteps
    have hlen : m.length = i := by rw [hm.length_eq, List.length_range]
    have hj : (d.Intn s (i + 1)).1 ≤ m.length := by
      have := d.Intn_lt s (i + 1) (Nat.succ_pos i)
      omega
    have hstep : ((m ++ [m.getD (d.Intn s (i + 1)).1 0]).set (d.Intn s (i + 1)).1 i).Perm
        (List.range (i + 1)) := by
      refine (set_append_getD_perm m _ i hj).trans ?_
      rw [List.range_succ]
      exact ((hm.cons i).trans (List.perm_append_singleton i (List.range i)).symm)
    have h := ih (i + 1) (d.Intn s (i + 1)).2 _ hstep
    rw [Nat.add_right_comm, Nat.add_assoc] at h
    exact h

/-- C22: for every beacon, runtime id, context and `n ≥ 0`, a successful
`GetPerm` returns a list of length `n` that is a rearrangement of `[0..n)`, so
that every value of `[0..n)` appears in it exactly once and nothing else does;
`GetPerm` succeeds whenever the DRBG can be instantiated, and its result is
determined by its four inputs. -/
theorem get_perm_is_permutation {σ : Type} (d : Drbg σ)
    (beacon runtimeID rngCtx : List (Fin 256)) (n : Int) (hn : 0 ≤ n) :
    (∀ idxs : List Int, GetPerm d beacon runtimeID rngCtx n = .ok idxs →
      (idxs.length : Int) = n ∧
      idxs.Perm ((List.range n.toNat).map Int.ofNat) ∧
      (∀ v : Int, 0 ≤ v → v < n → idxs.count v = 1) ∧
      (∀ v ∈ idxs, 0 ≤ v ∧ v < n)) ∧
    (∀ s : σ, d.New beacon runtimeID rngCtx = some s →
      ∃ idxs : List Int, GetPerm d beacon runtimeID rngCtx n = .ok idxs) ∧
    (∀ (beacon' runtimeID' rngCtx' : List (Fin 256)) (n' : Int),
      beacon' = beacon → runtimeID' = runtimeID → rngCtx' = rngCtx → n' = n →
      GetPerm d beacon' runtimeID' rngCtx' n' = GetPerm d beacon runtimeID rngCtx n) := by
  refine ⟨?_, ?_, ?_⟩
  · intro idxs hok
    unfold GetPerm at hok
    cases hnew : d.New beacon runtimeID rngCtx with
    | none =>
      rw [hnew] at hok
      cases hok
    | some s =>
      rw [hnew] at hok
      simp only [if_neg (Int.not_lt.mpr hn), PermOutcome.ok.injEq] at hok
      subst hok
      have hperm : (Perm d s n.toNat).Perm (List.range n.toNat) := by
        have h := permSteps_perm d n.toNat 0 s [] (by simp)
        rw [Nat.zero_add] at h
        exact h
      have hpermI : ((Perm d s n.toNat).map Int.ofNat).Perm
          ((List.range n.toNat).map Int.ofNat) := hperm.map _
      have hmem : ∀ v : Int, v ∈ (List.range n.toNat).map Int.ofNat ↔ 0 ≤ v ∧ v < n := by
        intro v
        rw [List.mem_map]
        constructor
        · rintro ⟨k, hk, rfl⟩
          have := List.mem_range.mp hk
          constructor
          · exact Int.ofNat_nonneg k
          · show (k : Int) < n
            omega
        · rintro ⟨h0, h1⟩
          refine ⟨v.toNat, List.mem_range.mpr (by omega), ?_⟩
          show ((v.toNat : Nat) : Int) = v
          omega
      have hnodup : ((List.range n.toNat).map Int.ofNat).Nodup :=
        (List.nodup_range _).map (fun a b h => Int.ofNat.inj h)
      refine ⟨?_, hpermI, ?_, ?_⟩
      · rw [List.length_map, hperm.length_eq, List.length_range]
        omega
      · intro v h0 h1
        rw [hpermI.count_eq]
        exact List.count_eq_one_of_mem hnodup ((hmem v).mpr ⟨h0, h1⟩)
      · intro v hv
        exact (hmem v).mp (hpermI.mem_iff.mp hv)
  · intro s hnew
    unfold GetPerm
    rw [hnew]
    simp only [if_neg (Int.not_lt.mpr hn)]
    exact ⟨_, rfl⟩
  · intro beacon' runtimeID' rngCtx' n' h1 h2 h3 h4
    rw [h1, h2, h3, h4]

/-- Instance of C22 with the example generator: the list returned for three
nodes has length 3 and holds 0, 1 and 2 once each. -/
theorem get_perm_is_permutation_witness :
    GetPerm exampleDrbg [0, 0] [17] [1] 3 = .ok [1, 2, 0] ∧
      (([1, 2, 0] : List Int).length : Int) = 3 ∧
      ([1, 2, 0] : List Int).Perm ((List.range (3 : Int).toNat).map Int.ofNat) :=
  have h := (get_perm_is_permutation exampleDrbg [0, 0] [17] [1] 3 (by decide)).1 [1, 2, 0]
    (by decide)
  ⟨by decide, h.1, h.2.1⟩

/-! ## Timers -/

/-- C26, evaluated where the code departs from it. The deadline index is keyed
by the decimal digits of the Unix seconds, which sort as text: a timer armed
for second 9999999999 is not visited at second 10000000000 (nor one armed for
second 5 at second 10), although its deadline has passed, and a timer armed
for second 100 is fired at second 19, before its deadline. Deadlines with as
many digits as `now + 1` behave as the claim says: the timer armed for second
1600000000 fires at second 1600000000 and not at second 1599999999. -/
theorem fire_timers_decimal_keys :
    fireTimers (armedStore "app" "t" 9999999999) 10000000000 "app" = some [] ∧
      fireTimers (armedStore "app" "t" 5) 10 "app" = some [] ∧
      fireTimers (armedStore "app" "t" 100) 19 "app" =
        some [⟨"app:t", "app", true, 100⟩] ∧
      fireTimers (armedStore "app" "t" 1600000000) 1600000000 "app" =
        some [⟨"app:t", "app", true, 1600000000⟩] ∧
      fireTimers (armedStore "app" "t" 1600000000) 1599999999 "app" = some [] := by
  decide

/-! ## Entities by stake -/

/-- The sorted slice of the keys of a map is a rearrangement of its keys. -/
theorem publicKeyMapToSortedSlice_perm {K : Type} [LinearOrder K]
    (m : AList (fun _ : K => Bool)) : (publicKeyMapToSortedSlice m).Perm m.keys :=
  List.perm_insertionSort _ _

/-- The sorted slice depends on the keys of the map only, not on the order in
which the map is iterated. -/
theorem publicKeyMapToSortedSlice_congr {K : Type} [LinearOrder K]
    (m m' : AList (fun _ : K => Bool)) (h : m'.keys.Perm m.keys) :
    publicKeyMapToSortedSlice m' = publicKeyMapToSortedSlice m := by
  unfold publicKeyMapToSortedSlice
  apply List.eq_of_perm_of_sorted (r := fun a b : K => a ≤ b)
  · exact (List.perm_insertionSort _ _).trans (h.trans (List.perm_insertionSort _ _).symm)
  · exact List.sorted_insertionSort _ _
  · exact List.sorted_insertionSort _ _

/-- A successful `publicKeyMapToSliceByStake` returns a rearrangement of the
keys of the map. -/
theorem publicKeyMapToSliceByStake_perm {K : Type} [LinearOrder K]
    (entMap : AList (fun _ : K => Bool)) (stakeAcc : Option (StakeCache K))
    (shuffle : List K → Option (List K)) (result : List K)
    (hshuffle : ∀ l l' : List K, shuffle l = some l' → l'.Perm l)
    (hok : publicKeyMapToSliceByStake entMap stakeAcc shuffle = some result) :
    result.Perm entMap.keys := by
  unfold publicKeyMapToSliceByStake at hok
  cases hs : shuffle (publicKeyMapToSortedSlice entMap) with
  | none =>
    rw [hs] at hok
    cases hok
  | some entities =>
    rw [hs] at hok
    have hp : entities.Perm entMap.keys :=
      (hshuffle _ _ hs).trans (publicKeyMapToSortedSlice_perm entMap)
    cases stakeAcc with
    | none =>
      simp only [Option.some.injEq] at hok
      subst hok
      exact hp
    | some acc =>
      simp only at hok
      split at hok
      · cases hok
      · simp only [Option.some.injEq] at hok
        subst hok
        exact (List.perm_insertionSort _ _).trans hp

/-- C28: a successful `publicKeyMapToSliceByStake` returns each entity of the
set exactly once; with a stake accumulator the result is ordered by
non-increasing escrow balance and two entities with equal balance keep the
relative order they have in the shuffled sorted keys; and the result is the
same for every map with the same keys, whatever its iteration order. -/
theorem entities_by_stake {K : Type} [LinearOrder K]
    (entMap : AList (fun _ : K => Bool)) (stakeAcc : Option (StakeCache K))
    (shuffle : List K → Option (List K)) (result : List K)
    (hshuffle : ∀ l l' : List K, shuffle l = some l' → l'.Perm l)
    (hok : publicKeyMapToSliceByStake entMap stakeAcc shuffle = some result) :
    (result.Perm entMap.keys ∧ result.Nodup) ∧
    (∀ acc : StakeCache K, stakeAcc = some acc →
      result.Pairwise (fun a b => ∀ ba bb : Quantity,
        acc.GetEscrowBalance a = some ba → acc.GetEscrowBalance b = some bb → bb ≤ ba)) ∧
    (∀ (acc : StakeCache K) (shuffled : List K) (a b : K), stakeAcc = some acc →
      shuffle (publicKeyMapToSortedSlice entMap) = some shuffled →
      balanceOf acc a = balanceOf acc b → [a, b].Sublist shuffled → [a, b].Sublist result) ∧
    (∀ entMap' : AList (fun _ : K => Bool), entMap'.keys.Perm entMap.keys →
      publicKeyMapToSliceByStake entMap' stakeAcc shuffle = some result) := by
  have hperm := publicKeyMapToSliceByStake_perm entMap stakeAcc shuffle result hshuffle hok
  refine ⟨⟨hperm, hperm.nodup_iff.mpr entMap.keys_nodup⟩, ?_, ?_, ?_⟩
  · intro acc hacc
    subst hacc
    unfold publicKeyMapToSliceByStake at hok
    cases hs : shuffle (publicKeyMapToSortedSlice entMap) with
    | none =>
      rw [hs] at hok
      cases hok
    | some entities =>
      rw [hs] at hok
      simp only at hok
      split at hok
      · cases hok
      · simp only [Option.some.injEq] at hok
        subst hok
        haveI : IsTotal K (fun a b => balanceOf acc b ≤ balanceOf acc a) :=
          ⟨fun a b => Nat.le_total _ _⟩
        haveI : IsTrans K (fun a b => balanceOf acc b ≤ balanceOf acc a) :=
          ⟨fun a b c hab hbc => Nat.le_trans hbc hab⟩
        have hsorted := List.sorted_insertionSort
          (fun a b => balanceOf acc b ≤ balanceOf acc a) entities
        refine List.Pairwise.imp ?_ hsorted
        intro a b hab ba bb ha hb
        unfold balanceOf at hab
        rw [ha, hb] at hab
        exact hab
  · intro acc shuffled a b hacc hs heq hsub
    subst hacc
    unfold publicKeyMapToSliceByStake at hok
    rw [hs] at hok
    simp only at hok
    split at hok
    · cases hok
    · simp only [Option.some.injEq] at hok
      subst hok
      haveI : IsTotal K (fun a b => balanceOf acc b ≤ balanceOf acc a) :=
        ⟨fun a b => Nat.le_total _ _⟩
      haveI : IsTrans K (fun a b => balanceOf acc b ≤ balanceOf acc a) :=
        ⟨fun a b c hab hbc => Nat.le_trans hbc hab⟩
      exact List.pair_sublist_insertionSort (r := fun a b => balanceOf acc b ≤ balanceOf acc a)
        (Nat.le_of_eq heq.symm) hsub
  · intro entMap' hkeys
    unfold publicKeyMapToSliceByStake at hok ⊢
    rw [publicKeyMapToSortedSlice_congr entMap entMap' hkeys]
    exact hok

/-- Instance of C28 on the stake-ordering scenario, with the reversal of the
slice standing for the shuffle: the sorted keys `[1, 2, 3]` are shuffled to
`[3, 2, 1]` and sorted by stake to `[2, 3, 1]`, entity 3 staying before entity
1, which has the same balance. -/
theorem entities_by_stake_witness :
    publicKeyMapToSliceByStake scenarioEntMap (some scenarioStake)
        (fun l => some l.reverse) = some [2, 3, 1] ∧
      ([2, 3, 1] : List Nat).Perm scenarioEntMap.keys ∧ ([2, 3, 1] : List Nat).Nodup :=
  ⟨by decide,
    (entities_by_stake scenarioEntMap (some scenarioStake) (fun l => some l.reverse) [2, 3, 1]
      (fun l _ h => Option.some.inj h ▸ List.reverse_perm l) (by decide)).1⟩

/-! ## Validator election -/

/-- Inserting a validator lengthens the map by at most one entry. -/
theorem length_insert_le {K : Type} [DecidableEq K] (nv : ValidatorMap K) (k : K) (p : Int) :
    (nv.insert k p).entries.length ≤ nv.entries.length + 1 := by
  rw [AList.insert_entries, List.length_cons]
  exact Nat.succ_le_succ (List.kerase_sublist k nv.entries).length_le

/-- An entry of a map after an insertion is the inserted one or was there
before. -/
theorem mem_insert_entries {K : Type} [DecidableEq K] (nv : ValidatorMap K) (k : K) (p : Int)
    (e : Sigma fun _ : K => Int) (he : e ∈ (nv.insert k p).entries) :
    e = ⟨k, p⟩ ∨ e ∈ nv.entries := by
  rw [AList.insert_entries, List.mem_cons] at he
  rcases he with h | h
  · exact Or.inl h
  · exact Or.inr ((List.kerase_sublist k nv.entries).subset h)

/-- Where the entries come from after the inner loop for the entity `v`: an
entry of the map it leaves was there before or belongs to one of the first
`MaxValidatorsPerEntity` nodes of the entity, with the power of the entity. -/
theorem electFromEntity_entries {K : Type} [DecidableEq K] (stakeAcc : Option (StakeCache K))
    (votingPower : Quantity → Option Int) (consensusID : Node K → K)
    (params : ValidatorParams) (v : K) (vec : List (Node K)) (i : Nat)
    (nv nv' : ValidatorMap K)
    (hres : electFromEntity stakeAcc votingPower consensusID params v vec i nv = .next nv' ∨
      electFromEntity stakeAcc votingPower consensusID params v vec i nv = .done nv')
    (e : Sigma fun _ : K => Int) (he : e ∈ nv'.entries) :
    e ∈ nv.entries ∨
      ∃ n ∈ vec.take (params.MaxValidatorsPerEntity.toNat - i),
        consensusID n = e.1 ∧ validatorPower stakeAcc votingPower v = .ok e.2 := by
  induction vec generalizing i nv with
  | nil =>
    unfold electFromEntity at hres
    rcases hres with h | h
    · cases h
      exact Or.inl he
    · cases h
  | cons n vec ih =>
    unfold electFromEntity at hres
    by_cases hi : (i : Int) < params.MaxValidatorsPerEntity
    · rw [if_neg (not_not.mpr hi)] at hres
      have htake : (n :: vec).take (params.MaxValidatorsPerEntity.toNat - i) =
          n :: vec.take (params.MaxValidatorsPerEntity.toNat - (i + 1)) := by
        have : params.MaxValidatorsPerEntity.toNat - i =
            (params.MaxValidatorsPerEntity.toNat - (i + 1)) + 1 := by omega
        rw [this, List.take_succ_cons]
      cases hp : validatorPower stakeAcc votingPower v with
      | error err =>
        rw [hp] at hres
        rcases hres with h | h <;> cases h
      | ok power =>
        rw [hp] at hres
        simp only at hres
        have hnew : ∀ e' : Sigma fun _ : K => Int,
            e' ∈ (nv.insert (consensusID n) power).entries →
            e' ∈ nv.entries ∨
              ∃ n' ∈ (n :: vec).take (params.MaxValidatorsPerEntity.toNat - i),
                consensusID n' = e'.1 ∧ Except.ok power = (.ok e'.2 : Except ElectError Int) := by
          intro e' he'
          rcases mem_insert_entries nv _ _ e' he' with h | h
          · refine Or.inr ⟨n, ?_, ?_, ?_⟩
            · rw [htake]
              exact List.mem_cons_self _ _
            · rw [h]
            · rw [h]
          · exact Or.inl h
        by_cases hfull : ((nv.insert (consensusID n) power).entries.length : Int) ≥
            params.MaxValidators
        · rw [if_pos hfull] at hres
          rcases hres with h | h
          · cases h
          · cases h
            exact hnew e he
        · rw [if_neg hfull] at hres
          rcases ih (i + 1) (nv.insert (consensusID n) power) hres with h | ⟨n', hn', h1, h2⟩
          · exact hnew e h
          · refine Or.inr ⟨n', ?_, h1, ?_⟩
            · rw [htake]
              exact List.mem_cons_of_mem _ hn'
            · rw [← hp]
              exact h2
    · rw [if_pos hi] at hres
      rcases hres with h | h
      · cases h
        exact Or.inl he
      · cases h

/-- Where the entries come from after the election loop: an entry of the map
it returns was there before or belongs to one of the first
`MaxValidatorsPerEntity` nodes of one of the entities visited, with the power
of that entity. -/
theorem electLoop_entries {K : Type} [DecidableEq K] (stakeAcc : Option (StakeCache K))
    (votingPower : Quantity → Option Int) (consensusID : Node K → K)
    (params : ValidatorParams) (entityNodes : K → List (Node K)) (vs : List K)
    (nv nv' : ValidatorMap K)
    (hres : electLoop stakeAcc votingPower consensusID params entityNodes vs nv = .ok nv')
    (e : Sigma fun _ : K => Int) (he : e ∈ nv'.entries) :
    e ∈ nv.entries ∨
      ∃ v ∈ vs, ∃ n ∈ (entityNodes v).take params.MaxValidatorsPerEntity.toNat,
        consensusID n = e.1 ∧ validatorPower stakeAcc votingPower v = .ok e.2 := by
  induction vs generalizing nv with
  | nil =>
    unfold electLoop at hres
    cases hres
    exact Or.inl he
  | cons v rest ih =>
    unfold electLoop at hres
    cases hent : electFromEntity stakeAcc votingPower consensusID params v (entityNodes v) 0
        nv with
    | failed err =>
      rw [hent] at hres
      cases hres
    | done nv1 =>
      rw [hent] at hres
      simp only [Except.ok.injEq] at hres
      subst hres
      rcases electFromEntity_entries stakeAcc votingPower consensusID params v (entityNodes v)
          0 nv nv1 (Or.inr hent) e he with h | ⟨n, hn, h1, h2⟩
      · exact Or.inl h
      · exact Or.inr ⟨v, List.mem_cons_self _ _, n, hn, h1, h2⟩
    | next nv1 =>
      rw [hent] at hres
      simp only at hres
      rcases ih nv1 hres with h | ⟨v', hv', n, hn, h1, h2⟩
      · rcases electFromEntity_entries stakeAcc votingPower consensusID params v
            (entityNodes v) 0 nv nv1 (Or.inl hent) e h with h' | ⟨n, hn, h1, h2⟩
        · exact Or.inl h'
        · exact Or.inr ⟨v, List.mem_cons_self _ _, n, hn, h1, h2⟩
      · exact Or.inr ⟨v', List.mem_cons_of_mem _ hv', n, hn, h1, h2⟩

/-- Size of the map after the inner loop, entered below the maximum: still
below it when the outer loop goes on, at most the maximum on
`break electLoop`. -/
theorem electFromEntity_length {K : Type} [DecidableEq K] (stakeAcc : Option (StakeCache K))
    (votingPower : Quantity → Option Int) (consensusID : Node K → K)
    (params : ValidatorParams) (v : K) (vec : List (Node K)) (i : Nat) (nv : ValidatorMap K)
    (hlt : (nv.entries.length : Int) < params.MaxValidators) :
    (∀ nv', electFromEntity stakeAcc votingPower consensusID params v vec i nv = .next nv' →
      (nv'.entries.length : Int) < params.MaxValidators) ∧
    (∀ nv', electFromEntity stakeAcc votingPower consensusID params v vec i nv = .done nv' →
      (nv'.entries.length : Int) ≤ params.MaxValidators) := by
  induction vec generalizing i nv with
  | nil =>
    unfold electFromEntity
    constructor
    · intro nv' h
      cases h
      exact hlt
    · intro nv' h
      cases h
  | cons n vec ih =>
    unfold electFromEntity
    by_cases hi : (i : Int) < params.MaxValidatorsPerEntity
    · rw [if_neg (not_not.mpr hi)]
      cases hp : validatorPower stakeAcc votingPower v with
      | error err =>
        constructor <;> intro nv' h <;> cases h
      | ok power =>
        simp only
        have hle := length_insert_le nv (consensusID n) power
        by_cases hfull : ((nv.insert (consensusID n) power).entries.length : Int) ≥
            params.MaxValidators
        · rw [if_pos hfull]
          constructor
          · intro nv' h
            cases h
          · intro nv' h
            cases h
            omega
        · rw [if_neg hfull]
          exact ih (i + 1) (nv.insert (consensusID n) power) (by omega)
    · rw [if_pos hi]
      constructor
      · intro nv' h
        cases h
        exact hlt
      · intro nv' h
        cases h

/-- Entered below the maximum, the election loop returns a map of at most
`MaxValidators` entries. -/
theorem electLoop_length {K : Type} [DecidableEq K] (stakeAcc : Option (StakeCache K))
    (votingPower : Quantity → Option Int) (consensusID : Node K → K)
    (params : ValidatorParams) (entityNodes : K → List (Node K)) (vs : List K)
    (nv nv' : ValidatorMap K) (hlt : (nv.entries.length : Int) < params.MaxValidators)
    (hres : electLoop stakeAcc votingPower consensusID params entityNodes vs nv = .ok nv') :
    (nv'.entries.length : Int) ≤ params.MaxValidators := by
  induction vs generalizing nv with
  | nil =>
    unfold electLoop at hres
    cases hres
    omega
  | cons v rest ih =>
    unfold electLoop at hres
    have hinner := electFromEntity_length stakeAcc votingPower consensusID params v
      (entityNodes v) 0 nv hlt
    cases hent : electFromEntity stakeAcc votingPower consensusID params v (entityNodes v) 0
        nv with
    | failed err =>
      rw [hent] at hres
      cases hres
    | done nv1 =>
      rw [hent] at hres
      simp only [Except.ok.injEq] at hres
      subst hres
      exact hinner.2 nv1 hent
    | next nv1 =>
      rw [hent] at hres
      exact ih nv1 (hinner.1 nv1 hent) hres

/-- A node read from the node list belongs to it. -/
theorem nodeAt_mem {K : Type} (nodeList : List (Node K)) (idx : Int) (n : Node K)
    (h : nodeAt nodeList idx = some n) : n ∈ nodeList := by
  unfold nodeAt at h
  by_cases h0 : idx < 0
  · rw [if_pos h0] at h
    cases h
  · rw [if_neg h0] at h
    exact List.getElem?_mem h

/-- The nodes gathered under an entity were there before or are nodes of the
node list that belong to that entity. -/
theorem gatherEntityNodes_mem {K : Type} [DecidableEq K] (nodeList : List (Node K))
    (idxs : List Int) (m en : K → List (Node K))
    (h : gatherEntityNodes nodeList idxs m = some en) (v : K) (n : Node K) (hn : n ∈ en v) :
    n ∈ m v ∨ (n ∈ nodeList ∧ n.EntityID = v) := by
  induction idxs generalizing m with
  | nil =>
    unfold gatherEntityNodes at h
    cases h
    exact Or.inl hn
  | cons idx rest ih =>
    unfold gatherEntityNodes at h
    cases hat : nodeAt nodeList idx with
    | none =>
      rw [hat] at h
      cases h
    | some n0 =>
      rw [hat] at h
      rcases ih _ h with h1 | h1
      · by_cases hv : v = n0.EntityID
        · subst hv
          rw [Function.update_same, List.mem_append, List.mem_singleton] at h1
          rcases h1 with h2 | h2
          · exact Or.inl h2
          · subst h2
            exact Or.inr ⟨nodeAt_mem nodeList idx n hat, rfl⟩
        · rw [Function.update_noteq hv] at h1
          exact Or.inl h1
      · exact Or.inr h1

/-- Gathering succeeds when every index is within the node list. -/
theorem gatherEntityNodes_some {K : Type} [DecidableEq K] (nodeList : List (Node K))
    (idxs : List Int) (m : K → List (Node K))
    (hidx : ∀ idx ∈ idxs, 0 ≤ idx ∧ idx < nodeList.length) :
    ∃ en, gatherEntityNodes nodeList idxs m = some en := by
  induction idxs generalizing m with
  | nil => exact ⟨m, rfl⟩
  | cons idx rest ih =>
    have hv := hidx idx (List.mem_cons_self _ _)
    obtain ⟨d, -⟩ : ∃ d, d ∈ nodeList := by
      cases nodeList with
      | nil =>
        simp only [List.length_nil] at hv
        omega
      | cons x xs => exact ⟨x, List.mem_cons_self _ _⟩
    unfold gatherEntityNodes
    rw [nodeAt_eq nodeList d idx hv.1 hv.2]
    exact ih _ (fun x hx => hidx x (List.mem_cons_of_mem _ hx))

/-- Among the first `cap` nodes of each of a list of distinct entities, at most
`cap` belong to any one entity. -/
theorem length_filter_flatMap_take_le {K : Type} [DecidableEq K] (en : K → List (Node K))
    (cap : Nat) (vs : List K) (hnodup : vs.Nodup)
    (hen : ∀ (v : K) (n : Node K), n ∈ en v → n.EntityID = v) (ent : K) :
    ((vs.flatMap fun v => (en v).take cap).filter fun n => decide (n.EntityID = ent)).length ≤
      cap := by
  have hnone : ∀ ws : List K, ent ∉ ws →
      ((ws.flatMap fun v => (en v).take cap).filter fun n => decide (n.EntityID = ent)) = [] := by
    intro ws hws
    rw [List.filter_eq_nil_iff]
    intro n hn
    rw [List.mem_flatMap] at hn
    obtain ⟨v, hv, hnv⟩ := hn
    have := hen v n (List.mem_of_mem_take hnv)
    simp only [decide_eq_true_eq]
    intro heq
    rw [this] at heq
    exact hws (heq ▸ hv)
  induction vs with
  | nil => simp
  | cons v rest ih =>
    rw [List.flatMap_cons, List.filter_append, List.length_append]
    rw [List.nodup_cons] at hnodup
    by_cases hv : v = ent
    · subst hv
      rw [hnone rest hnodup.1, List.length_nil, Nat.add_zero]
      exact (List.length_filter_le _ _).trans (List.length_take_le _ _)
    · have hfirst : ((en v).take cap).filter (fun n => decide (n.EntityID = ent)) = [] := by
        rw [List.filter_eq_nil_iff]
        intro n hn
        have := hen v n (List.mem_of_mem_take hn)
        simp only [decide_eq_true_eq]
        intro heq
        exact hv (this ▸ heq)
      rw [hfirst, List.length_nil, Nat.zero_add]
      exact ih hnodup.2

/-- What a stored pending validator set says about the run of
`electValidators` that stored it. -/
theorem electValidators_put {K : Type} [LinearOrder K] (stakeAcc : Option (StakeCache K))
    (nodes : List (Node K)) (isValidator : Node K → Bool) (consensusID : Node K → K)
    (params : ValidatorParams) (shuffle : List K → Option (List K))
    (perm : Int → Option (List Int)) (votingPower : Quantity → Option Int)
    (m : ValidatorMap K)
    (hput : electValidators stakeAcc nodes isValidator consensusID params shuffle perm
      votingPower = .putPendingValidators m) :
    ∃ (sortedEntities : List K) (idxs : List Int) (en : K → List (Node K)),
      publicKeyMapToSliceByStake
          (validatorEntMap (validatorNodeList stakeAcc isValidator nodes)) stakeAcc shuffle =
        some sortedEntities ∧
      gatherEntityNodes (validatorNodeList stakeAcc isValidator nodes) idxs (fun _ => []) =
        some en ∧
      electLoop stakeAcc votingPower consensusID params en sortedEntities ∅ = .ok m ∧
      m.entries.length ≠ 0 ∧ ¬ (m.entries.length : Int) < params.MinValidators := by
  unfold electValidators at hput
  cases hev : electedValidators stakeAcc nodes isValidator consensusID params shuffle perm
      votingPower with
  | none =>
    rw [hev] at hput
    cases hput
  | some r =>
    rw [hev] at hput
    cases r with
    | error err => cases hput
    | ok nv =>
      simp only at hput
      by_cases h0 : nv.entries.length = 0
      · rw [if_pos h0] at hput
        cases hput
      · rw [if_neg h0] at hput
        by_cases hmin : (nv.entries.length : Int) < params.MinValidators
        · rw [if_pos hmin] at hput
          cases hput
        · rw [if_neg hmin] at hput
          simp only [ValidatorsOutcome.putPendingValidators.injEq] at hput
          subst hput
          unfold electedValidators at hev
          simp only at hev
          cases hs : publicKeyMapToSliceByStake
              (validatorEntMap (validatorNodeList stakeAcc isValidator nodes)) stakeAcc
              shuffle with
          | none =>
            rw [hs] at hev
            cases hev
          | some sortedEntities =>
            rw [hs] at hev
            simp only at hev
            cases hp : perm (validatorNodeList stakeAcc isValidator nodes).length with
            | none =>
              rw [hp] at hev
              cases hev
            | some idxs =>
              rw [hp] at hev
              simp only at hev
              cases hg : gatherEntityNodes (validatorNodeList stakeAcc isValidator nodes) idxs
                  (fun _ => []) with
              | none =>
                rw [hg] at hev
                cases hev
              | some en =>
                rw [hg] at hev
                simp only [Option.some.injEq] at hev
                exact ⟨sortedEntities, idxs, en, rfl, hg, hev, h0, hmin⟩

/-- C23, evaluated where the code departs from it: the test
`len(newValidators) >= params.MaxValidators` follows the insertion, so for
`max_validators = 0`, `min_validators = 1`, `max_validators_per_entity = 1`,
stake bypassed and one eligible validator node, `electValidators` writes a set
of one member, more than the maximum number of validators; with a second
eligible node of another entity the set written is the same. -/
theorem elect_validators_zero_maximum :
    (ValidatorParams.mk 1 0 1).MaxValidators = 0 ∧
    electValidators none [(⟨1, 10⟩ : Node Nat)] (fun _ => true) (fun n => n.ID + 100)
        ⟨1, 0, 1⟩ (fun l => some l) (fun _ => some [0]) (fun _ => some 1) =
      .putPendingValidators (AList.singleton 101 1) ∧
    electValidators none [(⟨1, 10⟩ : Node Nat), ⟨2, 20⟩] (fun _ => true) (fun n => n.ID + 100)
        ⟨1, 0, 1⟩ (fun l => some l) (fun _ => some [0, 1]) (fun _ => some 1) =
      .putPendingValidators (AList.singleton 101 1) ∧
    ¬ (((AList.singleton 101 1 : ValidatorMap Nat).entries.length : Int) ≤
      (ValidatorParams.mk 1 0 1).MaxValidators) := by
  decide

/-- Away from that boundary the bounds hold: the validator set written by
`electValidators` has at most `max_validators` members when
`max_validators ≥ 1`; its members are consensus keys of eligible nodes (nodes
of the filtered node list) of which at most `max_validators_per_entity` belong
to any one entity, so that, when no consensus key is used by nodes of two
entities, at most `max_validators_per_entity` members are keys of nodes of any
one entity; and when stake is bypassed every member has voting power 1. -/
theorem elect_validators_bounds {K : Type} [LinearOrder K] (stakeAcc : Option (StakeCache K))
    (nodes : List (Node K)) (isValidator : Node K → Bool) (consensusID : Node K → K)
    (params : ValidatorParams) (shuffle : List K → Option (List K))
    (perm : Int → Option (List Int)) (votingPower : Quantity → Option Int)
    (m : ValidatorMap K)
    (hshuffle : ∀ l l' : List K, shuffle l = some l' → l'.Perm l)
    (hput : electValidators stakeAcc nodes isValidator consensusID params shuffle perm
      votingPower = .putPendingValidators m) :
    (1 ≤ params.MaxValidators → (m.entries.length : Int) ≤ params.MaxValidators) ∧
    (∃ elected : List (Node K),
      (∀ n ∈ elected, n ∈ nodes ∧ n ∈ validatorNodeList stakeAcc isValidator nodes) ∧
      (∀ k ∈ m.keys, ∃ n ∈ elected, consensusID n = k) ∧
      ∀ ent : K, ((elected.filter fun n => decide (n.EntityID = ent)).length : Int) ≤
        params.MaxValidatorsPerEntity) ∧
    ((∀ n1 ∈ nodes, ∀ n2 ∈ nodes, consensusID n1 = consensusID n2 →
        n1.EntityID = n2.EntityID) →
      ∀ ent : K,
        ((m.keys.filter fun k =>
          decide (∃ n ∈ nodes, consensusID n = k ∧ n.EntityID = ent)).length : Int) ≤
        params.MaxValidatorsPerEntity) ∧
    (stakeAcc = none → ∀ e ∈ m.entries, e.2 = 1) := by
  obtain ⟨sortedEntities, idxs, en, hsorted, hgather, hloop, hne, -⟩ :=
    electValidators_put stakeAcc nodes isValidator consensusID params shuffle perm
      votingPower m hput
  have hprov := electLoop_entries stakeAcc votingPower consensusID params en sortedEntities
    ∅ m hloop
  have hen : ∀ (v : K) (n : Node K), n ∈ en v →
      n ∈ validatorNodeList stakeAcc isValidator nodes ∧ n.EntityID = v := by
    intro v n hn
    rcases gatherEntityNodes_mem _ idxs _ en hgather v n hn with h | h
    · cases h
    · exact h
  have hnodes : ∀ n ∈ validatorNodeList stakeAcc isValidator nodes, n ∈ nodes := by
    intro n hn
    unfold validatorNodeList at hn
    exact (List.mem_filter.mp hn).1
  have hnodup : sortedEntities.Nodup :=
    (publicKeyMapToSliceByStake_perm _ stakeAcc shuffle sortedEntities hshuffle
      hsorted).nodup_iff.mpr (AList.keys_nodup _)
  -- Some entry exists, so the per-entity maximum is positive.
  have hcap : ((params.MaxValidatorsPerEntity.toNat : Nat) : Int) =
      params.MaxValidatorsPerEntity := by
    cases hentries : m.entries with
    | nil =>
      rw [hentries] at hne
      exact absurd rfl hne
    | cons e rest =>
      rcases hprov e (by rw [hentries]; exact List.mem_cons_self _ _) with h | ⟨v, -, n, hn, -⟩
      · cases h
      · have hpos : 0 < params.MaxValidatorsPerEntity.toNat := by
          by_contra hz
          have hz' : params.MaxValidatorsPerEntity.toNat = 0 := by omega
          rw [hz', List.take_zero] at hn
          cases hn
        omega
  have hcount := length_filter_flatMap_take_le en params.MaxValidatorsPerEntity.toNat
    sortedEntities hnodup (fun v n hn => (hen v n hn).2)
  have hkey : ∀ k ∈ m.keys,
      ∃ n ∈ sortedEntities.flatMap (fun v => (en v).take params.MaxValidatorsPerEntity.toNat),
        consensusID n = k := by
    intro k hk
    obtain ⟨p, hp⟩ := List.exists_of_mem_keys hk
    rcases hprov ⟨k, p⟩ hp with h | ⟨v, hv, n, hn, h1, -⟩
    · cases h
    · exact ⟨n, List.mem_flatMap.mpr ⟨v, hv, hn⟩, h1⟩
  refine ⟨?_, ?_, ?_, ?_⟩
  · intro hmax
    exact electLoop_length stakeAcc votingPower consensusID params en sortedEntities ∅ m
      (by simp only [AList.empty_entries, List.length_nil]; omega) hloop
  · refine ⟨_, ?_, hkey, ?_⟩
    · intro n hn
      obtain ⟨v, -, hnv⟩ := List.mem_flatMap.mp hn
      exact ⟨hnodes n (hen v n (List.mem_of_mem_take hnv)).1,
        (hen v n (List.mem_of_mem_take hnv)).1⟩
    · intro ent
      have := hcount ent
      omega
  · intro hcid ent
    have hsub : (m.keys.filter fun k =>
          decide (∃ n ∈ nodes, consensusID n = k ∧ n.EntityID = ent)) ⊆
        ((sortedEntities.flatMap fun v =>
          (en v).take params.MaxValidatorsPerEntity.toNat).filter
            fun n => decide (n.EntityID = ent)).map consensusID := by
      intro k hk
      rw [List.mem_filter] at hk
      obtain ⟨hkm, hattr⟩ := hk
      obtain ⟨n0, hn0, hk0, he0⟩ := of_decide_eq_true hattr
      obtain ⟨n, hn, hnk⟩ := hkey k hkm
      obtain ⟨v, -, hnv⟩ := List.mem_flatMap.mp hn
      have hnn : n ∈ nodes := hnodes n (hen v n (List.mem_of_mem_take hnv)).1
      have hent : n.EntityID = ent := by
        rw [← he0]
        exact hcid n hnn n0 hn0 (hnk.trans hk0.symm)
      exact List.mem_map.mpr ⟨n, List.mem_filter.mpr ⟨hn, decide_eq_true hent⟩, hnk⟩
    have hlen := (List.subperm_of_subset ((AList.keys_nodup m).filter _) hsub).length_le
    rw [List.length_map] at hlen
    have := hcount ent
    omega
  · intro hnone e he
    rcases hprov e he with h | ⟨v, -, n, -, -, hpow⟩
    · cases h
    · subst hnone
      unfold validatorPower at hpow
      simp only [Except.ok.injEq] at hpow
      exact hpow.symm

/-- Instance of the bounds on the validator scenario, stake bypassed, at most
five validators and one per entity: entity 20 gets node 3 and entity 10
gets node 1 elected, each with power 1. -/
theorem elect_validators_bounds_witness :
    electValidators none scenarioValidatorNodes (fun _ => true) scenarioConsensusID ⟨1, 5, 1⟩
        (fun l => some l.reverse) (fun _ => some [0, 1, 2]) (fun _ => some 1) =
      .putPendingValidators scenarioValidators ∧
    (scenarioValidators.entries.length : Int) ≤ 5 ∧
    ∀ e ∈ scenarioValidators.entries, e.2 = 1 :=
  have h := elect_validators_bounds none scenarioValidatorNodes (fun _ => true)
    scenarioConsensusID ⟨1, 5, 1⟩ (fun l => some l.reverse) (fun _ => some [0, 1, 2])
    (fun _ => some 1) scenarioValidators
    (fun l _ h => Option.some.inj h ▸ List.reverse_perm l) (by decide)
  ⟨by decide, h.1 (by decide), h.2.2.2 rfl⟩

/-- When the power of every entity can be computed, the inner loop returns no
error. -/
theorem electFromEntity_not_failed {K : Type} [DecidableEq K]
    (stakeAcc : Option (StakeCache K)) (votingPower : Quantity → Option Int)
    (consensusID : Node K → K) (params : ValidatorParams)
    (hpow : ∀ v : K, ∃ p, validatorPower stakeAcc votingPower v = .ok p)
    (v : K) (vec : List (Node K)) (i : Nat) (nv : ValidatorMap K) (err : ElectError) :
    electFromEntity stakeAcc votingPower consensusID params v vec i nv ≠ .failed err := by
  induction vec generalizing i nv with
  | nil =>
    unfold electFromEntity
    intro h
    cases h
  | cons n vec ih =>
    unfold electFromEntity
    by_cases hi : (i : Int) < params.MaxValidatorsPerEntity
    · rw [if_neg (not_not.mpr hi)]
      obtain ⟨p, hp⟩ := hpow v
      rw [hp]
      simp only
      by_cases hfull : ((nv.insert (consensusID n) p).entries.length : Int) ≥
          params.MaxValidators
      · rw [if_pos hfull]
        intro h
        cases h
      · rw [if_neg hfull]
        exact ih (i + 1) _
    · rw [if_pos hi]
      intro h
      cases h

/-- When the power of every entity can be computed, the election loop returns
a map. -/
theorem electLoop_ok {K : Type} [DecidableEq K] (stakeAcc : Option (StakeCache K))
    (votingPower : Quantity → Option Int) (consensusID : Node K → K)
    (params : ValidatorParams) (entityNodes : K → List (Node K))
    (hpow : ∀ v : K, ∃ p, validatorPower stakeAcc votingPower v = .ok p)
    (vs : List K) (nv : ValidatorMap K) :
    ∃ nv', electLoop stakeAcc votingPower consensusID params entityNodes vs nv = .ok nv' := by
  induction vs generalizing nv with
  | nil => exact ⟨nv, rfl⟩
  | cons v rest ih =>
    unfold electLoop
    cases hent : electFromEntity stakeAcc votingPower consensusID params v (entityNodes v) 0
        nv with
    | failed err =>
      exact absurd hent
        (electFromEntity_not_failed stakeAcc votingPower consensusID params hpow v _ 0 nv err)
    | done nv1 => exact ⟨nv1, rfl⟩
    | next nv1 => exact ih nv1

/-- When the DRBG instantiates and every balance look-up succeeds, the entities
can be sorted by stake. -/
theorem publicKeyMapToSliceByStake_some {K : Type} [LinearOrder K]
    (entMap : AList (fun _ : K => Bool)) (stakeAcc : Option (StakeCache K))
    (shuffle : List K → Option (List K))
    (hshuffle : ∀ l : List K, ∃ l', shuffle l = some l')
    (hbal : ∀ acc : StakeCache K, stakeAcc = some acc →
      ∀ e : K, ∃ q, acc.GetEscrowBalance e = some q) :
    ∃ r, publicKeyMapToSliceByStake entMap stakeAcc shuffle = some r := by
  unfold publicKeyMapToSliceByStake
  obtain ⟨entities, hs⟩ := hshuffle (publicKeyMapToSortedSlice entMap)
  rw [hs]
  cases stakeAcc with
  | none => exact ⟨entities, rfl⟩
  | some acc =>
    simp only
    rw [if_neg]
    · exact ⟨_, rfl⟩
    · rintro ⟨-, e, -, he⟩
      obtain ⟨q, hq⟩ := hbal acc rfl e
      rw [hq] at he
      cases he

/-- C24: when the DRBG instantiates and the balance look-ups and voting-power
conversions succeed, the loops of `electValidators` elect a set, and
`electValidators` returns an error, writing no pending validator set, exactly
when that set is empty or has fewer than `min_validators` members; otherwise it
stores the elected set as the pending validators. -/
theorem elect_validators_error_iff {K : Type} [LinearOrder K]
    (stakeAcc : Option (StakeCache K)) (nodes : List (Node K)) (isValidator : Node K → Bool)
    (consensusID : Node K → K) (params : ValidatorParams)
    (shuffle : List K → Option (List K)) (perm : Int → Option (List Int))
    (votingPower : Quantity → Option Int) (idxs : List Int)
    (hshuffle : ∀ l : List K, ∃ l', shuffle l = some l')
    (hbal : ∀ acc : StakeCache K, stakeAcc = some acc →
      ∀ e : K, ∃ q, acc.GetEscrowBalance e = some q)
    (hpower : ∀ q : Quantity, ∃ p, votingPower q = some p)
    (hperm : perm (validatorNodeList stakeAcc isValidator nodes).length = some idxs)
    (hidx : ∀ idx ∈ idxs,
      0 ≤ idx ∧ idx < (validatorNodeList stakeAcc isValidator nodes).length) :
    ∃ elected : ValidatorMap K,
      electedValidators stakeAcc nodes isValidator consensusID params shuffle perm
          votingPower = some (.ok elected) ∧
      ((∃ err, electValidators stakeAcc nodes isValidator consensusID params shuffle perm
          votingPower = .failed err) ↔
        (elected.entries.length = 0 ∨
          (elected.entries.length : Int) < params.MinValidators)) ∧
      ((elected.entries.length = 0 ∨
          (elected.entries.length : Int) < params.MinValidators) →
        ∀ m, electValidators stakeAcc nodes isValidator consensusID params shuffle perm
          votingPower ≠ .putPendingValidators m) ∧
      (¬ (elected.entries.length = 0 ∨
          (elected.entries.length : Int) < params.MinValidators) →
        electValidators stakeAcc nodes isValidator consensusID params shuffle perm
          votingPower = .putPendingValidators elected) := by
  have hpow : ∀ v : K, ∃ p, validatorPower stakeAcc votingPower v = .ok p := by
    intro v
    unfold validatorPower
    cases stakeAcc with
    | none => exact ⟨1, rfl⟩
    | some acc =>
      obtain ⟨q, hq⟩ := hbal acc rfl v
      obtain ⟨p, hp⟩ := hpower q
      simp only [hq, hp]
      exact ⟨p, rfl⟩
  obtain ⟨sortedEntities, hs⟩ := publicKeyMapToSliceByStake_some
    (validatorEntMap (validatorNodeList stakeAcc isValidator nodes)) stakeAcc shuffle
    hshuffle hbal
  obtain ⟨en, hg⟩ := gatherEntityNodes_some (validatorNodeList stakeAcc isValidator nodes)
    idxs (fun _ => []) hidx
  obtain ⟨elected, hl⟩ := electLoop_ok stakeAcc votingPower consensusID params en hpow
    sortedEntities ∅
  have hev : electedValidators stakeAcc nodes isValidator consensusID params shuffle perm
      votingPower = some (.ok elected) := by
    unfold electedValidators
    simp only [hs, hperm, hg, hl]
  refine ⟨elected, hev, ?_, ?_, ?_⟩
  · unfold electValidators
    rw [hev]
    simp only
    by_cases h0 : elected.entries.length = 0
    · rw [if_pos h0]
      exact ⟨fun _ => Or.inl h0, fun _ => ⟨_, rfl⟩⟩
    · rw [if_neg h0]
      by_cases hmin : (elected.entries.length : Int) < params.MinValidators
      · rw [if_pos hmin]
        exact ⟨fun _ => Or.inr hmin, fun _ => ⟨_, rfl⟩⟩
      · rw [if_neg hmin]
        constructor
        · rintro ⟨err, h⟩
          cases h
        · rintro (h | h)
          · exact absurd h h0
          · exact absurd h hmin
  · intro hor m
    unfold electValidators
    rw [hev]
    simp only
    by_cases h0 : elected.entries.length = 0
    · rw [if_pos h0]
      intro h
      cases h
    · rw [if_neg h0]
      have hmin : (elected.entries.length : Int) < params.MinValidators := by
        rcases hor with h | h
        · exact absurd h h0
        · exact h
      rw [if_pos hmin]
      intro h
      cases h
  · intro hnot
    unfold electValidators
    rw [hev]
    simp only
    rw [if_neg (fun h => hnot (Or.inl h)), if_neg (fun h => hnot (Or.inr h))]

/-- Instance of C24 on the validator scenario: two validators are elected; with
`min_validators = 3` the call fails with "insufficient validators". -/
theorem elect_validators_error_iff_witness :
    electValidators none scenarioValidatorNodes (fun _ => true) scenarioConsensusID ⟨3, 5, 1⟩
        (fun l => some l.reverse) (fun _ => some [0, 1, 2]) (fun _ => some 1) =
      .failed .insufficientValidators ∧
    ∃ elected : ValidatorMap Nat,
      electedValidators none scenarioValidatorNodes (fun _ => true) scenarioConsensusID
          ⟨3, 5, 1⟩ (fun l => some l.reverse) (fun _ => some [0, 1, 2]) (fun _ => some 1) =
        some (.ok elected) :=
  ⟨by decide,
    (elect_validators_error_iff none scenarioValidatorNodes (fun _ => true)
      scenarioConsensusID ⟨3, 5, 1⟩ (fun l => some l.reverse) (fun _ => some [0, 1, 2])
      (fun _ => some 1) [0, 1, 2] (fun l => ⟨_, rfl⟩) (fun _ h => nomatch h)
      (fun _ => ⟨_, rfl⟩) rfl (by decide)).imp fun _ h => h.1⟩
